import Mathlib

/-!
# go-graphiti: graph builder and distance / grouping / cycle engine

A shallow embedding of `graphiti.go`.

Modelling conventions
* Go `int` values (costs, `R.Dist`, `R.Steps`, group ids) are integers (`Int`);
  slice positions (node indices, `[3]int` edge endpoints, which the builder
  only ever produces from `len` and `range`) are natural numbers.
* Go `int` is taken to be 64 bits wide.  The one sum whose operands come from
  the source, the candidate distance `dist + cost` of `distance`, wraps around
  as in Go (`intAdd`).  The counters (`steps`, the next group id) stay below
  the number of nodes plus two and are not wrapped.
* A slice is a `List`; every indexing that can panic in Go is an explicit
  bounds check and yields `Res.outOfRange`.
* `map[ID]int` is an association list with unique keys (`mapSet` overwrites).
* Loops whose trip count depends on data that grows while the loop runs
  (`distance`, the node loop of `newGraph`) take a fuel argument; running out
  of fuel is `Res.outOfFuel`, which is different from every Go result.
-/

namespace GoGraphiti

/-- Outcome of running a piece of the Go program: a normal return, a run-time
panic for an index out of range, or the model running out of fuel. -/
inductive Res (α : Type) where
  | ok (a : α) : Res α
  | outOfRange : Res α
  | outOfFuel : Res α
deriving DecidableEq, Repr

/-- Sequencing of outcomes. -/
def Res.bind {α β : Type} (r : Res α) (f : α → Res β) : Res β :=
  match r with
  | .ok a => f a
  | .outOfRange => .outOfRange
  | .outOfFuel => .outOfFuel

/-- The result cell `R` of the matrix. -/
structure R where
  Steps : Int
  Dist : Int
deriving DecidableEq, Repr

/-- The zero cell `R{}`. -/
def R.zero : R := { Steps := 0, Dist := 0 }

/-- The canonical snapshot `Graph[ID]`. -/
structure Graph (ID : Type) where
  Nodes : List ID
  IndexOf : List (ID × Nat)
  Edges : List (Nat × Nat × Int)
  GroupOf : List Int
  M : List (List R)
deriving DecidableEq, Repr

/-- The Go constant `unset`. -/
def unset : Int := 0

/-- The zero value `&Graph[ID]{}`. -/
def Graph.empty {ID : Type} : Graph ID :=
  { Nodes := [], IndexOf := [], Edges := [], GroupOf := [], M := [] }

section Engine

variable {ID : Type}

/-- Go `getEdges`: the `(dst, cost)` pairs of the edges leaving `id`, in edge order. -/
def Graph.getEdges (g : Graph ID) (id : Nat) : List (Nat × Int) :=
  (g.Edges.filter (fun e => e.1 = id)).map (fun e => (e.2.1, e.2.2))

/-- Go `set`: improve cell `(x, y)` with a candidate distance and hop count; the
two fields are updated independently and the result tells whether `Dist` was
written. -/
def Graph.set (g : Graph ID) (x y : Nat) (dist steps : Int) : Res (Graph ID × Bool) :=
  match g.M[x]? with
  | none => .outOfRange
  | some row =>
    match row[y]? with
    | none => .outOfRange
    | some r =>
      let shorter : Bool := decide (r.Dist = unset) || decide (r.Dist > dist)
      let d := if shorter then dist else r.Dist
      let s := if r.Steps = 0 ∨ r.Steps > steps then steps else r.Steps
      .ok ({ g with M := g.M.set x (row.set y { Steps := s, Dist := d }) }, shorter)

/-- The inner `for _, e2 := range g.getEdges(e[0])` of `distance`: every edge
whose target is not yet marked is marked and appended to the next frontier. -/
def expand (done : List Bool) (nextQ : List (Nat × Int)) :
    List (Nat × Int) → Res (List Bool × List (Nat × Int))
  | [] => .ok (done, nextQ)
  | e2 :: rest =>
    match done[e2.1]? with
    | none => .outOfRange
    | some true => expand done nextQ rest
    | some false => expand (done.set e2.1 true) (nextQ ++ [e2]) rest

/-- The value of a Go `int` computation whose exact result is `x`: the
representative of `x` modulo `2^64` in the range from `-2^63` to `2^63 - 1`. -/
def wrapInt (x : Int) : Int :=
  (x + 9223372036854775808) % 18446744073709551616 - 9223372036854775808

/-- Go `a + b` on `int`. -/
def intAdd (a b : Int) : Int := wrapInt (a + b)

/-- The state carried through one frontier layer of `distance`. -/
structure LayerState (ID : Type) where
  g : Graph ID
  done : List Bool
  nextQ : List (Nat × Int)
  nextDist : Int

/-- The `for _, e := range q` loop of `distance` for one layer. -/
def layer (src : Nat) (dist steps : Int) :
    List (Nat × Int) → LayerState ID → Res (LayerState ID)
  | [], st => .ok st
  | e :: rest, st =>
    let c := intAdd dist e.2
    match st.g.set src e.1 c steps with
    | .outOfRange => .outOfRange
    | .outOfFuel => .outOfFuel
    | .ok (g1, shorter) =>
      let nextDist := if shorter then c else st.nextDist
      match expand st.done st.nextQ (g1.getEdges e.1) with
      | .outOfRange => .outOfRange
      | .outOfFuel => .outOfFuel
      | .ok (done1, nextQ1) =>
        layer src dist steps rest
          { g := g1, done := done1, nextQ := nextQ1, nextDist := nextDist }

/-- The outer `for steps := 1; len(q) > 0; steps += 1` loop of `distance`. -/
def distanceLoop (src : Nat) :
    Nat → Graph ID → List Bool → List (Nat × Int) → Int → Int → Res (Graph ID)
  | _, g, _, [], _, _ => .ok g
  | 0, _, _, _ :: _, _, _ => .outOfFuel
  | fuel + 1, g, done, e :: q, dist, steps =>
    match layer src dist steps (e :: q)
        { g := g, done := done, nextQ := [], nextDist := 0 } with
    | .outOfRange => .outOfRange
    | .outOfFuel => .outOfFuel
    | .ok st => distanceLoop src fuel st.g st.done st.nextQ st.nextDist (steps + 1)

/-- Go `distance` with an explicit bound on the number of layers. -/
def Graph.distanceFuel (g : Graph ID) (fuel : Nat) (src : Nat) : Res (Graph ID) :=
  distanceLoop src fuel g (List.replicate g.Nodes.length false) (g.getEdges src) 0 1

/-- Go `distance`: the per-source layered frontier expansion.  Each layer after
the first marks at least one new node, so `len(Nodes) + 1` layers are enough. -/
def Graph.distance (g : Graph ID) (src : Nat) : Res (Graph ID) :=
  g.distanceFuel (g.Nodes.length + 1) src

/-- The `for i := range g.Nodes` loop of `AllDistances`, from index `i`. -/
def allDistancesFrom : Nat → Nat → Graph ID → Res (Graph ID)
  | 0, _, g => .ok g
  | n + 1, i, g =>
    match g.distance i with
    | .outOfRange => .outOfRange
    | .outOfFuel => .outOfFuel
    | .ok g1 => allDistancesFrom n (i + 1) g1

/-- Go `AllDistances`: the per-source procedure for every index in order. -/
def Graph.AllDistances (g : Graph ID) : Res (Graph ID) :=
  allDistancesFrom g.Nodes.length 0 g

/-- The `for xy := range g.M` loop of `HasCycles`, from index `xy`. -/
def hasCyclesFrom (M : List (List R)) : Nat → Nat → Res Bool
  | 0, _ => .ok false
  | n + 1, xy =>
    match M[xy]? with
    | none => .outOfRange
    | some row =>
      match row[xy]? with
      | none => .outOfRange
      | some r =>
        if r ≠ R.zero then .ok true else hasCyclesFrom M n (xy + 1)

/-- Go `HasCycles`: some diagonal cell differs from the zero cell. -/
def Graph.HasCycles (g : Graph ID) : Res Bool :=
  hasCyclesFrom g.M g.M.length 0

/-- Go `getIdx`: position of the first occurrence of `id` in `Nodes`; `none`
stands for the Go result `-1`. -/
def getIdxFrom [DecidableEq ID] (id : ID) : List ID → Nat → Option Nat
  | [], _ => none
  | id2 :: rest, i => if id = id2 then some i else getIdxFrom id rest (i + 1)

/-- Go `getIdx` on a graph. -/
def Graph.getIdx [DecidableEq ID] (g : Graph ID) (id : ID) : Option Nat :=
  getIdxFrom id g.Nodes 0

/-- The errors of the package: `ErrNotFound`, `ErrBrokenEdge`, and the two
`fmt.Errorf` errors of `addEdges` with the values they format. -/
inductive Err (ID : Type) where
  | notFound (node : ID) : Err ID
  | brokenEdge (src dst : ID) : Err ID
  | negativeCost (src dst : ID) (cost : Int) : Err ID
  | lengthsDiffer (ids costs : Nat) : Err ID
deriving DecidableEq, Repr

/-- Go `Steps`: resolve both ids, re-run the per-source procedure for the row of
`src`, and read the hop count.  The result is the graph after the call, the
returned integer and the returned error. -/
def Graph.Steps [DecidableEq ID] (g : Graph ID) (src dst : ID) :
    Res (Graph ID × Int × Option (Err ID)) :=
  match g.getIdx src with
  | none => .ok (g, 0, some (.notFound src))
  | some x =>
    match g.getIdx dst with
    | none => .ok (g, 0, some (.notFound dst))
    | some y =>
      match g.distance x with
      | .outOfRange => .outOfRange
      | .outOfFuel => .outOfFuel
      | .ok g1 =>
        match g1.M[x]? with
        | none => .outOfRange
        | some row =>
          match row[y]? with
          | none => .outOfRange
          | some r => .ok (g1, r.Steps, none)

/-- Go `updateGroups`: give ungrouped endpoints a fresh id, then merge the larger
group id into the smaller one. -/
def Graph.updateGroups (g : Graph ID) (x y : Nat) : Res (Graph ID) :=
  let next : Int := g.GroupOf.foldl max 0 + 1
  match g.GroupOf[x]? with
  | none => .outOfRange
  | some gx =>
    let go1 := if gx = unset then g.GroupOf.set x next else g.GroupOf
    match go1[y]? with
    | none => .outOfRange
    | some gy =>
      let go2 := if gy = unset then go1.set y next else go1
      match go2[x]?, go2[y]? with
      | some ax, some ay =>
        if ax = ay then .ok { g with GroupOf := go2 }
        else
          let mn := min ax ay
          let mx := max ax ay
          .ok { g with GroupOf := go2.map (fun v => if v = mx then mn else v) }
      | _, _ => .outOfRange

/-- The body of the loop of `Groups` for one node: pad `gs` with empty lists up
to length `gr`, then append the node to list `gr - 1`. -/
def groupsStep (gs : List (List ID)) (gr : Int) (node : ID) : Res (List (List ID)) :=
  let padded := gs ++ List.replicate (gr.toNat - gs.length) []
  if gr - 1 < 0 then .outOfRange
  else
    match padded[(gr - 1).toNat]? with
    | none => .outOfRange
    | some l => .ok (padded.set (gr - 1).toNat (l ++ [node]))

/-- The `for idx, gr := range g.GroupOf` loop of `Groups`, from index `i`. -/
def groupsFrom (nodes : List ID) : List Int → Nat → List (List ID) → Res (List (List ID))
  | [], _, gs => .ok gs
  | gr :: rest, i, gs =>
    match nodes[i]? with
    | none => .outOfRange
    | some node =>
      match groupsStep gs gr node with
      | .outOfRange => .outOfRange
      | .outOfFuel => .outOfFuel
      | .ok gs1 => groupsFrom nodes rest (i + 1) gs1

/-- Go `Groups`: the member lists, list `k - 1` holding the nodes of group id `k`. -/
def Graph.Groups (g : Graph ID) : Res (List (List ID)) :=
  groupsFrom g.Nodes g.GroupOf 0 []

end Engine

section Builder

variable {G N ID : Type}

/-- The capability set `Graphiti[G, N, ID]`; `GetNode` returns `none` for the
Go result `(_, false)`. -/
structure Graphiti (G N ID : Type) where
  GetName : N → ID
  GetNode : G → ID → Option N
  GetNext : G → N → List ID × List Int
  GetNodes : G → List ID

/-- Map read `v, ok := m[k]`. -/
def mapGet [DecidableEq ID] : List (ID × Nat) → ID → Option Nat
  | [], _ => none
  | (k, v) :: m, id => if k = id then some v else mapGet m id

/-- Map write `m[k] = v`: overwrite the entry of an existing key, else add one. -/
def mapSet [DecidableEq ID] : List (ID × Nat) → ID → Nat → List (ID × Nat)
  | [], k, v => [(k, v)]
  | (k1, v1) :: m, k, v => if k1 = k then (k1, v) :: m else (k1, v1) :: mapSet m k v

/-- The loop `for i, id := range g.Nodes { g.IndexOf[id] = i }`, from index `i`. -/
def indexFrom [DecidableEq ID] : List ID → Nat → List (ID × Nat) → List (ID × Nat)
  | [], _, m => m
  | id :: rest, i, m => indexFrom rest (i + 1) (mapSet m id i)

/-- Go `appendNewNode`: append the name of the node, a zero group id, a zero
column to every row and a zero row; returns the new index. -/
def Graphiti.appendNewNode [DecidableEq ID] (gr : Graphiti G N ID) (g : Graph ID)
    (newNode : N) : Graph ID × Nat :=
  let name := gr.GetName newNode
  let nodes := g.Nodes ++ [name]
  let i := nodes.length - 1
  ({ Nodes := nodes
     IndexOf := mapSet g.IndexOf name i
     Edges := g.Edges
     GroupOf := g.GroupOf ++ [0]
     M := g.M.map (fun row => row ++ [R.zero]) ++ [List.replicate nodes.length R.zero] }, i)

/-- The part of the loop body of `addEdges` that finds the index of a neighbour
id: the known index, or a newly appended node when the lookup succeeds, or
`none` when the lookup fails. -/
def Graphiti.resolveTarget [DecidableEq ID] (gr : Graphiti G N ID) (graph : G)
    (g : Graph ID) (e : ID) : Option (Graph ID × Nat) :=
  match mapGet g.IndexOf e with
  | some idx2 => some (g, idx2)
  | none =>
    match gr.GetNode graph e with
    | none => none
    | some xn => some (gr.appendNewNode g xn)

/-- The `for j := range es` loop of `addEdges` over the aligned pairs
`(es[j], ds[j])`. -/
def Graphiti.addEdgesLoop [DecidableEq ID] (gr : Graphiti G N ID) (graph : G) (id : ID)
    (idx : Nat) (persevere : Bool) :
    List (ID × Int) → Graph ID → List (Err ID) → Res (Bool × Graph ID × List (Err ID))
  | [], g, errs => .ok (true, g, errs)
  | (e, d) :: rest, g, errs =>
    if d < 0 then
      if persevere then
        gr.addEdgesLoop graph id idx persevere rest g (errs ++ [.negativeCost id e d])
      else .ok (false, g, errs ++ [.negativeCost id e d])
    else
      match gr.resolveTarget graph g e with
      | none =>
        if persevere then
          gr.addEdgesLoop graph id idx persevere rest g (errs ++ [.brokenEdge id e])
        else .ok (false, g, errs ++ [.brokenEdge id e])
      | some (g1, idx2) =>
        match g1.updateGroups idx idx2 with
        | .outOfRange => .outOfRange
        | .outOfFuel => .outOfFuel
        | .ok g2 =>
          gr.addEdgesLoop graph id idx persevere rest
            { g2 with Edges := g2.Edges ++ [(idx, idx2, d)] } errs

/-- Go `addEdges`: look the node up, fetch its neighbours and add one edge per
neighbour.  The result is the `ok` flag, the graph after the call and the
errors of this call. -/
def Graphiti.addEdges [DecidableEq ID] (gr : Graphiti G N ID) (graph : G) (id : ID)
    (g : Graph ID) (idx : Nat) (persevere : Bool) : Res (Bool × Graph ID × List (Err ID)) :=
  match gr.GetNode graph id with
  | none => .ok (persevere, g, [.notFound id])
  | some n =>
    let es := (gr.GetNext graph n).1
    let ds := (gr.GetNext graph n).2
    if es.length ≠ ds.length then .ok (false, g, [.lengthsDiffer es.length ds.length])
    else gr.addEdgesLoop graph id idx persevere (es.zip ds) g []

/-- The graph of `newGraph` before the node loop: initial ids, their index
map, a zero matrix and zero group ids. -/
def Graphiti.initGraph [DecidableEq ID] (gr : Graphiti G N ID) (graph : G)
    (nodes : List N) : Graph ID :=
  let ids := if nodes.length = 0 then gr.GetNodes graph else nodes.map gr.GetName
  { Nodes := ids
    IndexOf := indexFrom ids 0 []
    Edges := []
    GroupOf := List.replicate ids.length 0
    M := List.replicate ids.length (List.replicate ids.length R.zero) }

/-- What `newGraph` returns once the node loop has run to its end. -/
def buildFinish (g : Graph ID) : Option (Graph ID) × List (Err ID) :=
  if g.Nodes.length = 0 then (some Graph.empty, []) else (some g, [])

/-- The loop `for idx := 0; idx < len(g.Nodes); idx += 1` of `newGraph`; the
slice `Nodes` may grow while it runs, so the loop takes fuel. -/
def Graphiti.buildLoop [DecidableEq ID] (gr : Graphiti G N ID) (graph : G)
    (persevere : Bool) :
    Nat → Nat → Graph ID → List (Err ID) → Res (Option (Graph ID) × List (Err ID))
  | 0, idx, g, _ =>
    match g.Nodes[idx]? with
    | none => .ok (buildFinish g)
    | some _ => .outOfFuel
  | fuel + 1, idx, g, errs =>
    match g.Nodes[idx]? with
    | none => .ok (buildFinish g)
    | some id =>
      match gr.addEdges graph id g idx persevere with
      | .outOfRange => .outOfRange
      | .outOfFuel => .outOfFuel
      | .ok (ok, g1, errs2) =>
        if ok then gr.buildLoop graph persevere fuel (idx + 1) g1 (errs ++ errs2)
        else .ok (none, errs ++ errs2)

/-- Go `newGraph`: returns the graph (`none` for the Go `nil`) and the error list. -/
def Graphiti.newGraph [DecidableEq ID] (gr : Graphiti G N ID) (fuel : Nat) (graph : G)
    (nodes : List N) (persevere : Bool) : Res (Option (Graph ID) × List (Err ID)) :=
  gr.buildLoop graph persevere fuel 0 (gr.initGraph graph nodes) []

/-- Go `errors.Join`: `nil` for no errors, else one error wrapping the list. -/
def errorsJoin (errs : List (Err ID)) : Option (List (Err ID)) :=
  match errs with
  | [] => none
  | e :: rest => some (e :: rest)

/-- Go `New`: the strict build. -/
def Graphiti.New [DecidableEq ID] (gr : Graphiti G N ID) (fuel : Nat) (graph : G)
    (nodes : List N) : Res (Option (Graph ID) × Option (List (Err ID))) :=
  match gr.newGraph fuel graph nodes false with
  | .outOfRange => .outOfRange
  | .outOfFuel => .outOfFuel
  | .ok (g, errs) => .ok (g, errorsJoin errs)

/-- Go `Validate`: the lenient build. -/
def Graphiti.Validate [DecidableEq ID] (gr : Graphiti G N ID) (fuel : Nat) (graph : G)
    (nodes : List N) : Res (Option (Graph ID) × List (Err ID)) :=
  gr.newGraph fuel graph nodes true

end Builder

end GoGraphiti

/-! ## Notions used to state the properties -/

namespace GoGraphiti

section SpecNotions

variable {ID : Type}

/-- The cell `M[x][y]`, read as the zero cell outside the matrix. -/
def cellM (M : List (List R)) (x y : Nat) : R :=
  match M[x]? with
  | none => R.zero
  | some row => (row[y]?).getD R.zero

/-- The cell `g.M[x][y]`. -/
def Graph.cell (g : Graph ID) (x y : Nat) : R := cellM g.M x y

/-- Here `Walk E n a b` says that there is a directed walk of exactly `n` edges (`n ≥ 1`)
from index `a` to index `b` over the edge list `E`. -/
inductive Walk (E : List (Nat × Nat × Int)) : Nat → Nat → Nat → Prop
  | one {a b : Nat} {c : Int} : (a, b, c) ∈ E → Walk E 1 a b
  | snoc {n a b d : Nat} {c : Int} : Walk E n a b → (b, d, c) ∈ E → Walk E (n + 1) a d

/-- Here `v` is the hop count the distance engine should report for `(s, t)`: the
least length of a non-empty walk from `s` to `t`, and `0` when there is none. -/
def IsMinSteps (E : List (Nat × Nat × Int)) (s t : Nat) (v : Int) : Prop :=
  (v = 0 ∧ ∀ n, ¬ Walk E n s t) ∨
  (0 < v ∧ Walk E v.toNat s t ∧ ∀ n, Walk E n s t → v ≤ (n : Int))

/-- The structural invariants of a graph: group ids, matrix rows and matrix
columns are as many as the nodes, and every edge joins valid indices. -/
structure Graph.WF (g : Graph ID) : Prop where
  groups : g.GroupOf.length = g.Nodes.length
  rows : g.M.length = g.Nodes.length
  cols : ∀ row ∈ g.M, row.length = g.Nodes.length
  edges : ∀ e ∈ g.Edges, e.1 < g.Nodes.length ∧ e.2.1 < g.Nodes.length

/-- Every cell of the matrix is the zero cell. -/
def Graph.ZeroMatrix (g : Graph ID) : Prop :=
  ∀ row ∈ g.M, ∀ r ∈ row, r = R.zero

/-- Two graphs differ at most in their matrix. -/
def SameFrame (g g1 : Graph ID) : Prop :=
  g1.Nodes = g.Nodes ∧ g1.IndexOf = g.IndexOf ∧ g1.Edges = g.Edges ∧ g1.GroupOf = g.GroupOf

/-- Every edge of `E` costs `c`, `c` is positive, and on `N` nodes no candidate
distance overflows: the largest one, `c * (N + 1)`, is below `2^63`. -/
def Uniform (E : List (Nat × Nat × Int)) (N : Nat) (c : Int) : Prop :=
  0 < c ∧ c * ((N : Int) + 1) < 9223372036854775808 ∧ ∀ e ∈ E, e.2.2 = c

/-- What the per-source procedure establishes for row `s` of a fresh matrix:
minimal hop counts, untouched cells for unreachable targets and, when every
edge costs the same positive `c` and no candidate distance overflows,
distances that are `c` times the hop count. -/
def RowDone (g : Graph ID) (c : Int) (s : Nat) : Prop :=
  ∀ t, IsMinSteps g.Edges s t (g.cell s t).Steps ∧
    ((g.cell s t).Steps = 0 → g.cell s t = R.zero) ∧
    (Uniform g.Edges g.Nodes.length c → (g.cell s t).Dist = c * (g.cell s t).Steps)

/-- The invariant of `distance` inside layer number `k` with base distance
`dist`: `q` is the frontier of the layer, `pre` the part of it already
processed, and `st` the state reached.  With `pre = []` and an empty next
frontier it is the invariant of the outer loop at the start of layer `k`. -/
structure LayerInv (E : List (Nat × Nat × Int)) (N src : Nat) (c : Int) (k : Nat)
    (dist : Int) (q pre : List (Nat × Int)) (st : LayerState ID) : Prop where
  frame : st.g.Edges = E
  valid : ∀ e ∈ E, e.1 < N ∧ e.2.1 < N
  srcLt : src < N
  rows : st.g.M.length = N
  cols : ∀ row ∈ st.g.M, row.length = N
  doneLen : st.done.length = N
  sound : ∀ t, (cellM st.g.M src t).Steps ≠ 0 →
    0 < (cellM st.g.M src t).Steps ∧ (cellM st.g.M src t).Steps ≤ (k : Int) ∧
      Walk E (cellM st.g.M src t).Steps.toNat src t
  early : ∀ t n, n < k → Walk E n src t →
    (cellM st.g.M src t).Steps ≠ 0 ∧ (cellM st.g.M src t).Steps ≤ (n : Int)
  cur : ∀ t, Walk E k src t → (∃ w, (t, w) ∈ q) ∨ (cellM st.g.M src t).Steps ≠ 0
  curWalk : ∀ e ∈ q, Walk E k src e.1
  curEdge : ∀ e ∈ q, ∃ p, (p, e.1, e.2) ∈ E
  nextEdge : ∀ e ∈ st.nextQ, ∃ p, (p, e.1, e.2) ∈ E
  preSet : ∀ e ∈ pre, (cellM st.g.M src e.1).Steps ≠ 0
  marked : ∀ t : Nat, st.done[t]? = some true →
    (∃ w, (t, w) ∈ q) ∨ (∃ w, (t, w) ∈ st.nextQ) ∨ (cellM st.g.M src t).Steps ≠ 0
  closed : ∀ (p t : Nat) (w : Int), (cellM st.g.M src p).Steps ≠ 0 → (p, t, w) ∈ E →
    st.done[t]? = some true
  next : ∀ e ∈ st.nextQ, Walk E (k + 1) src e.1
  zero : ∀ t, (cellM st.g.M src t).Steps = 0 → cellM st.g.M src t = R.zero
  base : Uniform E N c → q ≠ [] → dist = c * ((k : Int) - 1)
  distOk : Uniform E N c → ∀ t, (cellM st.g.M src t).Dist = c * (cellM st.g.M src t).Steps
  carry : Uniform E N c → st.nextQ ≠ [] → st.nextDist = c * (k : Int)
  budget : q ≠ [] → k + st.done.count false + st.nextQ.length ≤ N + 1

/-- The index map is the inverse of `Nodes`: no id occurs twice in `Nodes`, the
keys of `IndexOf` are the ids of `Nodes`, and every id is mapped to its position. -/
structure Graph.IndexInv [DecidableEq ID] (g : Graph ID) : Prop where
  nodup : g.Nodes.Nodup
  keys : g.IndexOf.map Prod.fst = g.Nodes
  get : ∀ i id, g.Nodes[i]? = some id → mapGet g.IndexOf id = some i

/-- The invariant of the builder: the structural invariants, a zero matrix,
index-map values and edge costs in range and, under the assumption `F` on the
source, an index map that inverts `Nodes`. -/
structure BuildInv [DecidableEq ID] (F : Prop) (g : Graph ID) : Prop where
  wf : g.WF
  zero : g.ZeroMatrix
  idxLt : ∀ p ∈ g.IndexOf, p.2 < g.Nodes.length
  cost : ∀ e ∈ g.Edges, 0 ≤ e.2.2
  index : F → g.IndexInv

end SpecNotions

section BuildNotions

variable {G N ID : Type} [DecidableEq ID]

/-- The fault, if any, that the loop body of `addEdges` meets for neighbour
`nbr` of node `id` at graph `g`: a negative cost, or a target that is neither
known nor found by the lookup. -/
def Graphiti.edgeFault (gr : Graphiti G N ID) (graph : G) (id : ID) (g : Graph ID)
    (nbr : ID × Int) : Option (Err ID) :=
  if nbr.2 < 0 then some (.negativeCost id nbr.1 nbr.2)
  else
    match gr.resolveTarget graph g nbr.1 with
    | none => some (.brokenEdge id nbr.1)
    | some _ => none

/-- Here `g` is a graph returned by `New` or by `Validate` (run with `fuel`). -/
def Graphiti.Builds (gr : Graphiti G N ID) (fuel : Nat) (graph : G) (nodes : List N)
    (g : Graph ID) : Prop :=
  (∃ err, gr.New fuel graph nodes = .ok (some g, err)) ∨
  (∃ errs, gr.Validate fuel graph nodes = .ok (some g, errs))

end BuildNotions

end GoGraphiti

/-! ## Concrete sources used as inputs -/

namespace GoGraphiti

/-- Node ids of the concrete sources. -/
inductive Label where
  | A | B | C | D | E
deriving DecidableEq, Repr

/-- A source given by tables: the ids it enumerates, the ids whose lookup
succeeds, and its directed edges `(from, to, cost)` in order. -/
structure Table where
  ids : List Label
  known : List Label
  next : List (Label × Label × Int)

/-- The capability set over `Table`: a node is its id, the lookup succeeds on
the known ids, and the neighbours of a node are the targets and costs of its
edges (dangling targets included). -/
def tableCaps : Graphiti Table Label Label where
  GetName := fun n => n
  GetNode := fun s i => if i ∈ s.known then some i else none
  GetNext := fun s n =>
    ((s.next.filter (fun e => e.1 = n)).map (fun e => e.2.1),
     (s.next.filter (fun e => e.1 = n)).map (fun e => e.2.2))
  GetNodes := fun s => s.ids

/-- A capability set whose lookup of `B` yields a node named `D`. -/
def aliasCaps : Graphiti Table Label Label where
  GetName := fun n => if n = Label.B then Label.D else n
  GetNode := tableCaps.GetNode
  GetNext := tableCaps.GetNext
  GetNodes := tableCaps.GetNodes

/-- The `n × n` zero matrix. -/
def zeroM (n : Nat) : List (List R) := List.replicate n (List.replicate n R.zero)

/-- The matrix whose cells have `Steps` and `Dist` both equal to the given entries. -/
def diagM (rows : List (List Int)) : List (List R) :=
  rows.map (fun row => row.map (fun v => { Steps := v, Dist := v }))

/-- The cycle scenario: A→B, A→C, B→C, C→D, D→A, unit costs. -/
def cycleSrc : Table :=
  { ids := [.A, .B, .C, .D], known := [.A, .B, .C, .D],
    next := [(.A, .B, 1), (.A, .C, 1), (.B, .C, 1), (.C, .D, 1), (.D, .A, 1)] }

/-- The graph built from `cycleSrc`. -/
def cycleGraph : Graph Label :=
  { Nodes := [.A, .B, .C, .D], IndexOf := [(.A, 0), (.B, 1), (.C, 2), (.D, 3)],
    Edges := [(0, 1, 1), (0, 2, 1), (1, 2, 1), (2, 3, 1), (3, 0, 1)],
    GroupOf := [1, 1, 1, 1], M := zeroM 4 }

/-- The DAG scenario: the cycle scenario without D→A. -/
def dagSrc : Table :=
  { ids := [.A, .B, .C, .D], known := [.A, .B, .C, .D],
    next := [(.A, .B, 1), (.A, .C, 1), (.B, .C, 1), (.C, .D, 1)] }

/-- The graph built from `dagSrc`. -/
def dagGraph : Graph Label :=
  { Nodes := [.A, .B, .C, .D], IndexOf := [(.A, 0), (.B, 1), (.C, 2), (.D, 3)],
    Edges := [(0, 1, 1), (0, 2, 1), (1, 2, 1), (2, 3, 1)],
    GroupOf := [1, 1, 1, 1], M := zeroM 4 }

/-- A chain A→B→C with unit costs. -/
def chainSrc : Table :=
  { ids := [.A, .B, .C], known := [.A, .B, .C], next := [(.A, .B, 1), (.B, .C, 1)] }

/-- The graph built from `chainSrc`. -/
def chainGraph : Graph Label :=
  { Nodes := [.A, .B, .C], IndexOf := [(.A, 0), (.B, 1), (.C, 2)],
    Edges := [(0, 1, 1), (1, 2, 1)], GroupOf := [1, 1, 1], M := zeroM 3 }

/-- A single node without edges. -/
def loneSrc : Table := { ids := [.A], known := [.A], next := [] }

/-- The graph built from `loneSrc`. -/
def loneGraph : Graph Label :=
  { Nodes := [.A], IndexOf := [(.A, 0)], Edges := [], GroupOf := [0], M := zeroM 1 }

/-- A source whose only fault is the dangling edge C→E: `E` cannot be looked up. -/
def danglingSrc : Table :=
  { ids := [.A, .B, .C, .D], known := [.A, .B, .C, .D],
    next := [(.A, .B, 1), (.B, .C, 1), (.C, .E, 1), (.C, .D, 1)] }

/-- The graph the lenient build returns for `danglingSrc`: the edge C→E is missing. -/
def danglingGraph : Graph Label :=
  { Nodes := [.A, .B, .C, .D], IndexOf := [(.A, 0), (.B, 1), (.C, 2), (.D, 3)],
    Edges := [(0, 1, 1), (1, 2, 1), (2, 3, 1)], GroupOf := [1, 1, 1, 1], M := zeroM 4 }

/-- The graph built from `cycleSrc` with the seed list `[A, A]`. -/
def dupSeedGraph : Graph Label :=
  { Nodes := [.A, .A, .B, .C, .D], IndexOf := [(.A, 1), (.B, 2), (.C, 3), (.D, 4)],
    Edges := [(0, 2, 1), (0, 3, 1), (1, 2, 1), (1, 3, 1), (2, 3, 1), (3, 4, 1), (4, 1, 1)],
    GroupOf := [1, 1, 1, 1, 1], M := zeroM 5 }

/-- A source with the edge C→B, for use with `aliasCaps`. -/
def aliasSrc : Table :=
  { ids := [.C, .D], known := [.B, .C, .D], next := [(.C, .B, 1)] }

/-- The graph built from `aliasSrc` with `aliasCaps`. -/
def aliasGraph : Graph Label :=
  { Nodes := [.C, .D, .D], IndexOf := [(.C, 0), (.D, 2)],
    Edges := [(0, 2, 1)], GroupOf := [1, 0, 1], M := zeroM 3 }

/-- A single node with a self-loop of cost zero. -/
def selfLoopSrc : Table := { ids := [.A], known := [.A], next := [(.A, .A, 0)] }

/-- The graph built from `selfLoopSrc`. -/
def selfLoopGraph : Graph Label :=
  { Nodes := [.A], IndexOf := [(.A, 0)], Edges := [(0, 0, 0)], GroupOf := [1], M := zeroM 1 }

/-- The chain A→B→C with the uniform cost `2^62`: the candidate distance of the
second layer, `2^62 + 2^62`, does not fit a Go `int`. -/
def hugeSrc : Table :=
  { ids := [.A, .B, .C], known := [.A, .B, .C],
    next := [(.A, .B, 4611686018427387904), (.B, .C, 4611686018427387904)] }

/-- The graph built from `hugeSrc`. -/
def hugeGraph : Graph Label :=
  { Nodes := [.A, .B, .C], IndexOf := [(.A, 0), (.B, 1), (.C, 2)],
    Edges := [(0, 1, 4611686018427387904), (1, 2, 4611686018427387904)],
    GroupOf := [1, 1, 1], M := zeroM 3 }

end GoGraphiti

/-! ## Rendering, and further notions and inputs -/

namespace GoGraphiti

section Rendering

variable {ID : Type}

/-- Go closure `addInt` of `String`: a dash for `unset`, else the decimal
digits (`%d`). -/
def addInt (i : Int) : String :=
  if i = unset then "-" else toString i

/-- The text `String` writes for one cell: a dash and a tab when both fields are
unset, else `Dist`, a slash, `Steps` and a tab. -/
def writeCell (b : String) (r : R) : String :=
  if r.Dist = unset ∧ r.Steps = unset then b ++ "-\t"
  else b ++ addInt r.Dist ++ "/" ++ addInt r.Steps ++ "\t"

/-- The loop `for y := range g.M[x]` of `String`, writing to the builder `b`. -/
def writeRow : List R → String → String
  | [], b => b
  | r :: rest, b => writeRow rest (writeCell b r)

/-- The loop `for x := range g.M` of `String`, from row `x`; `fmtID` is the
`%v` rendering of a node id. -/
def writeRows (fmtID : ID → String) (g : Graph ID) : List (List R) → Nat → String → Res String
  | [], _, b => .ok b
  | row :: rest, x, b =>
    match g.Nodes[x]?, g.GroupOf[x]? with
    | some id, some gr =>
      writeRows fmtID g rest (x + 1) (writeRow row b ++ fmtID id ++ " (" ++ toString gr ++ ")\n")
    | _, _ => .outOfRange

/-- Go `String`: the diagnostic rendering of the matrix. -/
def Graph.String (fmtID : ID → String) (g : Graph ID) : Res String :=
  writeRows fmtID g g.M 0 ""

/-- Concatenation of a list of texts. -/
def concatAll : List String → String
  | [] => ""
  | s :: rest => s ++ concatAll rest

/-- The field of a cell as the rendering is described: a dash when `Dist` and
`Steps` are both `0`, and otherwise `d/s` where `d` is the decimal `Dist` or a
dash when `Dist = 0` and `s` is the decimal `Steps` or a dash when `Steps = 0`. -/
def fieldText (r : R) : String :=
  if r.Dist = 0 ∧ r.Steps = 0 then "-"
  else (if r.Dist = 0 then "-" else toString r.Dist) ++ "/" ++
    (if r.Steps = 0 then "-" else toString r.Steps)

/-- The line of one row as the rendering is described: every field followed by
a tab, then the node id, the group id in parentheses, and a newline. -/
def lineText (fmtID : ID → String) (row : List R) (id : ID) (gr : Int) : String :=
  concatAll (row.map (fun r => fieldText r ++ "\t")) ++
    (fmtID id ++ " (" ++ toString gr ++ ")" ++ "\n")

/-- The lines of the rows of `M` from index `x` on, as the rendering is
described; a row without node id or group id contributes nothing. -/
def linesFrom (fmtID : ID → String) (g : Graph ID) : List (List R) → Nat → List String
  | [], _ => []
  | row :: rest, x =>
    match g.Nodes[x]?, g.GroupOf[x]? with
    | some id, some gr => lineText fmtID row id gr :: linesFrom fmtID g rest (x + 1)
    | _, _ => linesFrom fmtID g rest (x + 1)

/-- Here `CostWalk E a b c` says that there is a non-empty directed walk from
`a` to `b` over `E` whose edge costs add up to `c`. -/
inductive CostWalk (E : List (Nat × Nat × Int)) : Nat → Nat → Int → Prop
  | one {a b : Nat} {c : Int} : (a, b, c) ∈ E → CostWalk E a b c
  | snoc {a b d : Nat} {c w : Int} : CostWalk E a b c → (b, d, w) ∈ E → CostWalk E a d (c + w)

end Rendering

section MoreNotions

variable {G N ID : Type} [DecidableEq ID]

/-- Here `Run gr graph persevere g0 k g errs` says that, started on `g0`, the
node loop of `newGraph` has processed the nodes of indices `0 .. k-1` without
aborting, has reached the graph `g` and has collected the errors `errs`. -/
inductive Graphiti.Run (gr : Graphiti G N ID) (graph : G) (persevere : Bool) (g0 : Graph ID) :
    Nat → Graph ID → List (Err ID) → Prop
  | start : Graphiti.Run gr graph persevere g0 0 g0 []
  | step {k : Nat} {g g1 : Graph ID} {id : ID} {errs errs2 : List (Err ID)} :
      Graphiti.Run gr graph persevere g0 k g errs → g.Nodes[k]? = some id →
      gr.addEdges graph id g k persevere = .ok (true, g1, errs2) →
      Graphiti.Run gr graph persevere g0 (k + 1) g1 (errs ++ errs2)

end MoreNotions

section MoreInputs

/-- The `%v` rendering of a label. -/
def Label.text : Label → String
  | .A => "A"
  | .B => "B"
  | .C => "C"
  | .D => "D"
  | .E => "E"

/-- A source without ids. -/
def emptySrc : Table := { ids := [], known := [], next := [] }

/-- A source on which merges leave the group ids `1` and `3`: A→B creates
group 1, C→D group 2, the self-loop E→E group 3, and B→D merges 2 into 1. -/
def gapSrc : Table :=
  { ids := [.A, .C, .E, .B, .D], known := [.A, .B, .C, .D, .E],
    next := [(.A, .B, 1), (.C, .D, 1), (.E, .E, 1), (.B, .D, 1)] }

/-- The graph built from `gapSrc`. -/
def gapGraph : Graph Label :=
  { Nodes := [.A, .C, .E, .B, .D],
    IndexOf := [(.A, 0), (.C, 1), (.E, 2), (.B, 3), (.D, 4)],
    Edges := [(0, 3, 1), (1, 4, 1), (2, 2, 1), (3, 4, 1)],
    GroupOf := [1, 1, 3, 1, 1], M := zeroM 5 }

/-- The source with non-uniform costs: A→B(1), A→C(10), B→D(1). -/
def weightedSrc : Table :=
  { ids := [.A, .B, .C, .D], known := [.A, .B, .C, .D],
    next := [(.A, .B, 1), (.A, .C, 10), (.B, .D, 1)] }

/-- The graph built from `weightedSrc`. -/
def weightedGraph : Graph Label :=
  { Nodes := [.A, .B, .C, .D], IndexOf := [(.A, 0), (.B, 1), (.C, 2), (.D, 3)],
    Edges := [(0, 1, 1), (0, 2, 10), (1, 3, 1)], GroupOf := [1, 1, 1, 1], M := zeroM 4 }

/-- The disconnected scenario: A→B and C→D only. -/
def disconnectedSrc : Table :=
  { ids := [.A, .B, .C, .D], known := [.A, .B, .C, .D],
    next := [(.A, .B, 1), (.C, .D, 1)] }

/-- The graph built from `disconnectedSrc`. -/
def disconnectedGraph : Graph Label :=
  { Nodes := [.A, .B, .C, .D], IndexOf := [(.A, 0), (.B, 1), (.C, 2), (.D, 3)],
    Edges := [(0, 1, 1), (2, 3, 1)], GroupOf := [1, 1, 2, 2], M := zeroM 4 }

/-- A source whose node C returns two neighbour ids but one cost, and whose node
A has an edge of negative cost. -/
def mismatchCaps : Graphiti Table Label Label where
  GetName := tableCaps.GetName
  GetNode := tableCaps.GetNode
  GetNext := fun s n =>
    if n = Label.C then ([Label.A, Label.B], [1]) else tableCaps.GetNext s n
  GetNodes := tableCaps.GetNodes

/-- The table used with `mismatchCaps`. -/
def mismatchSrc : Table :=
  { ids := [.A, .B, .C, .D], known := [.A, .B, .C, .D],
    next := [(.A, .B, -1), (.A, .C, 1), (.B, .C, 1)] }

/-- The lenient build of `mismatchSrc` after node A: the negative edge A→B is
skipped and A→C is added. -/
def mismatchAfterA : Graph Label :=
  { Nodes := [.A, .B, .C, .D], IndexOf := [(.A, 0), (.B, 1), (.C, 2), (.D, 3)],
    Edges := [(0, 2, 1)], GroupOf := [1, 0, 1, 0], M := zeroM 4 }

/-- The lenient build of `mismatchSrc` after nodes A and B. -/
def mismatchAfterB : Graph Label :=
  { Nodes := [.A, .B, .C, .D], IndexOf := [(.A, 0), (.B, 1), (.C, 2), (.D, 3)],
    Edges := [(0, 2, 1), (1, 2, 1)], GroupOf := [1, 1, 1, 0], M := zeroM 4 }

/-- The DAG scenario after `AllDistances`. -/
def dagDone : Graph Label :=
  { dagGraph with M := diagM [[0, 1, 1, 2], [0, 0, 1, 2], [0, 0, 0, 1], [0, 0, 0, 0]] }

/-- The cycle scenario after `AllDistances`. -/
def cycleDone : Graph Label :=
  { cycleGraph with M := diagM [[3, 1, 1, 2], [3, 4, 1, 2], [2, 3, 3, 1], [1, 2, 2, 3]] }

end MoreInputs

end GoGraphiti

/-! ## Notions for repeated queries and for connectivity -/

namespace GoGraphiti

section QueryNotions

variable {ID : Type} [DecidableEq ID]

/-- Here `Queried g0 g` says that `g` is the graph reached from `g0` by some
sequence of `Steps` and `AllDistances` calls. -/
inductive Queried (g0 : Graph ID) : Graph ID → Prop
  | fresh : Queried g0 g0
  | steps {g g1 : Graph ID} {src dst : ID} {v : Int} {err : Option (Err ID)} :
      Queried g0 g → g.Steps src dst = .ok (g1, v, err) → Queried g0 g1
  | all {g g1 : Graph ID} : Queried g0 g → g.AllDistances = .ok g1 → Queried g0 g1

/-- A row of the matrix is either untouched or holds the minimal hop counts. -/
def RowState (g : Graph ID) (s : Nat) : Prop :=
  (∀ t, g.cell s t = R.zero) ∨ (∀ t, IsMinSteps g.Edges s t (g.cell s t).Steps)

end QueryNotions

section ConnectivityNotions

variable {ID : Type}

/-- Two indices are joined by an edge of `E`, in either direction. -/
def Adj (E : List (Nat × Nat × Int)) (a b : Nat) : Prop :=
  ∃ c, (a, b, c) ∈ E ∨ (b, a, c) ∈ E

/-- Two indices are connected by a path over `E` when direction is ignored. -/
def Connected (E : List (Nat × Nat × Int)) : Nat → Nat → Prop :=
  Relation.ReflTransGen (Adj E)

/-- Index `i` is an endpoint of some edge of `E`. -/
def Touched (E : List (Nat × Nat × Int)) (i : Nat) : Prop :=
  ∃ e ∈ E, e.1 = i ∨ e.2.1 = i

/-- The group id of index `i`, read as `0` outside `GroupOf`. -/
def Graph.grp (g : Graph ID) (i : Nat) : Int :=
  (g.GroupOf[i]?).getD 0

/-- The group ids describe weak connectivity: ids are non-negative, an index
has id `0` exactly when it is an endpoint of no edge, and two indices with
non-zero ids have the same id exactly when they are connected. -/
structure Graph.GroupsOk (g : Graph ID) : Prop where
  nonneg : ∀ i, 0 ≤ g.grp i
  zero : ∀ i, g.grp i = 0 ↔ ¬ Touched g.Edges i
  same : ∀ i j, g.grp i ≠ 0 → g.grp j ≠ 0 → (g.grp i = g.grp j ↔ Connected g.Edges i j)

/-- The entry `l[i]` of a list of group ids, read as `0` outside the list. -/
def gd (l : List Int) (i : Nat) : Int := (l[i]?).getD 0

/-- The list of group ids that `updateGroups` computes for in-range `x`, `y`. -/
def relabel (l : List Int) (x y : Nat) : List Int :=
  let next : Int := l.foldl max 0 + 1
  let go1 := if gd l x = 0 then l.set x next else l
  let go2 := if gd go1 y = 0 then go1.set y next else go1
  if gd go2 x = gd go2 y then go2
  else go2.map (fun v => if v = max (gd go2 x) (gd go2 y) then min (gd go2 x) (gd go2 y) else v)

end ConnectivityNotions

end GoGraphiti

/-! ## The traversal of the source, by ids -/

namespace GoGraphiti

section TraversalNotions

variable {G N ID : Type} [DecidableEq ID]

/-- The neighbours of the node with id `id` as aligned pairs `(id, cost)`, in
the order `neighbours` returns them; none when the lookup of `id` fails. -/
def Graphiti.neighbours (gr : Graphiti G N ID) (graph : G) (id : ID) : List (ID × Int) :=
  match gr.GetNode graph id with
  | none => []
  | some n => (gr.GetNext graph n).1.zip (gr.GetNext graph n).2

/-- The neighbours that are kept as edges when the ids `known` are known: a
neighbour with negative cost is dropped, a neighbour whose target is already
known is kept, any other neighbour is kept exactly when its target can be
looked up, and its target (under the name of the node found) is known from
then on.  The result names each kept target and its cost, in neighbour order. -/
def Graphiti.kept (gr : Graphiti G N ID) (graph : G) : List ID → List (ID × Int) → List (ID × Int)
  | _, [] => []
  | known, (e, d) :: rest =>
    if d < 0 then Graphiti.kept gr graph known rest
    else if e ∈ known then (e, d) :: Graphiti.kept gr graph known rest
    else
      match gr.GetNode graph e with
      | none => Graphiti.kept gr graph known rest
      | some xn => (gr.GetName xn, d) :: Graphiti.kept gr graph (known ++ [gr.GetName xn]) rest

/-- The ids known after the neighbours were scanned as in `kept`: the newly
looked-up targets are appended in neighbour order. -/
def Graphiti.knownAfter (gr : Graphiti G N ID) (graph : G) : List ID → List (ID × Int) → List ID
  | known, [] => known
  | known, (e, d) :: rest =>
    if d < 0 then Graphiti.knownAfter gr graph known rest
    else if e ∈ known then Graphiti.knownAfter gr graph known rest
    else
      match gr.GetNode graph e with
      | none => Graphiti.knownAfter gr graph known rest
      | some xn => Graphiti.knownAfter gr graph (known ++ [gr.GetName xn]) rest

/-- The ids known when the node of index `i` is about to be processed: the
initial ids, extended node by node in index order. -/
def Graphiti.knownAt (gr : Graphiti G N ID) (graph : G) (init : List ID) : Nat → List ID
  | 0 => init
  | i + 1 =>
    match (Graphiti.knownAt gr graph init i)[i]? with
    | none => Graphiti.knownAt gr graph init i
    | some id =>
      gr.knownAfter graph (Graphiti.knownAt gr graph init i) (gr.neighbours graph id)

/-- The kept neighbours of the node of index `i`, by target name and cost. -/
def Graphiti.keptRow (gr : Graphiti G N ID) (graph : G) (init : List ID) (i : Nat) :
    List (ID × Int) :=
  match (gr.knownAt graph init i)[i]? with
  | none => []
  | some id => gr.kept graph (gr.knownAt graph init i) (gr.neighbours graph id)

/-- An edge with its target index replaced by the id stored at that index. -/
def Graph.named (g : Graph ID) (e : Nat × Nat × Int) : Nat × Option ID × Int :=
  (e.1, g.Nodes[e.2.1]?, e.2.2)

/-- The kept neighbours of node `i` as named edges with source `i`. -/
def rowEdges (i : Nat) (row : List (ID × Int)) : List (Nat × Option ID × Int) :=
  row.map (fun p => (i, some p.1, p.2))

/-- The index map agrees with `Nodes`: its keys are the ids of `Nodes`, and the
index of a key holds that key. -/
structure Graph.IndexSound (g : Graph ID) : Prop where
  mem : ∀ e, mapGet g.IndexOf e ≠ none ↔ e ∈ g.Nodes
  get : ∀ e j, mapGet g.IndexOf e = some j → g.Nodes[j]? = some e

/-- The graph follows the traversal of the source up to node `idx`: its nodes
are the ids known at `idx`, and its edges are, in order, the kept neighbours
of the nodes before `idx`. -/
structure Graphiti.Follows (gr : Graphiti G N ID) (graph : G) (init : List ID) (idx : Nat)
    (g : Graph ID) : Prop where
  inv : BuildInv False g
  sound : g.IndexSound
  le : idx ≤ g.Nodes.length
  nodes : g.Nodes = gr.knownAt graph init idx
  edges : g.Edges.map g.named =
    (List.range idx).flatMap (fun i => rowEdges i (gr.keptRow graph init i))

end TraversalNotions

/-- A source with unboundedly many reachable ids: every number is a node whose
only neighbour is its successor, at cost 1; the enumeration lists `0`. -/
def stepSrc : Graphiti Unit Nat Nat where
  GetName := fun n => n
  GetNode := fun _ i => some i
  GetNext := fun _ n => ([n + 1], [1])
  GetNodes := fun _ => [0]

/-- A source with faults: the enumerated id D cannot be looked up, and A has
the neighbours B (cost -1), E (no such node), C (cost 2) and B (cost 3). -/
def faultySrc : Table :=
  { ids := [.A, .D], known := [.A, .B, .C],
    next := [(.A, .B, -1), (.A, .E, 1), (.A, .C, 2), (.A, .B, 3), (.C, .B, 1)] }

/-- The graph the lenient build returns for `faultySrc`. -/
def faultyGraph : Graph Label :=
  { Nodes := [.A, .D, .C, .B], IndexOf := [(.A, 0), (.D, 1), (.C, 2), (.B, 3)],
    Edges := [(0, 2, 2), (0, 3, 3), (2, 3, 1)], GroupOf := [1, 0, 1, 1], M := zeroM 4 }

end GoGraphiti

/-! ## The frontiers of the per-source procedure -/

namespace GoGraphiti

section FrontierNotions

variable {ID : Type}

/-- The structural invariants the distance engine relies on: the matrix has
one row per node, every row has one cell per node, and every edge joins
indices below the number of nodes. -/
structure Graph.Structural (g : Graph ID) : Prop where
  rows : g.M.length = g.Nodes.length
  cols : ∀ row ∈ g.M, row.length = g.Nodes.length
  edges : ∀ e ∈ g.Edges, e.1 < g.Nodes.length ∧ e.2.1 < g.Nodes.length

/-- The outer loop of `distance` as in `distanceLoop`, returning next to the
graph the frontiers `q` it has processed, one per layer, in order. -/
def frontiersLoop (src : Nat) :
    Nat → Graph ID → List Bool → List (Nat × Int) → Int → Int →
      Res (Graph ID × List (List (Nat × Int)))
  | _, g, _, [], _, _ => .ok (g, [])
  | 0, _, _, _ :: _, _, _ => .outOfFuel
  | fuel + 1, g, done, e :: q, dist, steps =>
    match layer src dist steps (e :: q)
        { g := g, done := done, nextQ := [], nextDist := 0 } with
    | .outOfRange => .outOfRange
    | .outOfFuel => .outOfFuel
    | .ok st =>
      match frontiersLoop src fuel st.g st.done st.nextQ st.nextDist (steps + 1) with
      | .outOfRange => .outOfRange
      | .outOfFuel => .outOfFuel
      | .ok (g1, fs) => .ok (g1, (e :: q) :: fs)

/-- Go `distance` run with a bound `fuel` on the number of layers, returning the
graph and the frontiers processed; the first frontier is the initial one. -/
def Graph.frontiers (g : Graph ID) (fuel : Nat) (src : Nat) :
    Res (Graph ID × List (List (Nat × Int))) :=
  frontiersLoop src fuel g (List.replicate g.Nodes.length false) (g.getEdges src) 0 1

/-- The node indices put into the frontiers after the initial one, in order. -/
def laterTargets (fs : List (List (Nat × Int))) : List Nat :=
  (fs.tail.flatten).map Prod.fst

end FrontierNotions

/-- A source with parallel edges A→B, a self-loop on B and the cycle A→B→C→A. -/
def tangleSrc : Table :=
  { ids := [.A, .B, .C], known := [.A, .B, .C],
    next := [(.A, .B, 1), (.A, .B, 2), (.B, .B, 1), (.B, .C, 1), (.C, .A, 1)] }

/-- The graph built from `tangleSrc`. -/
def tangleGraph : Graph Label :=
  { Nodes := [.A, .B, .C], IndexOf := [(.A, 0), (.B, 1), (.C, 2)],
    Edges := [(0, 1, 1), (0, 1, 2), (1, 1, 1), (1, 2, 1), (2, 0, 1)],
    GroupOf := [1, 1, 1], M := zeroM 3 }

/-- The frontiers of `distance(0)` on `tangleGraph`. -/
def tangleFrontiers : List (List (Nat × Int)) :=
  [[(1, 1), (1, 2)], [(1, 1), (2, 1)], [(0, 1)]]

end GoGraphiti

/-! ## The faults of a source, in traversal order -/

namespace GoGraphiti

section FaultNotions

variable {G N ID : Type} [DecidableEq ID]

/-- The first fault among the neighbours `(target, cost)` of the node `id`,
taken in `neighbours` order while the ids `known` are known: a negative cost, or
a target that is neither known nor found by the lookup (a broken edge).  A
target found by the lookup is known from then on, under the name of the node
found. -/
def Graphiti.scanFault (gr : Graphiti G N ID) (graph : G) (id : ID) :
    List ID → List (ID × Int) → Option (Err ID)
  | _, [] => none
  | known, (e, d) :: rest =>
    if d < 0 then some (.negativeCost id e d)
    else if e ∈ known then Graphiti.scanFault gr graph id known rest
    else
      match gr.GetNode graph e with
      | none => some (.brokenEdge id e)
      | some xn => Graphiti.scanFault gr graph id (known ++ [gr.GetName xn]) rest

/-- The first fault of the node `id` when the ids `known` are known: the node is
not found, or its two neighbour lists differ in length, or else the first fault
among its neighbours. -/
def Graphiti.faultOfNode (gr : Graphiti G N ID) (graph : G) (known : List ID) (id : ID) :
    Option (Err ID) :=
  match gr.GetNode graph id with
  | none => some (.notFound id)
  | some n =>
    if (gr.GetNext graph n).1.length ≠ (gr.GetNext graph n).2.length then
      some (.lengthsDiffer (gr.GetNext graph n).1.length (gr.GetNext graph n).2.length)
    else gr.scanFault graph id known ((gr.GetNext graph n).1.zip (gr.GetNext graph n).2)

/-- The first fault of the node of index `i` of the traversal, if that node
exists and has one. -/
def Graphiti.faultAt (gr : Graphiti G N ID) (graph : G) (init : List ID) (i : Nat) :
    Option (Err ID) :=
  match (gr.knownAt graph init i)[i]? with
  | none => none
  | some id => gr.faultOfNode graph (gr.knownAt graph init i) id

/-- Here `e` is the first fault of the traversal, met at the node of index `i`:
no node of a smaller index has a fault. -/
def Graphiti.IsFirstFault (gr : Graphiti G N ID) (graph : G) (init : List ID) (i : Nat)
    (e : Err ID) : Prop :=
  gr.faultAt graph init i = some e ∧ ∀ j, j < i → gr.faultAt graph init j = none

/-- What a strict loop over neighbours returns, given the first fault `fault` of
the scan: the flag `true` and the errors so far when there is none, else the
flag `false` and the errors followed by the fault. -/
def strictOutcome (fault : Option (Err ID)) (g1 : Graph ID) (errs : List (Err ID)) :
    Bool × Graph ID × List (Err ID) :=
  match fault with
  | none => (true, g1, errs)
  | some e => (false, g1, errs ++ [e])

end FaultNotions

/-- A source whose only fault is the dangling edge B→E; the node B is not
reachable from A. -/
def strandedSrc : Table :=
  { ids := [.A, .B], known := [.A, .B], next := [(.B, .E, 1)] }

end GoGraphiti

/-! ## The distance engine: cells, marking and frontiers -/

namespace GoGraphiti

section EngineLemmas

variable {ID : Type}

theorem cellM_set {M : List (List R)} {x y : Nat} {row : List R} (r : R)
    (hrow : M[x]? = some row) (hy : y < row.length) (x1 y1 : Nat) :
    cellM (M.set x (row.set y r)) x1 y1 = if x1 = x ∧ y1 = y then r else cellM M x1 y1 := by
  have hx : x < M.length := by
    rcases List.getElem?_eq_some_iff.mp hrow with ⟨h, _⟩
    exact h
  unfold cellM
  by_cases hx1 : x1 = x
  · subst hx1
    rw [List.getElem?_set_self hx, hrow]
    by_cases hy1 : y1 = y
    · subst hy1
      simp [List.getElem?_set_self hy]
    · have : y ≠ y1 := fun h => hy1 h.symm
      simp [List.getElem?_set_ne this, hy1]
  · have : x ≠ x1 := fun h => hx1 h.symm
    simp [List.getElem?_set_ne this, hx1]

theorem set_eq (g : Graph ID) {x y : Nat} {row : List R} {r : R} (dist steps : Int)
    (hrow : g.M[x]? = some row) (hr : row[y]? = some r) :
    g.set x y dist steps =
      .ok ({ g with M := g.M.set x (row.set y
              { Steps := if r.Steps = 0 ∨ r.Steps > steps then steps else r.Steps
                Dist := if (decide (r.Dist = unset) || decide (r.Dist > dist)) = true
                          then dist else r.Dist }) },
           decide (r.Dist = unset) || decide (r.Dist > dist)) := by
  unfold Graph.set
  rw [hrow]
  simp only [hr]

theorem count_false_set {l : List Bool} {i : Nat} (h : l[i]? = some false) :
    (l.set i true).count false + 1 = l.count false := by
  induction l generalizing i with
  | nil => simp at h
  | cons b l ih =>
    cases i with
    | zero =>
      simp at h
      subst h
      simp
    | succ i =>
      simp at h
      have := ih h
      cases b <;> simp [List.count_cons] <;> omega

theorem expand_spec (N : Nat) : ∀ (es : List (Nat × Int)) (done : List Bool)
    (nq : List (Nat × Int)), done.length = N → (∀ e ∈ es, e.1 < N) →
    ∃ done2 new, expand done nq es = .ok (done2, nq ++ new) ∧ done2.length = N ∧
      (∀ t : Nat, done[t]? = some true → done2[t]? = some true) ∧
      (∀ e ∈ es, done2[e.1]? = some true) ∧
      (∀ t : Nat, done2[t]? = some true → done[t]? = some true ∨ ∃ c, (t, c) ∈ new) ∧
      (∀ e ∈ new, e ∈ es ∧ done[e.1]? = some false) ∧
      done2.count false + new.length = done.count false := by
  intro es
  induction es with
  | nil =>
    intro done nq hlen _
    exact ⟨done, [], by simp [expand], hlen, fun _ h => h, by simp, fun _ h => Or.inl h,
      by simp, by simp⟩
  | cons e2 rest ih =>
    intro done nq hlen hes
    have he2 : e2.1 < done.length := by
      rw [hlen]
      exact hes e2 (List.mem_cons_self _ _)
    have hrest : ∀ e ∈ rest, e.1 < N := fun e he => hes e (List.mem_cons_of_mem _ he)
    have hget : done[e2.1]? = some done[e2.1] := List.getElem?_eq_getElem he2
    cases hb : done[e2.1] with
    | true =>
      rw [hb] at hget
      obtain ⟨done2, new, h1, h2, h3, h4, h5, h6, h7⟩ := ih done nq hlen hrest
      refine ⟨done2, new, ?_, h2, h3, ?_, h5, ?_, h7⟩
      · simp only [expand, hget]
        exact h1
      · intro e he
        rcases List.mem_cons.mp he with rfl | he
        · exact h3 _ hget
        · exact h4 e he
      · intro e he
        exact ⟨List.mem_cons_of_mem _ (h6 e he).1, (h6 e he).2⟩
    | false =>
      rw [hb] at hget
      obtain ⟨done2, new, h1, h2, h3, h4, h5, h6, h7⟩ :=
        ih (done.set e2.1 true) (nq ++ [e2]) (by simp [hlen]) hrest
      have hset : (done.set e2.1 true)[e2.1]? = some true := List.getElem?_set_self he2
      refine ⟨done2, e2 :: new, ?_, h2, ?_, ?_, ?_, ?_, ?_⟩
      · simp only [expand, hget]
        rw [h1]
        simp
      · intro t ht
        apply h3
        by_cases hte : e2.1 = t
        · subst hte
          exact hset
        · rw [List.getElem?_set_ne hte]
          exact ht
      · intro e he
        rcases List.mem_cons.mp he with rfl | he
        · exact h3 _ hset
        · exact h4 e he
      · intro t ht
        rcases h5 t ht with h | ⟨c, hc⟩
        · by_cases hte : e2.1 = t
          · subst hte
            exact Or.inr ⟨e2.2, List.mem_cons_self _ _⟩
          · rw [List.getElem?_set_ne hte] at h
            exact Or.inl h
        · exact Or.inr ⟨c, List.mem_cons_of_mem _ hc⟩
      · intro e he
        rcases List.mem_cons.mp he with rfl | he
        · exact ⟨List.mem_cons_self _ _, hget⟩
        · refine ⟨List.mem_cons_of_mem _ (h6 e he).1, ?_⟩
          have := (h6 e he).2
          by_cases hte : e2.1 = e.1
          · rw [hte] at this hset
            rw [hset] at this
            simp at this
          · rw [List.getElem?_set_ne hte] at this
            exact this
      · have := count_false_set hget
        simp only [List.length_cons]
        omega

end EngineLemmas

end GoGraphiti

/-! ## The distance engine: one layer -/

namespace GoGraphiti

section LayerLemmas

variable {ID : Type}

theorem mem_getEdges (g : Graph ID) (p t : Nat) (w : Int) :
    (t, w) ∈ g.getEdges p ↔ (p, t, w) ∈ g.Edges := by
  unfold Graph.getEdges
  simp only [List.mem_map, List.mem_filter]
  constructor
  · rintro ⟨⟨a, b, c⟩, ⟨hmem, ha⟩, heq⟩
    simp at ha heq
    obtain ⟨rfl, rfl⟩ := heq
    subst ha
    exact hmem
  · intro h
    exact ⟨(p, t, w), ⟨h, by simp⟩, rfl⟩

theorem Walk.pos {E : List (Nat × Nat × Int)} {n a b : Nat} (h : Walk E n a b) : 1 ≤ n := by
  cases h <;> omega

theorem Walk.lt {E : List (Nat × Nat × Int)} {N n a b : Nat}
    (hv : ∀ e ∈ E, e.1 < N ∧ e.2.1 < N) (h : Walk E n a b) : b < N := by
  cases h with
  | one h1 => exact (hv _ h1).2
  | snoc _ h2 => exact (hv _ h2).2

theorem Walk.inv {E : List (Nat × Nat × Int)} {n a d : Nat} (h : Walk E (n + 1) a d)
    (hn : 1 ≤ n) : ∃ b c, Walk E n a b ∧ (b, d, c) ∈ E := by
  cases h with
  | one h1 => omega
  | snoc h1 h2 => exact ⟨_, _, h1, h2⟩

theorem wrapInt_eq {x : Int} (h1 : -9223372036854775808 ≤ x) (h2 : x < 9223372036854775808) :
    wrapInt x = x := by
  unfold wrapInt
  rw [Int.emod_eq_of_lt (by omega) (by omega)]
  omega

/-- In layer `k ≤ N + 1` of a graph with uniform cost `c` the candidate distance
is `c * k`, computed without overflow. -/
theorem intAdd_uniform {E : List (Nat × Nat × Int)} {N : Nat} {c : Int} (hU : Uniform E N c)
    {k : Nat} (hk : k ≤ N + 1) {dist w : Int} (hbase : dist = c * ((k : Int) - 1))
    (hw : w = c) : intAdd dist w = c * (k : Int) := by
  have hsum : dist + w = c * (k : Int) := by rw [hbase, hw]; ring
  have hle : c * (k : Int) ≤ c * ((N : Int) + 1) :=
    Int.mul_le_mul_of_nonneg_left (by exact_mod_cast hk) (le_of_lt hU.1)
  have hpos : 0 ≤ c * (k : Int) := Int.mul_nonneg (le_of_lt hU.1) (by omega)
  have hlt := hU.2.1
  unfold intAdd
  rw [hsum]
  exact wrapInt_eq (by omega) (by omega)

theorem layer_step {E : List (Nat × Nat × Int)} {N src : Nat} {c : Int} {k : Nat}
    {dist : Int} {q pre : List (Nat × Int)} {st : LayerState ID} (e : Nat × Int)
    (hinv : LayerInv E N src c k dist q pre st) (heq : e ∈ q) :
    ∃ g1 b done1 new,
      st.g.set src e.1 (intAdd dist e.2) k = .ok (g1, b) ∧
      expand st.done st.nextQ (g1.getEdges e.1) = .ok (done1, st.nextQ ++ new) ∧
      LayerInv E N src c k dist q (pre ++ [e])
        { g := g1, done := done1, nextQ := st.nextQ ++ new,
          nextDist := if b = true then intAdd dist e.2 else st.nextDist } ∧
      SameFrame st.g g1 ∧ (∀ x, x ≠ src → g1.M[x]? = st.g.M[x]?) ∧
      done1.count false + new.length = st.done.count false := by
  obtain ⟨t, w⟩ := e
  have hW : Walk E k src t := hinv.curWalk _ heq
  have hk : 1 ≤ k := hW.pos
  have hkN : k ≤ N + 1 := by
    have := hinv.budget (List.ne_nil_of_mem heq)
    omega
  have htN : t < N := hW.lt hinv.valid
  have hsrc : src < st.g.M.length := by rw [hinv.rows]; exact hinv.srcLt
  have hrow : st.g.M[src]? = some st.g.M[src] := List.getElem?_eq_getElem hsrc
  have hrowlen : (st.g.M[src]).length = N := hinv.cols _ (List.getElem_mem hsrc)
  have htr : t < (st.g.M[src]).length := by rw [hrowlen]; exact htN
  have hr : (st.g.M[src])[t]? = some (st.g.M[src])[t] := List.getElem?_eq_getElem htr
  generalize hrowdef : st.g.M[src] = row at hrow hrowlen htr hr
  generalize hrdef : row[t] = r at hr
  have hcell : cellM st.g.M src t = r := by
    unfold cellM
    rw [hrow]
    simp [hr]
  have hset := set_eq st.g (intAdd dist w) (k : Int) hrow hr
  -- the new cell
  have hsteps : (if r.Steps = 0 ∨ r.Steps > (k : Int) then (k : Int) else r.Steps) =
      if r.Steps = 0 then (k : Int) else r.Steps := by
    by_cases h0 : r.Steps = 0
    · simp [h0]
    · have := (hinv.sound t (by rw [hcell]; exact h0)).2.1
      rw [hcell] at this
      have hng : ¬ r.Steps > (k : Int) := by omega
      simp [h0, hng]
  rw [hsteps] at hset
  generalize hbdef : (decide (r.Dist = unset) || decide (r.Dist > intAdd dist w)) = b at hset
  generalize hr1def : R.mk (if r.Steps = 0 then (k : Int) else r.Steps)
      (if b = true then intAdd dist w else r.Dist) = r1 at hset
  generalize hg1def : ({ st.g with M := st.g.M.set src (row.set t r1) } : Graph ID) = g1 at hset
  have hM1 : g1.M = st.g.M.set src (row.set t r1) := by rw [← hg1def]
  have hE1 : g1.Edges = E := by rw [← hg1def]; exact hinv.frame
  have hcell1 : ∀ t1, cellM g1.M src t1 = if t1 = t then r1 else cellM st.g.M src t1 := by
    intro t1
    rw [hM1, cellM_set r1 hrow htr]
    simp
  have hr1s : r1.Steps = if r.Steps = 0 then (k : Int) else r.Steps := by rw [← hr1def]
  have hr1d : r1.Dist = if b = true then intAdd dist w else r.Dist := by rw [← hr1def]
  have hr1ne : r1.Steps ≠ 0 := by
    rw [hr1s]
    by_cases h0 : r.Steps = 0
    · simp [h0]; omega
    · simp [h0]
  have hS1 : ∀ t1, (cellM g1.M src t1).Steps =
      if t1 = t ∧ r.Steps = 0 then (k : Int) else (cellM st.g.M src t1).Steps := by
    intro t1
    rw [hcell1]
    by_cases h1 : t1 = t
    · subst h1
      rw [hcell]
      by_cases h0 : r.Steps = 0
      · simp [hr1s, h0]
      · simp [hr1s, h0]
    · simp [h1]
  have hmono : ∀ t1, (cellM st.g.M src t1).Steps ≠ 0 →
      (cellM g1.M src t1).Steps = (cellM st.g.M src t1).Steps := by
    intro t1 h
    rw [hS1]
    by_cases h1 : t1 = t
    · subst h1
      rw [hcell] at h
      simp [h]
    · simp [h1]
  have hmono0 : ∀ t1, (cellM st.g.M src t1).Steps ≠ 0 → (cellM g1.M src t1).Steps ≠ 0 := by
    intro t1 h
    rw [hmono t1 h]
    exact h
  -- the expansion of `t`
  have hes : ∀ e2 ∈ g1.getEdges t, e2.1 < N := by
    intro e2 he2
    have : (t, e2.1, e2.2) ∈ g1.Edges := (mem_getEdges g1 t e2.1 e2.2).mp he2
    rw [hE1] at this
    exact (hinv.valid _ this).2
  obtain ⟨done1, new, hx1, hx2, hx3, hx4, hx5, hx6, hx7⟩ :=
    expand_spec N (g1.getEdges t) st.done st.nextQ hinv.doneLen hes
  have hnewE : ∀ e2 ∈ new, (t, e2.1, e2.2) ∈ E := by
    intro e2 he2
    have := (mem_getEdges g1 t e2.1 e2.2).mp (hx6 e2 he2).1
    rw [hE1] at this
    exact this
  refine ⟨g1, b, done1, new, hset, hx1, ?_, ?_, ?_, hx7⟩
  · constructor
    · exact hE1
    · exact hinv.valid
    · exact hinv.srcLt
    · show g1.M.length = N
      rw [hM1, List.length_set]
      exact hinv.rows
    · show ∀ row1 ∈ g1.M, row1.length = N
      intro row1 hrow1
      rw [hM1] at hrow1
      rcases List.mem_or_eq_of_mem_set hrow1 with h | h
      · exact hinv.cols _ h
      · rw [h, List.length_set]
        exact hrowlen
    · exact hx2
    · -- sound
      show ∀ t1, (cellM g1.M src t1).Steps ≠ 0 → _
      intro t1 h
      by_cases h1 : t1 = t ∧ r.Steps = 0
      · have : (cellM g1.M src t1).Steps = (k : Int) := by rw [hS1]; simp [h1]
        rw [this]
        refine ⟨by omega, le_refl _, ?_⟩
        rw [h1.1]
        simpa using hW
      · have : (cellM g1.M src t1).Steps = (cellM st.g.M src t1).Steps := by
          rw [hS1]; simp [h1]
        rw [this] at h ⊢
        exact hinv.sound t1 h
    · -- early
      show ∀ t1 n, n < k → Walk E n src t1 → _
      intro t1 n hn hw
      have := hinv.early t1 n hn hw
      rw [hmono t1 this.1]
      exact this
    · -- cur
      show ∀ t1, Walk E k src t1 → _
      intro t1 hw
      rcases hinv.cur t1 hw with h | h
      · exact Or.inl h
      · exact Or.inr (hmono0 t1 h)
    · exact hinv.curWalk
    · exact hinv.curEdge
    · -- nextEdge
      show ∀ e2 ∈ st.nextQ ++ new, _
      intro e2 he2
      rcases List.mem_append.mp he2 with h | h
      · exact hinv.nextEdge e2 h
      · exact ⟨t, hnewE e2 h⟩
    · -- preSet
      show ∀ e2 ∈ pre ++ [(t, w)], (cellM g1.M src e2.1).Steps ≠ 0
      intro e2 he2
      rcases List.mem_append.mp he2 with h | h
      · exact hmono0 _ (hinv.preSet e2 h)
      · have : e2 = (t, w) := by simpa using h
        rw [this, hcell1]
        simpa using hr1ne
    · -- marked
      show ∀ t1 : Nat, done1[t1]? = some true → _
      intro t1 h
      rcases hx5 t1 h with h | ⟨w1, h⟩
      · rcases hinv.marked t1 h with h | ⟨w1, h⟩ | h
        · exact Or.inl h
        · exact Or.inr (Or.inl ⟨w1, List.mem_append_left _ h⟩)
        · exact Or.inr (Or.inr (hmono0 t1 h))
      · exact Or.inr (Or.inl ⟨w1, List.mem_append_right _ h⟩)
    · -- closed
      show ∀ (p t1 : Nat) (w1 : Int), (cellM g1.M src p).Steps ≠ 0 → (p, t1, w1) ∈ E →
        done1[t1]? = some true
      intro p t1 w1 h hE
      by_cases hp : p = t
      · subst hp
        have : (t1, w1) ∈ g1.getEdges p := by
          rw [mem_getEdges, hE1]
          exact hE
        exact hx4 _ this
      · have : (cellM st.g.M src p).Steps ≠ 0 := by
          rw [hS1] at h
          simpa [hp] using h
        exact hx3 _ (hinv.closed p t1 w1 this hE)
    · -- next
      show ∀ e2 ∈ st.nextQ ++ new, Walk E (k + 1) src e2.1
      intro e2 he2
      rcases List.mem_append.mp he2 with h | h
      · exact hinv.next e2 h
      · exact Walk.snoc hW (hnewE e2 h)
    · -- zero
      show ∀ t1, (cellM g1.M src t1).Steps = 0 → cellM g1.M src t1 = R.zero
      intro t1 h
      by_cases h1 : t1 = t
      · subst h1
        rw [hcell1] at h
        simp at h
        exact absurd h hr1ne
      · rw [hcell1] at h ⊢
        simp only [h1, if_false] at h ⊢
        exact hinv.zero t1 h
    · exact hinv.base
    · -- distOk
      show Uniform E N c → ∀ t1, (cellM g1.M src t1).Dist = c * (cellM g1.M src t1).Steps
      intro hU t1
      by_cases h1 : t1 = t
      · subst h1
        have hbase := hinv.base hU (List.ne_nil_of_mem heq)
        obtain ⟨p, hp⟩ := hinv.curEdge _ heq
        have hw : w = c := hU.2.2 _ hp
        have hadd : intAdd dist w = c * (k : Int) := intAdd_uniform hU hkN hbase hw
        have hold := hinv.distOk hU t1
        rw [hcell] at hold
        rw [hcell1]
        simp only [if_true]
        rw [hr1s, hr1d]
        by_cases h0 : r.Steps = 0
        · have hz := hinv.zero t1 (by rw [hcell]; exact h0)
          rw [hcell] at hz
          have hb : b = true := by
            rw [← hbdef, hz]
            simp [R.zero, unset]
          simp only [hb, h0, if_true]
          exact hadd
        · have hs := hinv.sound t1 (by rw [hcell]; exact h0)
          rw [hcell] at hs
          have hpos : 0 < r.Dist := by
            rw [hold]
            exact Int.mul_pos hU.1 hs.1
          have hle : r.Dist ≤ c * (k : Int) := by
            rw [hold]
            exact Int.mul_le_mul_of_nonneg_left hs.2.1 (le_of_lt hU.1)
          have hb : b = false := by
            rw [← hbdef, hadd]
            have n1 : ¬ r.Dist = unset := by unfold unset; omega
            have n2 : ¬ r.Dist > c * (k : Int) := by omega
            simp [n1, n2]
          simp only [hb, h0, if_false]
          simpa using hold
      · rw [hcell1]
        simp only [h1, if_false]
        exact hinv.distOk hU t1
    · -- carry
      show Uniform E N c → st.nextQ ++ new ≠ [] →
        (if b = true then intAdd dist w else st.nextDist) = c * (k : Int)
      intro hU hne
      have hbase := hinv.base hU (List.ne_nil_of_mem heq)
      obtain ⟨p, hp⟩ := hinv.curEdge _ heq
      have hw : w = c := hU.2.2 _ hp
      have hck : intAdd dist w = c * (k : Int) := intAdd_uniform hU hkN hbase hw
      by_cases hb : b = true
      · simp [hb, hck]
      · simp only [hb, if_false]
        by_cases hq : st.nextQ = []
        · have hnew : new ≠ [] := by
            intro h
            apply hne
            rw [hq, h]
            rfl
          obtain ⟨e2, he2⟩ := List.exists_mem_of_ne_nil _ hnew
          have hE2 := hnewE e2 he2
          have hd := (hx6 e2 he2).2
          have h0 : r.Steps = 0 := by
            by_contra h0
            have := hinv.closed t e2.1 e2.2 (by rw [hcell]; exact h0) hE2
            rw [this] at hd
            simp at hd
          have hz := hinv.zero t (by rw [hcell]; exact h0)
          rw [hcell] at hz
          exfalso
          apply hb
          rw [← hbdef, hz]
          simp [R.zero, unset]
        · exact hinv.carry hU hq
    · -- budget
      show q ≠ [] → k + done1.count false + (st.nextQ ++ new).length ≤ N + 1
      intro hq
      have := hinv.budget hq
      simp only [List.length_append]
      omega
  · rw [← hg1def]
    exact ⟨rfl, rfl, rfl, rfl⟩
  · intro x hx
    rw [hM1]
    exact List.getElem?_set_ne (fun h => hx h.symm)

end LayerLemmas

end GoGraphiti

/-! ## The distance engine: all layers of one source -/

namespace GoGraphiti

section LoopLemmas

variable {ID : Type}

theorem SameFrame.refl (g : Graph ID) : SameFrame g g := ⟨rfl, rfl, rfl, rfl⟩

theorem SameFrame.trans {g g1 g2 : Graph ID} (h1 : SameFrame g g1) (h2 : SameFrame g1 g2) :
    SameFrame g g2 :=
  ⟨h2.1.trans h1.1, h2.2.1.trans h1.2.1, h2.2.2.1.trans h1.2.2.1, h2.2.2.2.trans h1.2.2.2⟩

theorem layer_spec {E : List (Nat × Nat × Int)} {N src : Nat} {c : Int} {k : Nat}
    {dist : Int} {q : List (Nat × Int)} :
    ∀ (rem pre : List (Nat × Int)) (st : LayerState ID), q = pre ++ rem →
      LayerInv E N src c k dist q pre st →
      ∃ st1, layer src dist (k : Int) rem st = .ok st1 ∧
        LayerInv E N src c k dist q q st1 ∧ SameFrame st.g st1.g ∧
        (∀ x, x ≠ src → st1.g.M[x]? = st.g.M[x]?) ∧
        st1.done.count false + st1.nextQ.length = st.done.count false + st.nextQ.length := by
  intro rem
  induction rem with
  | nil =>
    intro pre st hq hinv
    have : q = pre := by simpa using hq
    subst this
    exact ⟨st, rfl, hinv, SameFrame.refl _, fun _ _ => rfl, rfl⟩
  | cons e rest ih =>
    intro pre st hq hinv
    have hmem : e ∈ q := by rw [hq]; simp
    obtain ⟨g1, b, done1, new, h1, h2, h3, h4, h5, h6⟩ := layer_step e hinv hmem
    obtain ⟨st1, k1, k2, k3, k4, k5⟩ := ih (pre ++ [e]) _ (by rw [hq]; simp) h3
    refine ⟨st1, ?_, k2, h4.trans k3, ?_, ?_⟩
    · simp only [layer, h1, h2]
      exact k1
    · intro x hx
      rw [k4 x hx]
      exact h5 x hx
    · rw [k5]
      simp only [List.length_append]
      omega

theorem layer_next {E : List (Nat × Nat × Int)} {N src : Nat} {c : Int} {k : Nat}
    {dist : Int} {q : List (Nat × Int)} {st : LayerState ID} (hk : 1 ≤ k) (hq0 : q ≠ [])
    (hinv : LayerInv E N src c k dist q q st) :
    LayerInv E N src c (k + 1) st.nextDist st.nextQ []
      { g := st.g, done := st.done, nextQ := [], nextDist := 0 } := by
  have hearly : ∀ t n, n < k + 1 → Walk E n src t →
      (cellM st.g.M src t).Steps ≠ 0 ∧ (cellM st.g.M src t).Steps ≤ (n : Int) := by
    intro t n hn hw
    by_cases h : n < k
    · exact hinv.early t n h hw
    · have hnk : n = k := by omega
      subst hnk
      have hne : (cellM st.g.M src t).Steps ≠ 0 := by
        rcases hinv.cur t hw with ⟨w, hq⟩ | h
        · exact hinv.preSet _ hq
        · exact h
      exact ⟨hne, (hinv.sound t hne).2.1⟩
  have hmarked : ∀ t : Nat, st.done[t]? = some true →
      (∃ w, (t, w) ∈ st.nextQ) ∨ (cellM st.g.M src t).Steps ≠ 0 := by
    intro t h
    rcases hinv.marked t h with ⟨w, hq⟩ | h | h
    · exact Or.inr (hinv.preSet _ hq)
    · exact Or.inl h
    · exact Or.inr h
  constructor
  · exact hinv.frame
  · exact hinv.valid
  · exact hinv.srcLt
  · exact hinv.rows
  · exact hinv.cols
  · exact hinv.doneLen
  · intro t h
    obtain ⟨h1, h2, h3⟩ := hinv.sound t h
    refine ⟨h1, ?_, h3⟩
    push_cast
    show (cellM st.g.M src t).Steps ≤ (k : Int) + 1
    omega
  · exact hearly
  · intro t hw
    obtain ⟨p, w, hp, hE⟩ := hw.inv hk
    have := hinv.closed p t w (hearly p k (by omega) hp).1 hE
    rcases hmarked t this with h | h
    · exact Or.inl h
    · exact Or.inr h
  · exact hinv.next
  · exact hinv.nextEdge
  · intro e he
    simp at he
  · intro e he
    simp at he
  · intro t h
    rcases hmarked t h with h | h
    · exact Or.inl h
    · exact Or.inr (Or.inr h)
  · exact hinv.closed
  · intro e he
    simp at he
  · exact hinv.zero
  · intro hU hq
    have := hinv.carry hU hq
    rw [this]
    push_cast
    ring
  · exact hinv.distOk
  · intro _ h
    exact absurd rfl h
  · intro hne
    have := hinv.budget hq0
    have hpos : 0 < st.nextQ.length := List.length_pos.mpr hne
    simp only [List.length_nil]
    omega

theorem distanceLoop_nil (src fuel : Nat) (g : Graph ID) (done : List Bool) (dist steps : Int) :
    distanceLoop src fuel g done [] dist steps = .ok g := by
  cases fuel <;> rfl

theorem distanceLoop_spec {E : List (Nat × Nat × Int)} {N src : Nat} {c : Int} :
    ∀ (fuel k : Nat) (g : Graph ID) (done : List Bool) (q : List (Nat × Int)) (dist : Int),
      1 ≤ k → LayerInv E N src c k dist q [] { g := g, done := done, nextQ := [], nextDist := 0 } →
      (q ≠ [] → done.count false + 1 ≤ fuel) →
      ∃ g1 K dist1 done1, distanceLoop src fuel g done q dist (k : Int) = .ok g1 ∧
        SameFrame g g1 ∧ (∀ x, x ≠ src → g1.M[x]? = g.M[x]?) ∧ 1 ≤ K ∧
        LayerInv E N src c K dist1 [] []
          { g := g1, done := done1, nextQ := [], nextDist := 0 } := by
  intro fuel
  induction fuel with
  | zero =>
    intro k g done q dist hk hinv hfuel
    cases q with
    | nil => exact ⟨g, k, dist, done, rfl, SameFrame.refl _, fun _ _ => rfl, hk, hinv⟩
    | cons e q =>
      have := hfuel (by simp)
      omega
  | succ fuel ih =>
    intro k g done q dist hk hinv hfuel
    cases q with
    | nil => exact ⟨g, k, dist, done, rfl, SameFrame.refl _, fun _ _ => rfl, hk, hinv⟩
    | cons e q =>
      obtain ⟨st1, h1, h2, h3, h4, h5⟩ := layer_spec (e :: q) [] _ (by simp) hinv
      have hnext := layer_next hk (List.cons_ne_nil e q) h2
      have hfuel1 : st1.nextQ ≠ [] → st1.done.count false + 1 ≤ fuel := by
        intro hne
        have := hfuel (by simp)
        have hpos : 0 < st1.nextQ.length := List.length_pos.mpr hne
        simp only [List.length_nil] at h5
        omega
      obtain ⟨g1, K, dist1, done1, k1, k2, k3, k4, k5⟩ :=
        ih (k + 1) st1.g st1.done st1.nextQ st1.nextDist (by omega) hnext hfuel1
      refine ⟨g1, K, dist1, done1, ?_, h3.trans k2, ?_, k4, k5⟩
      · simp only [distanceLoop, h1]
        have : ((k + 1 : Nat) : Int) = (k : Int) + 1 := by push_cast; rfl
        rw [← this]
        exact k1
      · intro x hx
        rw [k3 x hx]
        exact h4 x hx

theorem reach_of_final {E : List (Nat × Nat × Int)} {N src : Nat} {c : Int} {K : Nat}
    {dist : Int} {st : LayerState ID} (hK : 1 ≤ K) (hinv : LayerInv E N src c K dist [] [] st)
    (hq : st.nextQ = []) {n t : Nat} (hw : Walk E n src t) :
    (cellM st.g.M src t).Steps ≠ 0 := by
  induction hw with
  | one h =>
    by_cases h1 : 1 < K
    · exact (hinv.early _ 1 h1 (Walk.one h)).1
    · have hK1 : K = 1 := by omega
      rcases hinv.cur _ (by rw [hK1]; exact Walk.one h) with ⟨w, hw⟩ | h
      · simp at hw
      · exact h
  | snoc _ h2 ih =>
    have := hinv.closed _ _ _ (ih hinv) h2
    rcases hinv.marked _ this with ⟨w, hw⟩ | ⟨w, hw⟩ | h
    · simp at hw
    · rw [hq] at hw
      simp at hw
    · exact h

theorem rowDone_of_final {E : List (Nat × Nat × Int)} {N src : Nat} {c : Int} {K : Nat}
    {dist : Int} {st : LayerState ID} (hK : 1 ≤ K) (hinv : LayerInv E N src c K dist [] [] st)
    (hq : st.nextQ = []) (t : Nat) :
    IsMinSteps E src t (cellM st.g.M src t).Steps ∧
      ((cellM st.g.M src t).Steps = 0 → cellM st.g.M src t = R.zero) ∧
      (Uniform E N c → (cellM st.g.M src t).Dist = c * (cellM st.g.M src t).Steps) := by
  refine ⟨?_, hinv.zero t, fun hU => hinv.distOk hU t⟩
  by_cases h0 : (cellM st.g.M src t).Steps = 0
  · exact Or.inl ⟨h0, fun n hw => reach_of_final hK hinv hq hw h0⟩
  · obtain ⟨h1, h2, h3⟩ := hinv.sound t h0
    refine Or.inr ⟨h1, h3, ?_⟩
    intro n hw
    by_cases hn : n < K
    · exact (hinv.early t n hn hw).2
    · omega

theorem distance_spec (g : Graph ID) (c : Int) (src : Nat) (hwf : g.WF)
    (hsrc : src < g.Nodes.length) (hzero : ∀ t, g.cell src t = R.zero) :
    ∃ g1, g.distance src = .ok g1 ∧ SameFrame g g1 ∧ g1.WF ∧
      (∀ x, x ≠ src → g1.M[x]? = g.M[x]?) ∧ RowDone g1 c src := by
  have hinit : LayerInv g.Edges g.Nodes.length src c 1 0 (g.getEdges src) []
      { g := g, done := List.replicate g.Nodes.length false, nextQ := [], nextDist := 0 } := by
    constructor
    · rfl
    · exact hwf.edges
    · exact hsrc
    · exact hwf.rows
    · exact hwf.cols
    · simp
    · intro t h
      exact absurd (by rw [show cellM g.M src t = R.zero from hzero t]; rfl) h
    · intro t n hn hw
      have := hw.pos
      omega
    · intro t hw
      cases hw with
      | one h => exact Or.inl ⟨_, (mem_getEdges g src t _).mpr h⟩
      | snoc h1 _ =>
        have := h1.pos
        omega
    · intro e he
      exact Walk.one ((mem_getEdges g src e.1 e.2).mp he)
    · intro e he
      exact ⟨src, (mem_getEdges g src e.1 e.2).mp he⟩
    · intro e he
      simp at he
    · intro e he
      simp at he
    · intro t h
      exfalso
      rcases List.getElem?_eq_some_iff.mp h with ⟨h1, h2⟩
      simp at h2
    · intro p t w h
      exact absurd (by rw [show cellM g.M src p = R.zero from hzero p]; rfl) h
    · intro e he
      simp at he
    · intro t _
      exact hzero t
    · intro _ _
      simp
    · intro _ t
      rw [show cellM g.M src t = R.zero from hzero t]
      simp [R.zero]
    · intro _ h
      exact absurd rfl h
    · intro _
      simp only [List.count_replicate_self, List.length_nil]
      omega
  obtain ⟨g1, K, dist1, done1, h1, h2, h3, h4, h5⟩ :=
    distanceLoop_spec (g.Nodes.length + 1) 1 g _ _ 0 (le_refl 1) hinit (by intro _; simp)
  refine ⟨g1, ?_, h2, ?_, h3, ?_⟩
  · unfold Graph.distance Graph.distanceFuel
    exact_mod_cast h1
  · constructor
    · rw [h2.2.2.2, h2.1]
      exact hwf.groups
    · rw [h2.1]
      exact h5.rows
    · rw [h2.1]
      exact h5.cols
    · rw [h2.1, h2.2.2.1]
      exact hwf.edges
  · intro t
    have := rowDone_of_final h4 h5 rfl t
    unfold RowDone Graph.cell at *
    rw [h2.2.2.1, h2.1]
    exact this

theorem cell_zero_of_zeroMatrix {g : Graph ID} (h : g.ZeroMatrix) (s t : Nat) :
    g.cell s t = R.zero := by
  unfold Graph.cell cellM
  cases hrow : g.M[s]? with
  | none => rfl
  | some row =>
    simp only
    cases hr : row[t]? with
    | none => rfl
    | some r =>
      simp only [Option.getD_some]
      exact h row (List.mem_iff_getElem?.mpr ⟨s, hrow⟩) r (List.mem_iff_getElem?.mpr ⟨t, hr⟩)

end LoopLemmas

end GoGraphiti

/-! ## The builder: invariants of the graph under construction -/

namespace GoGraphiti

section BuilderLemmas

variable {G N ID : Type} [DecidableEq ID]

theorem mapGet_mem {m : List (ID × Nat)} {k : ID} {v : Nat} (h : mapGet m k = some v) :
    (k, v) ∈ m := by
  induction m with
  | nil => simp [mapGet] at h
  | cons p m ih =>
    obtain ⟨k1, v1⟩ := p
    unfold mapGet at h
    by_cases hk : k1 = k
    · simp only [hk, if_true, Option.some.injEq] at h
      subst hk h
      exact List.mem_cons_self _ _
    · simp only [hk, if_false] at h
      exact List.mem_cons_of_mem _ (ih h)

theorem mapGet_eq_none {m : List (ID × Nat)} {k : ID} (h : mapGet m k = none) :
    k ∉ m.map Prod.fst := by
  induction m with
  | nil => simp
  | cons p m ih =>
    obtain ⟨k1, v1⟩ := p
    unfold mapGet at h
    by_cases hk : k1 = k
    · simp [hk] at h
    · simp only [hk, if_false] at h
      simp only [List.map_cons, List.mem_cons, not_or]
      exact ⟨fun h1 => hk h1.symm, ih h⟩

theorem mapSet_mem {m : List (ID × Nat)} {k : ID} {v : Nat} {p : ID × Nat}
    (h : p ∈ mapSet m k v) : p ∈ m ∨ p = (k, v) := by
  induction m with
  | nil =>
    simp [mapSet] at h
    exact Or.inr h
  | cons p1 m ih =>
    obtain ⟨k1, v1⟩ := p1
    unfold mapSet at h
    by_cases hk : k1 = k
    · simp only [hk, if_true] at h
      rcases List.mem_cons.mp h with h | h
      · exact Or.inr h
      · exact Or.inl (List.mem_cons_of_mem _ h)
    · simp only [hk, if_false] at h
      rcases List.mem_cons.mp h with h | h
      · exact Or.inl (by rw [h]; exact List.mem_cons_self _ _)
      · rcases ih h with h | h
        · exact Or.inl (List.mem_cons_of_mem _ h)
        · exact Or.inr h

theorem mapGet_mapSet (m : List (ID × Nat)) (k k1 : ID) (v : Nat) :
    mapGet (mapSet m k v) k1 = if k = k1 then some v else mapGet m k1 := by
  induction m with
  | nil => simp [mapSet, mapGet]
  | cons p m ih =>
    obtain ⟨k2, v2⟩ := p
    unfold mapSet
    by_cases hk : k2 = k
    · subst hk
      simp only [if_true]
      unfold mapGet
      by_cases h1 : k2 = k1 <;> simp [h1]
    · simp only [hk, if_false]
      unfold mapGet
      rw [ih]
      by_cases h1 : k2 = k1
      · have : ¬ k = k1 := fun h => hk (h1.trans h.symm)
        simp [h1, this]
      · simp [h1]

theorem map_fst_mapSet {m : List (ID × Nat)} {k : ID} (v : Nat) (h : k ∉ m.map Prod.fst) :
    (mapSet m k v).map Prod.fst = m.map Prod.fst ++ [k] := by
  induction m with
  | nil => simp [mapSet]
  | cons p m ih =>
    obtain ⟨k2, v2⟩ := p
    simp only [List.map_cons, List.mem_cons, not_or] at h
    have hk : ¬ k2 = k := fun h1 => h.1 h1.symm
    unfold mapSet
    simp only [hk, if_false, List.map_cons, List.cons_append]
    rw [ih h.2]

theorem indexFrom_mem : ∀ (ids : List ID) (i : Nat) (m : List (ID × Nat)) (p : ID × Nat),
    p ∈ indexFrom ids i m → p ∈ m ∨ (i ≤ p.2 ∧ p.2 < i + ids.length) := by
  intro ids
  induction ids with
  | nil =>
    intro i m p h
    exact Or.inl h
  | cons id rest ih =>
    intro i m p h
    unfold indexFrom at h
    rcases ih (i + 1) _ p h with h | h
    · rcases mapSet_mem h with h | h
      · exact Or.inl h
      · right
        rw [h]
        simp
    · right
      simp only [List.length_cons]
      omega

theorem indexFrom_inv : ∀ (rest pre : List ID) (m : List (ID × Nat)),
    (pre ++ rest).Nodup → m.map Prod.fst = pre →
    (∀ i id, pre[i]? = some id → mapGet m id = some i) →
    (indexFrom rest pre.length m).map Prod.fst = pre ++ rest ∧
      ∀ i id, (pre ++ rest)[i]? = some id → mapGet (indexFrom rest pre.length m) id = some i := by
  intro rest
  induction rest with
  | nil =>
    intro pre m _ hk hg
    simp only [indexFrom, List.append_nil]
    exact ⟨hk, hg⟩
  | cons id rest ih =>
    intro pre m hnd hk hg
    have hnotin : id ∉ pre := by
      intro h
      have := (List.nodup_append.mp hnd).2.2 h
      exact this (List.mem_cons_self _ _)
    have hnd1 : ((pre ++ [id]) ++ rest).Nodup := by simpa using hnd
    have hk1 : (mapSet m id pre.length).map Prod.fst = pre ++ [id] := by
      rw [map_fst_mapSet _ (by rw [hk]; exact hnotin), hk]
    have hg1 : ∀ i id1, (pre ++ [id])[i]? = some id1 →
        mapGet (mapSet m id pre.length) id1 = some i := by
      intro i id1 h
      rw [mapGet_mapSet]
      by_cases hi : i < pre.length
      · rw [List.getElem?_append_left hi] at h
        have hmem : id1 ∈ pre := List.mem_iff_getElem?.mpr ⟨i, h⟩
        have : ¬ id = id1 := fun e => hnotin (e ▸ hmem)
        simp only [this, if_false]
        exact hg i id1 h
      · rw [List.getElem?_append_right (by omega)] at h
        have hi0 : i - pre.length = 0 := by
          by_contra hne
          have : ([id] : List ID)[i - pre.length]? = none :=
            List.getElem?_eq_none (by simp; omega)
          rw [this] at h
          simp at h
        rw [hi0] at h
        simp at h
        subst h
        have : i = pre.length := by omega
        simp [this]
    have := ih (pre ++ [id]) (mapSet m id pre.length) hnd1 hk1 hg1
    simp only [List.length_append, List.length_singleton, List.append_assoc,
      List.singleton_append] at this
    unfold indexFrom
    exact this

theorem buildInv_empty (F : Prop) : BuildInv F (Graph.empty : Graph ID) := by
  constructor
  · constructor <;> simp [Graph.empty]
  · intro row h
    simp [Graph.empty] at h
  · intro p h
    simp [Graph.empty] at h
  · intro e h
    simp [Graph.empty] at h
  · intro _
    constructor
    · simp [Graph.empty]
    · simp [Graph.empty]
    · intro i id h
      simp [Graph.empty] at h

theorem initGraph_inv (gr : Graphiti G N ID) (graph : G) (nodes : List N) (F : Prop)
    (hF : F → (gr.initGraph graph nodes).Nodes.Nodup) :
    BuildInv F (gr.initGraph graph nodes) := by
  generalize hids : (gr.initGraph graph nodes).Nodes = ids at hF
  have hg : gr.initGraph graph nodes =
      { Nodes := ids, IndexOf := indexFrom ids 0 [], Edges := [],
        GroupOf := List.replicate ids.length 0,
        M := List.replicate ids.length (List.replicate ids.length R.zero) } := by
    rw [← hids]
    rfl
  rw [hg]
  constructor
  · constructor
    · simp
    · simp
    · intro row h
      rw [(List.mem_replicate.mp h).2]
      simp
    · intro e h
      simp at h
  · intro row h r hr
    rw [(List.mem_replicate.mp h).2] at hr
    exact (List.mem_replicate.mp hr).2
  · intro p h
    rcases indexFrom_mem ids 0 [] p h with h | h
    · simp at h
    · show p.2 < ids.length
      omega
  · intro e h
    simp at h
  · intro hf
    have := indexFrom_inv ids [] [] (by simpa using hF hf) rfl (by intro i id h; simp at h)
    simp only [List.length_nil, List.nil_append] at this
    exact ⟨hF hf, this.1, this.2⟩

theorem appendNewNode_inv (gr : Graphiti G N ID) (g : Graph ID) (xn : N) (F : Prop)
    (hinv : BuildInv F g) (hnew : F → mapGet g.IndexOf (gr.GetName xn) = none) :
    BuildInv F (gr.appendNewNode g xn).1 ∧ (gr.appendNewNode g xn).2 = g.Nodes.length ∧
      (gr.appendNewNode g xn).1.Nodes = g.Nodes ++ [gr.GetName xn] := by
  have hlen : (g.Nodes ++ [gr.GetName xn]).length - 1 = g.Nodes.length := by simp
  refine ⟨?_, ?_, rfl⟩
  · constructor
    · constructor
      · show (g.GroupOf ++ [0]).length = (g.Nodes ++ [gr.GetName xn]).length
        simp [hinv.wf.groups]
      · show (g.M.map (fun row => row ++ [R.zero]) ++
          [List.replicate (g.Nodes ++ [gr.GetName xn]).length R.zero]).length =
          (g.Nodes ++ [gr.GetName xn]).length
        simp [hinv.wf.rows]
      · show ∀ row ∈ (g.M.map (fun row => row ++ [R.zero]) ++
          [List.replicate (g.Nodes ++ [gr.GetName xn]).length R.zero]),
          row.length = (g.Nodes ++ [gr.GetName xn]).length
        intro row h
        rcases List.mem_append.mp h with h | h
        · obtain ⟨row0, h0, rfl⟩ := List.mem_map.mp h
          simp [hinv.wf.cols row0 h0]
        · have : row = List.replicate (g.Nodes ++ [gr.GetName xn]).length R.zero := by
            simpa using h
          rw [this]
          simp
      · show ∀ e ∈ g.Edges, e.1 < (g.Nodes ++ [gr.GetName xn]).length ∧
          e.2.1 < (g.Nodes ++ [gr.GetName xn]).length
        intro e h
        have := hinv.wf.edges e h
        simp only [List.length_append, List.length_singleton]
        omega
    · show ∀ row ∈ (g.M.map (fun row => row ++ [R.zero]) ++
        [List.replicate (g.Nodes ++ [gr.GetName xn]).length R.zero]), ∀ r ∈ row, r = R.zero
      intro row h r hr
      rcases List.mem_append.mp h with h | h
      · obtain ⟨row0, h0, rfl⟩ := List.mem_map.mp h
        rcases List.mem_append.mp hr with hr | hr
        · exact hinv.zero row0 h0 r hr
        · simpa using hr
      · have : row = List.replicate (g.Nodes ++ [gr.GetName xn]).length R.zero := by
          simpa using h
        rw [this] at hr
        exact (List.mem_replicate.mp hr).2
    · show ∀ p ∈ mapSet g.IndexOf (gr.GetName xn) ((g.Nodes ++ [gr.GetName xn]).length - 1),
        p.2 < (g.Nodes ++ [gr.GetName xn]).length
      intro p h
      simp only [List.length_append, List.length_singleton]
      rcases mapSet_mem h with h | h
      · have := hinv.idxLt p h
        omega
      · rw [h]
        simp
    · exact hinv.cost
    · intro hf
      have hi := hinv.index hf
      have hnone := mapGet_eq_none (hnew hf)
      have hnotin : gr.GetName xn ∉ g.Nodes := by
        rw [← hi.keys]
        exact hnone
      constructor
      · show (g.Nodes ++ [gr.GetName xn]).Nodup
        rw [List.nodup_append]
        refine ⟨hi.nodup, by simp, ?_⟩
        intro a ha hb
        have : a = gr.GetName xn := by simpa using hb
        exact hnotin (this ▸ ha)
      · show (mapSet g.IndexOf (gr.GetName xn) _).map Prod.fst = g.Nodes ++ [gr.GetName xn]
        rw [map_fst_mapSet _ hnone, hi.keys]
      · show ∀ i id, (g.Nodes ++ [gr.GetName xn])[i]? = some id →
          mapGet (mapSet g.IndexOf (gr.GetName xn)
            ((g.Nodes ++ [gr.GetName xn]).length - 1)) id = some i
        intro i id h
        rw [mapGet_mapSet, hlen]
        by_cases hlt : i < g.Nodes.length
        · rw [List.getElem?_append_left hlt] at h
          have hmem : id ∈ g.Nodes := List.mem_iff_getElem?.mpr ⟨i, h⟩
          have : ¬ gr.GetName xn = id := fun e => hnotin (e ▸ hmem)
          simp only [this, if_false]
          exact hi.get i id h
        · rw [List.getElem?_append_right (by omega)] at h
          have hi0 : i - g.Nodes.length = 0 := by
            by_contra hne
            have : ([gr.GetName xn] : List ID)[i - g.Nodes.length]? = none :=
              List.getElem?_eq_none (by simp; omega)
            rw [this] at h
            simp at h
          rw [hi0] at h
          simp at h
          subst h
          have : i = g.Nodes.length := by omega
          simp [this]
  · show (g.Nodes ++ [gr.GetName xn]).length - 1 = g.Nodes.length
    exact hlen

end BuilderLemmas

end GoGraphiti

/-! ## The builder: the loops preserve the invariant -/

namespace GoGraphiti

section BuilderLoops

variable {G N ID : Type}

theorem updateGroups_ok (g : Graph ID) {x y : Nat} (hx : x < g.GroupOf.length)
    (hy : y < g.GroupOf.length) :
    ∃ go, g.updateGroups x y = .ok { g with GroupOf := go } ∧ go.length = g.GroupOf.length := by
  unfold Graph.updateGroups
  rw [List.getElem?_eq_getElem hx]
  simp only
  generalize hgo1 : (if g.GroupOf[x] = unset then
    g.GroupOf.set x (List.foldl max 0 g.GroupOf + 1) else g.GroupOf) = go1
  have hl1 : go1.length = g.GroupOf.length := by
    rw [← hgo1]
    split <;> simp
  have hy1 : y < go1.length := by rw [hl1]; exact hy
  rw [List.getElem?_eq_getElem hy1]
  simp only
  generalize hgo2 : (if go1[y] = unset then
    go1.set y (List.foldl max 0 g.GroupOf + 1) else go1) = go2
  have hl2 : go2.length = g.GroupOf.length := by
    rw [← hgo2]
    split <;> simp [hl1]
  have hx2 : x < go2.length := by rw [hl2]; exact hx
  have hy2 : y < go2.length := by rw [hl2]; exact hy
  rw [List.getElem?_eq_getElem hx2, List.getElem?_eq_getElem hy2]
  simp only
  split
  · exact ⟨go2, rfl, hl2⟩
  · exact ⟨_, rfl, by simp [hl2]⟩

variable [DecidableEq ID]

theorem resolveTarget_inv (gr : Graphiti G N ID) (graph : G) (g : Graph ID) (e : ID) (F : Prop)
    (hF : F → ∀ id n, gr.GetNode graph id = some n → gr.GetName n = id)
    (hinv : BuildInv F g) {g1 : Graph ID} {idx2 : Nat}
    (h : gr.resolveTarget graph g e = some (g1, idx2)) :
    BuildInv F g1 ∧ idx2 < g1.Nodes.length ∧ g.Nodes.length ≤ g1.Nodes.length := by
  unfold Graphiti.resolveTarget at h
  cases hget : mapGet g.IndexOf e with
  | some i =>
    simp only [hget, Option.some.injEq, Prod.mk.injEq] at h
    obtain ⟨rfl, rfl⟩ := h
    exact ⟨hinv, hinv.idxLt _ (mapGet_mem hget), le_refl _⟩
  | none =>
    simp only [hget] at h
    cases hnode : gr.GetNode graph e with
    | none => simp [hnode] at h
    | some xn =>
      simp only [hnode, Option.some.injEq] at h
      have hnew : F → mapGet g.IndexOf (gr.GetName xn) = none := by
        intro hf
        rw [hF hf e xn hnode]
        exact hget
      obtain ⟨h1, h2, h3⟩ := appendNewNode_inv gr g xn F hinv hnew
      rw [h] at h1 h2 h3
      simp only at h1 h2 h3
      refine ⟨h1, ?_, ?_⟩
      · rw [h2, h3]
        simp
      · rw [h3]
        simp

theorem addEdge_inv {F : Prop} {g1 : Graph ID} (hinv : BuildInv F g1) {idx idx2 : Nat}
    (go : List Int) (d : Int) (hgo : go.length = g1.GroupOf.length)
    (hidx : idx < g1.Nodes.length) (hidx2 : idx2 < g1.Nodes.length) (hd : 0 ≤ d) :
    BuildInv F { Nodes := g1.Nodes, IndexOf := g1.IndexOf,
                 Edges := g1.Edges ++ [(idx, idx2, d)], GroupOf := go, M := g1.M } := by
  constructor
  · constructor
    · show go.length = g1.Nodes.length
      rw [hgo]
      exact hinv.wf.groups
    · exact hinv.wf.rows
    · exact hinv.wf.cols
    · show ∀ e ∈ g1.Edges ++ [(idx, idx2, d)], e.1 < g1.Nodes.length ∧ e.2.1 < g1.Nodes.length
      intro e he
      rcases List.mem_append.mp he with he | he
      · exact hinv.wf.edges e he
      · have : e = (idx, idx2, d) := by simpa using he
        rw [this]
        exact ⟨hidx, hidx2⟩
  · exact hinv.zero
  · exact hinv.idxLt
  · show ∀ e ∈ g1.Edges ++ [(idx, idx2, d)], 0 ≤ e.2.2
    intro e he
    rcases List.mem_append.mp he with he | he
    · exact hinv.cost e he
    · have : e = (idx, idx2, d) := by simpa using he
      rw [this]
      exact hd
  · intro hf
    exact ⟨(hinv.index hf).nodup, (hinv.index hf).keys, (hinv.index hf).get⟩

theorem addEdgesLoop_inv (gr : Graphiti G N ID) (graph : G) (id : ID) (idx : Nat)
    (persevere : Bool) (F : Prop)
    (hF : F → ∀ id n, gr.GetNode graph id = some n → gr.GetName n = id) :
    ∀ (nbrs : List (ID × Int)) (g : Graph ID) (errs : List (Err ID)),
      BuildInv F g → idx < g.Nodes.length →
      ∃ b g1 errs1, gr.addEdgesLoop graph id idx persevere nbrs g errs = .ok (b, g1, errs1) ∧
        BuildInv F g1 ∧ g.Nodes.length ≤ g1.Nodes.length := by
  intro nbrs
  induction nbrs with
  | nil =>
    intro g errs hinv _
    exact ⟨true, g, errs, rfl, hinv, le_refl _⟩
  | cons nbr rest ih =>
    intro g errs hinv hidx
    obtain ⟨e, d⟩ := nbr
    unfold Graphiti.addEdgesLoop
    by_cases hd : d < 0
    · simp only [hd, if_true]
      cases persevere with
      | true =>
        simp only [if_true]
        exact ih g _ hinv hidx
      | false => exact ⟨false, g, _, rfl, hinv, le_refl _⟩
    · simp only [hd, if_false]
      cases hres : gr.resolveTarget graph g e with
      | none =>
        simp only
        cases persevere with
        | true =>
          simp only [if_true]
          exact ih g _ hinv hidx
        | false => exact ⟨false, g, _, rfl, hinv, le_refl _⟩
      | some p =>
        obtain ⟨g1, idx2⟩ := p
        simp only
        obtain ⟨h1, h2, h3⟩ := resolveTarget_inv gr graph g e F hF hinv hres
        have hx : idx < g1.GroupOf.length := by rw [h1.wf.groups]; omega
        have hy : idx2 < g1.GroupOf.length := by rw [h1.wf.groups]; exact h2
        obtain ⟨go, hu, hgo⟩ := updateGroups_ok g1 hx hy
        rw [hu]
        simp only
        have hidx1 : idx < g1.Nodes.length := by omega
        have hinv2 := addEdge_inv h1 go d hgo hidx1 h2 (by omega)
        obtain ⟨b, g3, errs3, k1, k2, k3⟩ := ih _ errs hinv2 hidx1
        have k4 : g1.Nodes.length ≤ g3.Nodes.length := k3
        exact ⟨b, g3, errs3, k1, k2, by omega⟩

theorem addEdges_inv (gr : Graphiti G N ID) (graph : G) (id : ID) (idx : Nat)
    (persevere : Bool) (F : Prop)
    (hF : F → ∀ id n, gr.GetNode graph id = some n → gr.GetName n = id)
    (g : Graph ID) (hinv : BuildInv F g) (hidx : idx < g.Nodes.length) :
    ∃ b g1 errs1, gr.addEdges graph id g idx persevere = .ok (b, g1, errs1) ∧
      BuildInv F g1 ∧ g.Nodes.length ≤ g1.Nodes.length := by
  unfold Graphiti.addEdges
  cases hnode : gr.GetNode graph id with
  | none => exact ⟨persevere, g, _, rfl, hinv, le_refl _⟩
  | some n =>
    dsimp only
    split
    · exact ⟨false, g, _, rfl, hinv, le_refl _⟩
    · exact addEdgesLoop_inv gr graph id idx persevere F hF _ g [] hinv hidx

theorem buildLoop_inv (gr : Graphiti G N ID) (graph : G) (persevere : Bool) (F : Prop)
    (hF : F → ∀ id n, gr.GetNode graph id = some n → gr.GetName n = id) :
    ∀ (fuel idx : Nat) (g : Graph ID) (errs : List (Err ID)), BuildInv F g →
      gr.buildLoop graph persevere fuel idx g errs ≠ .outOfRange ∧
      ∀ g1 errs1, gr.buildLoop graph persevere fuel idx g errs = .ok (some g1, errs1) →
        BuildInv F g1 ∧ errs1 = [] := by
  have hfin : ∀ (g g1 : Graph ID) (errs1 : List (Err ID)), BuildInv F g →
      (Res.ok (buildFinish g) : Res (Option (Graph ID) × List (Err ID))) = .ok (some g1, errs1) →
      BuildInv F g1 ∧ errs1 = [] := by
    intro g g1 errs1 hinv h
    unfold buildFinish at h
    split at h
    · simp only [Res.ok.injEq, Prod.mk.injEq, Option.some.injEq] at h
      rw [← h.1, ← h.2]
      exact ⟨buildInv_empty F, rfl⟩
    · simp only [Res.ok.injEq, Prod.mk.injEq, Option.some.injEq] at h
      rw [← h.1, ← h.2]
      exact ⟨hinv, rfl⟩
  intro fuel
  induction fuel with
  | zero =>
    intro idx g errs hinv
    unfold Graphiti.buildLoop
    cases hn : g.Nodes[idx]? with
    | none => exact ⟨by simp, fun g1 errs1 h => hfin g g1 errs1 hinv h⟩
    | some id => exact ⟨by simp, by simp⟩
  | succ fuel ih =>
    intro idx g errs hinv
    unfold Graphiti.buildLoop
    cases hn : g.Nodes[idx]? with
    | none => exact ⟨by simp, fun g1 errs1 h => hfin g g1 errs1 hinv h⟩
    | some id =>
      simp only
      have hidx : idx < g.Nodes.length := (List.getElem?_eq_some_iff.mp hn).1
      obtain ⟨b, g1, errs1, h1, h2, _⟩ := addEdges_inv gr graph id idx persevere F hF g hinv hidx
      rw [h1]
      simp only
      cases b with
      | true =>
        simp only [if_true]
        exact ih (idx + 1) g1 _ h2
      | false => exact ⟨by simp, by simp⟩

end BuilderLoops

end GoGraphiti

/-! ## The builder: errors of the strict and of the lenient build -/

namespace GoGraphiti

section BuilderErrors

variable {G N ID : Type} [DecidableEq ID]

theorem buildLoop_fuel_succ (gr : Graphiti G N ID) (graph : G) (persevere : Bool) :
    ∀ (fuel idx : Nat) (g : Graph ID) (errs : List (Err ID))
      (r : Option (Graph ID) × List (Err ID)),
      gr.buildLoop graph persevere fuel idx g errs = .ok r →
      gr.buildLoop graph persevere (fuel + 1) idx g errs = .ok r := by
  intro fuel
  induction fuel with
  | zero =>
    intro idx g errs r h
    unfold Graphiti.buildLoop at h ⊢
    cases hn : g.Nodes[idx]? with
    | none =>
      simp only [hn] at h ⊢
      exact h
    | some id => simp [hn] at h
  | succ fuel ih =>
    intro idx g errs r h
    unfold Graphiti.buildLoop at h
    unfold Graphiti.buildLoop
    cases hn : g.Nodes[idx]? with
    | none =>
      simp only [hn] at h ⊢
      exact h
    | some id =>
      simp only [hn] at h ⊢
      cases ha : gr.addEdges graph id g idx persevere with
      | outOfRange => simp [ha] at h
      | outOfFuel => simp [ha] at h
      | ok res =>
        obtain ⟨b, g1, errs1⟩ := res
        simp only [ha] at h ⊢
        cases b with
        | true =>
          simp only [if_true] at h ⊢
          exact ih (idx + 1) g1 _ r h
        | false =>
          simp only [Bool.false_eq_true, if_false] at h ⊢
          exact h

theorem newGraph_fuel_mono (gr : Graphiti G N ID) (graph : G) (nodes : List N)
    (persevere : Bool) (fuel extra : Nat) (r : Option (Graph ID) × List (Err ID))
    (h : gr.newGraph fuel graph nodes persevere = .ok r) :
    gr.newGraph (fuel + extra) graph nodes persevere = .ok r := by
  induction extra with
  | zero => exact h
  | succ n ih => exact buildLoop_fuel_succ gr graph persevere (fuel + n) 0 _ [] r ih

end BuilderErrors

end GoGraphiti

/-! ## All sources, the diagonal, and id resolution -/

namespace GoGraphiti

section WholeMatrix

variable {ID : Type}

theorem cell_congr {g g1 : Graph ID} {s : Nat} (h : g1.M[s]? = g.M[s]?) (t : Nat) :
    g1.cell s t = g.cell s t := by
  unfold Graph.cell cellM
  rw [h]

theorem rowDone_congr {g g1 : Graph ID} {c : Int} {s : Nat} (hE : g1.Edges = g.Edges)
    (hN : g1.Nodes = g.Nodes) (hM : g1.M[s]? = g.M[s]?) (h : RowDone g c s) :
    RowDone g1 c s := by
  intro t
  have := h t
  rw [cell_congr hM t, hE, hN]
  exact this

theorem allDistances_spec (c : Int) : ∀ (n i : Nat) (g : Graph ID), g.WF →
    i + n = g.Nodes.length → (∀ s, i ≤ s → ∀ t, g.cell s t = R.zero) →
    (∀ s, s < i → RowDone g c s) →
    ∃ g2, allDistancesFrom n i g = .ok g2 ∧ SameFrame g g2 ∧ g2.WF ∧
      ∀ s, s < g.Nodes.length → RowDone g2 c s := by
  intro n
  induction n with
  | zero =>
    intro i g hwf hn _ hdone
    exact ⟨g, rfl, SameFrame.refl g, hwf, fun s hs => hdone s (by omega)⟩
  | succ n ih =>
    intro i g hwf hn hzero hdone
    obtain ⟨g1, h1, h2, h3, h4, h5⟩ :=
      distance_spec g c i hwf (by omega) (hzero i (le_refl i))
    have hzero1 : ∀ s, i + 1 ≤ s → ∀ t, g1.cell s t = R.zero := by
      intro s hs t
      rw [cell_congr (h4 s (by omega)) t]
      exact hzero s (by omega) t
    have hdone1 : ∀ s, s < i + 1 → RowDone g1 c s := by
      intro s hs
      by_cases hsi : s = i
      · rw [hsi]
        exact h5
      · exact rowDone_congr h2.2.2.1 h2.1 (h4 s hsi) (hdone s (by omega))
    obtain ⟨g2, k1, k2, k3, k4⟩ := ih (i + 1) g1 h3 (by rw [h2.1]; omega) hzero1 hdone1
    refine ⟨g2, ?_, h2.trans k2, k3, ?_⟩
    · simp only [allDistancesFrom, h1]
      exact k1
    · intro s hs
      exact k4 s (by rw [h2.1]; exact hs)

theorem hasCyclesFrom_spec (M : List (List R)) (hcols : ∀ row ∈ M, row.length = M.length) :
    ∀ (n xy : Nat), xy + n = M.length →
    ∃ b, hasCyclesFrom M n xy = .ok b ∧
      (b = true ↔ ∃ i, xy ≤ i ∧ i < M.length ∧ cellM M i i ≠ R.zero) := by
  intro n
  induction n with
  | zero =>
    intro xy hn
    refine ⟨false, rfl, ?_⟩
    constructor
    · intro h
      exact absurd h (by simp)
    · rintro ⟨i, h1, h2, _⟩
      omega
  | succ n ih =>
    intro xy hn
    have hxy : xy < M.length := by omega
    have hrow : M[xy]? = some M[xy] := List.getElem?_eq_getElem hxy
    have hlen : (M[xy]).length = M.length := hcols _ (List.getElem_mem hxy)
    have hr : (M[xy])[xy]? = some (M[xy])[xy] := List.getElem?_eq_getElem (by rw [hlen]; exact hxy)
    have hcell : cellM M xy xy = (M[xy])[xy] := by
      unfold cellM
      rw [hrow]
      simp [hr]
    unfold hasCyclesFrom
    rw [hrow]
    simp only [hr]
    by_cases hz : (M[xy])[xy] ≠ R.zero
    · rw [if_pos hz]
      refine ⟨true, rfl, ?_⟩
      constructor
      · intro _
        exact ⟨xy, le_refl _, hxy, by rw [hcell]; exact hz⟩
      · intro _
        rfl
    · rw [if_neg hz]
      obtain ⟨b, h1, h2⟩ := ih (xy + 1) (by omega)
      refine ⟨b, h1, ?_⟩
      rw [h2]
      constructor
      · rintro ⟨i, k1, k2, k3⟩
        exact ⟨i, by omega, k2, k3⟩
      · rintro ⟨i, k1, k2, k3⟩
        refine ⟨i, ?_, k2, k3⟩
        by_contra hlt
        have : i = xy := by omega
        rw [this, hcell] at k3
        exact hz k3

variable [DecidableEq ID]

theorem getIdxFrom_none (id : ID) : ∀ (l : List ID) (i : Nat),
    getIdxFrom id l i = none ↔ id ∉ l := by
  intro l
  induction l with
  | nil =>
    intro i
    simp [getIdxFrom]
  | cons id2 rest ih =>
    intro i
    unfold getIdxFrom
    by_cases h : id = id2
    · simp [h]
    · simp only [h, if_false, List.mem_cons, false_or]
      exact ih (i + 1)

theorem getIdxFrom_some (id : ID) : ∀ (l : List ID) (i x : Nat),
    getIdxFrom id l i = some x → i ≤ x ∧ l[x - i]? = some id := by
  intro l
  induction l with
  | nil =>
    intro i x h
    simp [getIdxFrom] at h
  | cons id2 rest ih =>
    intro i x h
    unfold getIdxFrom at h
    by_cases hid : id = id2
    · simp only [hid, if_true, Option.some.injEq] at h
      subst h
      simp [hid]
    · simp only [hid, if_false] at h
      obtain ⟨h1, h2⟩ := ih (i + 1) x h
      refine ⟨by omega, ?_⟩
      have : x - i = (x - (i + 1)) + 1 := by omega
      rw [this]
      simpa using h2

theorem getIdx_none (g : Graph ID) (id : ID) : g.getIdx id = none ↔ id ∉ g.Nodes :=
  getIdxFrom_none id g.Nodes 0

theorem getIdx_some (g : Graph ID) (id : ID) (x : Nat) (h : g.getIdx id = some x) :
    g.Nodes[x]? = some id := by
  have := (getIdxFrom_some id g.Nodes 0 x h).2
  simpa using this

theorem getIdx_lt (g : Graph ID) (id : ID) (x : Nat) (h : g.getIdx id = some x) :
    x < g.Nodes.length :=
  (List.getElem?_eq_some_iff.mp (getIdx_some g id x h)).1

theorem steps_of_distance (g g1 : Graph ID) (src dst : ID) (x y : Nat)
    (hx : g.getIdx src = some x) (hy : g.getIdx dst = some y)
    (hd : g.distance x = .ok g1) (hwf : g1.WF) (hN : g1.Nodes = g.Nodes) :
    g.Steps src dst = .ok (g1, (g1.cell x y).Steps, none) := by
  have hxl : x < g1.M.length := by
    rw [hwf.rows, hN]
    exact getIdx_lt g src x hx
  have hrow : g1.M[x]? = some g1.M[x] := List.getElem?_eq_getElem hxl
  have hyl : y < (g1.M[x]).length := by
    rw [hwf.cols _ (List.getElem_mem hxl), hN]
    exact getIdx_lt g dst y hy
  have hr : (g1.M[x])[y]? = some (g1.M[x])[y] := List.getElem?_eq_getElem hyl
  have hcell : g1.cell x y = (g1.M[x])[y] := by
    unfold Graph.cell cellM
    rw [hrow]
    simp [hr]
  unfold Graph.Steps
  simp only [hx, hy, hd, hrow, hr]
  rw [hcell]

end WholeMatrix

end GoGraphiti

/-! ## Totality of the per-source procedure on any well-formed graph -/

namespace GoGraphiti

section Totality

variable {ID : Type}

theorem layer_total {E : List (Nat × Nat × Int)} {N src : Nat} (dist steps : Int)
    (hval : ∀ e ∈ E, e.1 < N ∧ e.2.1 < N) (hsrc : src < N) :
    ∀ (rem : List (Nat × Int)) (st : LayerState ID), st.g.Edges = E →
      st.g.M.length = N → (∀ row ∈ st.g.M, row.length = N) → st.done.length = N →
      (∀ e ∈ rem, e.1 < N) → (∀ e ∈ st.nextQ, e.1 < N) →
      ∃ st1, layer src dist steps rem st = .ok st1 ∧ SameFrame st.g st1.g ∧
        st1.g.M.length = N ∧ (∀ row ∈ st1.g.M, row.length = N) ∧ st1.done.length = N ∧
        (∀ e ∈ st1.nextQ, e.1 < N) ∧ (∀ x, x ≠ src → st1.g.M[x]? = st.g.M[x]?) ∧
        st1.done.count false + st1.nextQ.length = st.done.count false + st.nextQ.length := by
  intro rem
  induction rem with
  | nil =>
    intro st _ hrows hcols hdone _ hnq
    exact ⟨st, rfl, SameFrame.refl _, hrows, hcols, hdone, hnq, fun _ _ => rfl, rfl⟩
  | cons e rest ih =>
    intro st hE hrows hcols hdone hrem hnq
    have hsl : src < st.g.M.length := by rw [hrows]; exact hsrc
    have hrow : st.g.M[src]? = some st.g.M[src] := List.getElem?_eq_getElem hsl
    have hrowlen : (st.g.M[src]).length = N := hcols _ (List.getElem_mem hsl)
    have het : e.1 < (st.g.M[src]).length := by
      rw [hrowlen]
      exact hrem e (List.mem_cons_self _ _)
    have hr : (st.g.M[src])[e.1]? = some (st.g.M[src])[e.1] := List.getElem?_eq_getElem het
    have hset := set_eq st.g (intAdd dist e.2) steps hrow hr
    generalize hg1def : ({ st.g with M := st.g.M.set src ((st.g.M[src]).set e.1
      { Steps := if (st.g.M[src])[e.1].Steps = 0 ∨ (st.g.M[src])[e.1].Steps > steps
          then steps else (st.g.M[src])[e.1].Steps
        Dist := if (decide ((st.g.M[src])[e.1].Dist = unset) ||
            decide ((st.g.M[src])[e.1].Dist > intAdd dist e.2)) = true
          then intAdd dist e.2 else (st.g.M[src])[e.1].Dist }) } : Graph ID) = g1 at hset
    have hM1 : ∃ r1, g1.M = st.g.M.set src ((st.g.M[src]).set e.1 r1) := by
      rw [← hg1def]
      exact ⟨_, rfl⟩
    obtain ⟨r1, hM1⟩ := hM1
    have hE1 : g1.Edges = E := by rw [← hg1def]; exact hE
    have hframe : SameFrame st.g g1 := by
      rw [← hg1def]
      exact ⟨rfl, rfl, rfl, rfl⟩
    have hes : ∀ e2 ∈ g1.getEdges e.1, e2.1 < N := by
      intro e2 he2
      have : (e.1, e2.1, e2.2) ∈ g1.Edges := (mem_getEdges g1 e.1 e2.1 e2.2).mp he2
      rw [hE1] at this
      exact (hval _ this).2
    obtain ⟨done1, new, hx1, hx2, _, _, _, hx6, hx7⟩ :=
      expand_spec N (g1.getEdges e.1) st.done st.nextQ hdone hes
    have hrows1 : g1.M.length = N := by rw [hM1, List.length_set]; exact hrows
    have hcols1 : ∀ row ∈ g1.M, row.length = N := by
      intro row1 hrow1
      rw [hM1] at hrow1
      rcases List.mem_or_eq_of_mem_set hrow1 with h | h
      · exact hcols _ h
      · rw [h, List.length_set]
        exact hrowlen
    have hnq1 : ∀ e2 ∈ st.nextQ ++ new, e2.1 < N := by
      intro e2 he2
      rcases List.mem_append.mp he2 with h | h
      · exact hnq e2 h
      · exact hes e2 (hx6 e2 h).1
    obtain ⟨st1, k1, k2, k3, k4, k5, k6, k7, k8⟩ :=
      ih { g := g1, done := done1, nextQ := st.nextQ ++ new,
           nextDist := if (decide ((st.g.M[src])[e.1].Dist = unset) ||
             decide ((st.g.M[src])[e.1].Dist > intAdd dist e.2)) = true
             then intAdd dist e.2 else st.nextDist }
        hE1 hrows1 hcols1 hx2 (fun e2 he2 => hrem e2 (List.mem_cons_of_mem _ he2)) hnq1
    refine ⟨st1, ?_, hframe.trans k2, k3, k4, k5, k6, ?_, ?_⟩
    · simp only [layer, hset, hx1]
      exact k1
    · intro x hx
      rw [k7 x hx]
      show g1.M[x]? = st.g.M[x]?
      rw [hM1]
      exact List.getElem?_set_ne (fun h => hx h.symm)
    · rw [k8]
      simp only [List.length_append]
      omega

theorem distanceLoop_total {E : List (Nat × Nat × Int)} {N src : Nat}
    (hval : ∀ e ∈ E, e.1 < N ∧ e.2.1 < N) (hsrc : src < N) :
    ∀ (fuel : Nat) (g : Graph ID) (done : List Bool) (q : List (Nat × Int)) (dist steps : Int),
      g.Edges = E → g.M.length = N → (∀ row ∈ g.M, row.length = N) → done.length = N →
      (∀ e ∈ q, e.1 < N) → (q ≠ [] → done.count false + 1 ≤ fuel) →
      ∃ g1, distanceLoop src fuel g done q dist steps = .ok g1 ∧ SameFrame g g1 ∧
        g1.M.length = N ∧ (∀ row ∈ g1.M, row.length = N) ∧
        (∀ x, x ≠ src → g1.M[x]? = g.M[x]?) := by
  intro fuel
  induction fuel with
  | zero =>
    intro g done q dist steps _ hrows hcols _ _ hfuel
    cases q with
    | nil => exact ⟨g, rfl, SameFrame.refl _, hrows, hcols, fun _ _ => rfl⟩
    | cons e q =>
      have := hfuel (by simp)
      omega
  | succ fuel ih =>
    intro g done q dist steps hE hrows hcols hdone hq hfuel
    cases q with
    | nil => exact ⟨g, rfl, SameFrame.refl _, hrows, hcols, fun _ _ => rfl⟩
    | cons e q =>
      obtain ⟨st1, h1, h2, h3, h4, h5, h6, h7, h8⟩ :=
        layer_total dist steps hval hsrc (e :: q)
          { g := g, done := done, nextQ := [], nextDist := 0 } hE hrows hcols hdone hq
          (by intro e2 he2; simp at he2)
      have hfuel1 : st1.nextQ ≠ [] → st1.done.count false + 1 ≤ fuel := by
        intro hne
        have := hfuel (by simp)
        have hpos : 0 < st1.nextQ.length := List.length_pos.mpr hne
        simp only [List.length_nil] at h8
        omega
      obtain ⟨g1, k1, k2, k3, k4, k5⟩ :=
        ih st1.g st1.done st1.nextQ st1.nextDist (steps + 1) (by rw [h2.2.2.1]; exact hE)
          h3 h4 h5 h6 hfuel1
      refine ⟨g1, ?_, h2.trans k2, k3, k4, ?_⟩
      · simp only [distanceLoop, h1]
        exact k1
      · intro x hx
        rw [k5 x hx]
        exact h7 x hx

theorem distance_total (g : Graph ID) (src : Nat) (hwf : g.WF) (hsrc : src < g.Nodes.length) :
    ∃ g1, g.distance src = .ok g1 ∧ SameFrame g g1 ∧ g1.WF ∧
      (∀ x, x ≠ src → g1.M[x]? = g.M[x]?) := by
  have hq : ∀ e ∈ g.getEdges src, e.1 < g.Nodes.length := by
    intro e he
    exact (hwf.edges _ ((mem_getEdges g src e.1 e.2).mp he)).2
  obtain ⟨g1, h1, h2, h3, h4, h5⟩ :=
    distanceLoop_total hwf.edges hsrc (g.Nodes.length + 1) g
      (List.replicate g.Nodes.length false) (g.getEdges src) 0 1 rfl hwf.rows hwf.cols
      (by simp) hq (by intro _; simp)
  refine ⟨g1, h1, h2, ?_, h5⟩
  constructor
  · rw [h2.2.2.2, h2.1]
    exact hwf.groups
  · rw [h2.1]
    exact h3
  · rw [h2.1]
    exact h4
  · rw [h2.1, h2.2.2.1]
    exact hwf.edges

end Totality

end GoGraphiti

/-! ## Properties of the distance engine on built graphs -/

namespace GoGraphiti

section EngineClaims

variable {G N ID : Type} [DecidableEq ID]

theorem newGraph_inv (gr : Graphiti G N ID) (fuel : Nat) (graph : G) (nodes : List N)
    (persevere : Bool) (F : Prop)
    (hF : F → ∀ id n, gr.GetNode graph id = some n → gr.GetName n = id)
    (hnd : F → (gr.initGraph graph nodes).Nodes.Nodup) (g : Graph ID) (errs : List (Err ID))
    (h : gr.newGraph fuel graph nodes persevere = .ok (some g, errs)) :
    BuildInv F g ∧ errs = [] :=
  (buildLoop_inv gr graph persevere F hF fuel 0 _ [] (initGraph_inv gr graph nodes F hnd)).2
    g errs h

theorem builds_newGraph (gr : Graphiti G N ID) (fuel : Nat) (graph : G) (nodes : List N)
    (g : Graph ID) (h : gr.Builds fuel graph nodes g) :
    ∃ persevere errs, gr.newGraph fuel graph nodes persevere = .ok (some g, errs) := by
  rcases h with ⟨err, h⟩ | ⟨errs, h⟩
  · unfold Graphiti.New at h
    cases hn : gr.newGraph fuel graph nodes false with
    | outOfRange => simp [hn] at h
    | outOfFuel => simp [hn] at h
    | ok r =>
      obtain ⟨g1, errs1⟩ := r
      simp only [hn, Res.ok.injEq, Prod.mk.injEq] at h
      exact ⟨false, errs1, by rw [hn, h.1]⟩
  · exact ⟨true, errs, h⟩

theorem builds_inv (gr : Graphiti G N ID) (fuel : Nat) (graph : G) (nodes : List N)
    (F : Prop) (hF : F → ∀ id n, gr.GetNode graph id = some n → gr.GetName n = id)
    (hnd : F → (gr.initGraph graph nodes).Nodes.Nodup) (g : Graph ID)
    (h : gr.Builds fuel graph nodes g) : BuildInv F g := by
  obtain ⟨persevere, errs, h1⟩ := builds_newGraph gr fuel graph nodes g h
  exact (newGraph_inv gr fuel graph nodes persevere F hF hnd g errs h1).1

theorem builds_fresh (gr : Graphiti G N ID) (fuel : Nat) (graph : G) (nodes : List N)
    (g : Graph ID) (h : gr.Builds fuel graph nodes g) : BuildInv False g :=
  builds_inv gr fuel graph nodes False (fun hf => hf.elim) (fun hf => hf.elim) g h

theorem allDistances_fresh (g : Graph ID) (c : Int) (hinv : BuildInv False g) :
    ∃ g2, g.AllDistances = .ok g2 ∧ SameFrame g g2 ∧ g2.WF ∧
      ∀ s, s < g.Nodes.length → RowDone g2 c s := by
  obtain ⟨g2, h1, h2, h3, h4⟩ := allDistances_spec c g.Nodes.length 0 g hinv.wf (by simp)
    (fun s _ t => cell_zero_of_zeroMatrix hinv.zero s t) (fun s hs => absurd hs (by omega))
  exact ⟨g2, h1, h2, h3, h4⟩

/-- C1: on a graph returned by a build, after the per-source procedure has run
for index `s` (directly, through `AllDistances`, or through `Steps` with an id
that resolves to `s`), the cell `M[s][t].Steps` is the least number of edges of
a non-empty directed walk from `s` to `t` over `Edges`, and `0` when there is
no such walk. -/
theorem C1_steps_minimal (gr : Graphiti G N ID) (fuel : Nat) (graph : G) (nodes : List N)
    (g : Graph ID) (h : gr.Builds fuel graph nodes g) (s t : Nat)
    (hs : s < g.Nodes.length) (ht : t < g.Nodes.length) :
    (∃ g1, g.distance s = .ok g1 ∧ IsMinSteps g.Edges s t (g1.cell s t).Steps) ∧
    (∃ g2, g.AllDistances = .ok g2 ∧ IsMinSteps g.Edges s t (g2.cell s t).Steps) ∧
    (∀ src dst, g.getIdx src = some s → g.getIdx dst = some t →
      ∃ g3 v, g.Steps src dst = .ok (g3, v, none) ∧ IsMinSteps g.Edges s t v) := by
  have _ := ht
  have hinv := builds_fresh gr fuel graph nodes g h
  obtain ⟨g1, h1, h2, h3, _, h5⟩ :=
    distance_spec g 0 s hinv.wf hs (fun t => cell_zero_of_zeroMatrix hinv.zero s t)
  have hmin : IsMinSteps g.Edges s t (g1.cell s t).Steps := by
    have := (h5 t).1
    rw [h2.2.2.1] at this
    exact this
  refine ⟨⟨g1, h1, hmin⟩, ?_, ?_⟩
  · obtain ⟨g2, k1, k2, _, k4⟩ := allDistances_fresh g 0 hinv
    refine ⟨g2, k1, ?_⟩
    have := (k4 s hs t).1
    rw [k2.2.2.1] at this
    exact this
  · intro src dst hsrc hdst
    exact ⟨g1, (g1.cell s t).Steps, steps_of_distance g g1 src dst s t hsrc hdst h1 h3 h2.1, hmin⟩

/-- Witness for C1 on the cycle scenario with `s = C`, `t = B`; it also records
the two values of the scenarios: `Steps(C, B)` is `3` on the cycle graph and
`0` on the DAG. -/
theorem C1_steps_minimal_witness :
    tableCaps.Builds 10 cycleSrc [] cycleGraph ∧
    ((∃ g1, cycleGraph.distance 2 = .ok g1 ∧
        IsMinSteps cycleGraph.Edges 2 1 (g1.cell 2 1).Steps) ∧
     (∃ g2, cycleGraph.AllDistances = .ok g2 ∧
        IsMinSteps cycleGraph.Edges 2 1 (g2.cell 2 1).Steps) ∧
     (∀ src dst, cycleGraph.getIdx src = some 2 → cycleGraph.getIdx dst = some 1 →
        ∃ g3 v, cycleGraph.Steps src dst = .ok (g3, v, none) ∧
          IsMinSteps cycleGraph.Edges 2 1 v)) ∧
    (cycleGraph.Steps Label.C Label.B).bind (fun r => Res.ok r.2) = Res.ok (3, none) ∧
    tableCaps.Builds 10 dagSrc [] dagGraph ∧
    (dagGraph.Steps Label.C Label.B).bind (fun r => Res.ok r.2) = Res.ok (0, none) :=
  ⟨Or.inl ⟨none, by decide⟩,
   C1_steps_minimal tableCaps 10 cycleSrc [] cycleGraph (Or.inl ⟨none, by decide⟩) 2 1
     (by decide) (by decide),
   by decide, Or.inl ⟨none, by decide⟩, by decide⟩

/-- C2, as stated, fails: the chain A→B→C is built with the uniform positive
cost `2^62`, node C is reachable from A by a walk of two edges, and after one
call of `AllDistances` the cell `(A, C)` holds `Steps = 2` and
`Dist = -2^63`, the wrapped sum `2^62 + 2^62`, which is not `2^62 * 2`. -/
theorem C2_counterexample :
    tableCaps.New 3 hugeSrc [] = .ok (some hugeGraph, none) ∧
    (0 : Int) < 4611686018427387904 ∧
    (∀ e ∈ hugeGraph.Edges, e.2.2 = 4611686018427387904) ∧
    Walk hugeGraph.Edges 2 0 2 ∧
    hugeGraph.AllDistances.bind (fun g => .ok (g.cell 0 2)) =
      .ok { Steps := 2, Dist := -9223372036854775808 } ∧
    (-9223372036854775808 : Int) ≠ 4611686018427387904 * 2 :=
  ⟨by decide, by decide, by decide,
   Walk.snoc (b := 1) (c := 4611686018427387904)
     (Walk.one (c := 4611686018427387904) (by decide)) (by decide),
   by decide, by decide⟩

/-- C2, amended: on a graph returned by a build all of whose edges cost the same
positive `c`, with `c * (N + 1) < 2^63` for the number `N` of nodes (no
candidate distance overflows a Go `int`), one call of `AllDistances` returns,
and afterwards every pair `(i, j)` joined by a non-empty directed walk has a
positive hop count and `Dist = c * Steps`, while every other pair keeps
`Dist = 0` and `Steps = 0`. -/
theorem C2_uniform_cost (gr : Graphiti G N ID) (fuel : Nat) (graph : G) (nodes : List N)
    (g : Graph ID) (h : gr.Builds fuel graph nodes g) (c : Int) (hc : 0 < c)
    (hsafe : c * ((g.Nodes.length : Int) + 1) < 9223372036854775808)
    (hU : ∀ e ∈ g.Edges, e.2.2 = c) :
    ∃ g2, g.AllDistances = .ok g2 ∧ ∀ i j, i < g.Nodes.length → j < g.Nodes.length →
      ((∃ n, Walk g.Edges n i j) →
        0 < (g2.cell i j).Steps ∧ (g2.cell i j).Dist = c * (g2.cell i j).Steps) ∧
      ((¬ ∃ n, Walk g.Edges n i j) → (g2.cell i j).Dist = 0 ∧ (g2.cell i j).Steps = 0) := by
  have hinv := builds_fresh gr fuel graph nodes g h
  obtain ⟨g2, k1, k2, _, k4⟩ := allDistances_fresh g c hinv
  refine ⟨g2, k1, ?_⟩
  intro i j hi _
  obtain ⟨m1, m2, m3⟩ := k4 i hi j
  rw [k2.2.2.1] at m1 m3
  rw [k2.1] at m3
  constructor
  · rintro ⟨n, hw⟩
    refine ⟨?_, m3 ⟨hc, hsafe, hU⟩⟩
    rcases m1 with ⟨_, hno⟩ | ⟨hpos, _⟩
    · exact absurd hw (hno n)
    · exact hpos
  · intro hno
    rcases m1 with ⟨h0, _⟩ | ⟨_, hw, _⟩
    · have := m2 h0
      rw [this]
      exact ⟨rfl, rfl⟩
    · exact absurd ⟨_, hw⟩ hno

/-- Witness for C2: the cycle scenario, whose edges all cost `1`. -/
theorem C2_uniform_cost_witness :
    tableCaps.Builds 10 cycleSrc [] cycleGraph ∧ (0 : Int) < 1 ∧
    (1 : Int) * ((cycleGraph.Nodes.length : Int) + 1) < 9223372036854775808 ∧
    (∀ e ∈ cycleGraph.Edges, e.2.2 = 1) ∧
    ∃ g2, cycleGraph.AllDistances = .ok g2 ∧
      ∀ i j, i < cycleGraph.Nodes.length → j < cycleGraph.Nodes.length →
        ((∃ n, Walk cycleGraph.Edges n i j) →
          0 < (g2.cell i j).Steps ∧ (g2.cell i j).Dist = 1 * (g2.cell i j).Steps) ∧
        ((¬ ∃ n, Walk cycleGraph.Edges n i j) →
          (g2.cell i j).Dist = 0 ∧ (g2.cell i j).Steps = 0) :=
  ⟨Or.inl ⟨none, by decide⟩, by decide, by decide, by decide,
   C2_uniform_cost tableCaps 10 cycleSrc [] cycleGraph (Or.inl ⟨none, by decide⟩) 1
     (by decide) (by decide) (by decide)⟩

/-- C3: on a graph returned by a build, `AllDistances` followed by `HasCycles`
returns `true` exactly when some node index has a non-empty directed walk over
`Edges` back to itself (a self-loop is such a walk, whatever its cost). -/
theorem C3_hasCycles_iff (gr : Graphiti G N ID) (fuel : Nat) (graph : G) (nodes : List N)
    (g : Graph ID) (h : gr.Builds fuel graph nodes g) :
    ∃ g2, g.AllDistances = .ok g2 ∧ ∃ b, g2.HasCycles = .ok b ∧
      (b = true ↔ ∃ i n, i < g.Nodes.length ∧ Walk g.Edges n i i) := by
  have hinv := builds_fresh gr fuel graph nodes g h
  obtain ⟨g2, k1, k2, k3, k4⟩ := allDistances_fresh g 0 hinv
  have hcols : ∀ row ∈ g2.M, row.length = g2.M.length := by
    intro row hrow
    rw [k3.cols row hrow, k3.rows]
  obtain ⟨b, hb1, hb2⟩ := hasCyclesFrom_spec g2.M hcols g2.M.length 0 (by simp)
  refine ⟨g2, k1, b, hb1, ?_⟩
  rw [hb2]
  have hlen : g2.M.length = g.Nodes.length := by rw [k3.rows, k2.1]
  constructor
  · rintro ⟨i, _, hi, hne⟩
    rw [hlen] at hi
    obtain ⟨m1, m2, _⟩ := k4 i hi i
    rw [k2.2.2.1] at m1
    rcases m1 with ⟨h0, _⟩ | ⟨_, hw, _⟩
    · exact absurd (m2 h0) hne
    · exact ⟨i, _, hi, hw⟩
  · rintro ⟨i, n, hi, hw⟩
    refine ⟨i, Nat.zero_le _, by rw [hlen]; exact hi, ?_⟩
    obtain ⟨m1, _, _⟩ := k4 i hi i
    rw [k2.2.2.1] at m1
    rcases m1 with ⟨_, hno⟩ | ⟨hpos, _, _⟩
    · exact absurd hw (hno n)
    · intro hz
      have hz1 : g2.cell i i = R.zero := hz
      rw [hz1] at hpos
      exact absurd hpos (by decide)

/-- Witness for C3: the cycle scenario, together with the values on the three
scenarios: `true` on the cycle graph, `false` on the DAG, and `true` on a
single node with a self-loop of cost `0`. -/
theorem C3_hasCycles_iff_witness :
    tableCaps.Builds 10 cycleSrc [] cycleGraph ∧
    (∃ g2, cycleGraph.AllDistances = .ok g2 ∧ ∃ b, g2.HasCycles = .ok b ∧
      (b = true ↔ ∃ i n, i < cycleGraph.Nodes.length ∧ Walk cycleGraph.Edges n i i)) ∧
    cycleGraph.AllDistances.bind Graph.HasCycles = Res.ok true ∧
    tableCaps.Builds 10 dagSrc [] dagGraph ∧
    dagGraph.AllDistances.bind Graph.HasCycles = Res.ok false ∧
    tableCaps.Builds 10 selfLoopSrc [] selfLoopGraph ∧
    selfLoopGraph.AllDistances.bind Graph.HasCycles = Res.ok true :=
  ⟨Or.inl ⟨none, by decide⟩,
   C3_hasCycles_iff tableCaps 10 cycleSrc [] cycleGraph (Or.inl ⟨none, by decide⟩),
   by decide, Or.inl ⟨none, by decide⟩, by decide, Or.inl ⟨none, by decide⟩, by decide⟩

end EngineClaims

end GoGraphiti

/-! ## Properties of the builder, of `Steps` and of `Groups` -/

namespace GoGraphiti

section BuilderClaims

variable {G N ID : Type} [DecidableEq ID]

/-- C4 (failing input): the strict build of a source with the single node `A`
and no edge returns a graph in which `A` keeps group id `0`, and `Groups` on
that graph panics with an index out of range (`gs[gr-1]` with `gr = 0`)
instead of returning a partition. -/
theorem C4_groups_panics_on_isolated_node :
    tableCaps.New 10 loneSrc [] = Res.ok (some loneGraph, none) ∧
    loneGraph.GroupOf = [0] ∧ loneGraph.Groups = Res.outOfRange := by
  decide

/-- C5 (failing input): on the chain A→B→C with unit costs, the first
`AllDistances` writes `Dist = 2` into cell `(A, C)` and the second call lowers
it to `1`, so the second call changes the matrix. -/
theorem C5_second_allDistances_changes_matrix :
    tableCaps.New 10 chainSrc [] = Res.ok (some chainGraph, none) ∧
    chainGraph.AllDistances.bind (fun g1 => Res.ok (g1.cell 0 2)) =
      Res.ok { Steps := 2, Dist := 2 } ∧
    (chainGraph.AllDistances.bind Graph.AllDistances).bind (fun g2 => Res.ok (g2.cell 0 2)) =
      Res.ok { Steps := 2, Dist := 1 } ∧
    chainGraph.AllDistances.bind Graph.AllDistances ≠ chainGraph.AllDistances := by
  decide

theorem validate_graph_no_errors (gr : Graphiti G N ID) (fuel : Nat) (graph : G)
    (nodes : List N) (g : Graph ID) (errs : List (Err ID))
    (h : gr.Validate fuel graph nodes = .ok (some g, errs)) : errs = [] :=
  (newGraph_inv gr fuel graph nodes true False (fun hf => hf.elim) (fun hf => hf.elim)
    g errs h).2

/-- C6 (failing input): on a source whose only fault is the dangling edge C→E
the lenient build returns the graph without that edge and an empty error list:
the `BrokenEdge` error it collected is dropped by the final `return g, nil`. -/
theorem C6_validate_drops_collected_errors :
    tableCaps.Validate 10 danglingSrc [] = Res.ok (some danglingGraph, []) := by
  decide

/-- C8: `Steps` fails exactly when an endpoint id is absent: with `src` absent
it returns `0`, the error `NotFound{src}` and the unchanged graph; with `src`
present and `dst` absent it returns `0`, `NotFound{dst}` and the unchanged
graph; whenever it returns an error an endpoint is absent; and on a
well-formed graph with both ids present it returns a value and no error.  On
a graph without nodes every call fails. -/
theorem C8_steps_not_found (g : Graph ID) (src dst : ID) :
    (src ∉ g.Nodes → g.Steps src dst = .ok (g, 0, some (.notFound src))) ∧
    (src ∈ g.Nodes → dst ∉ g.Nodes → g.Steps src dst = .ok (g, 0, some (.notFound dst))) ∧
    (∀ g1 v e, g.Steps src dst = .ok (g1, v, some e) → src ∉ g.Nodes ∨ dst ∉ g.Nodes) ∧
    (g.WF → src ∈ g.Nodes → dst ∈ g.Nodes → ∃ g1 v, g.Steps src dst = .ok (g1, v, none)) ∧
    (g.Nodes = [] → g.Steps src dst = .ok (g, 0, some (.notFound src))) := by
  have hsrc : src ∉ g.Nodes → g.Steps src dst = .ok (g, 0, some (.notFound src)) := by
    intro h
    unfold Graph.Steps
    rw [(getIdx_none g src).mpr h]
  refine ⟨hsrc, ?_, ?_, ?_, ?_⟩
  · intro h1 h2
    unfold Graph.Steps
    cases hx : g.getIdx src with
    | none => exact absurd h1 ((getIdx_none g src).mp hx)
    | some x =>
      simp only
      rw [(getIdx_none g dst).mpr h2]
  · intro g1 v e h
    by_contra hcon
    have h1 : src ∈ g.Nodes := by
      by_contra hn
      exact hcon (Or.inl hn)
    have h2 : dst ∈ g.Nodes := by
      by_contra hn
      exact hcon (Or.inr hn)
    unfold Graph.Steps at h
    cases hx : g.getIdx src with
    | none => exact absurd h1 ((getIdx_none g src).mp hx)
    | some x =>
      cases hy : g.getIdx dst with
      | none => exact absurd h2 ((getIdx_none g dst).mp hy)
      | some y =>
        simp only [hx, hy] at h
        cases hd : g.distance x with
        | outOfRange => simp [hd] at h
        | outOfFuel => simp [hd] at h
        | ok g2 =>
          simp only [hd] at h
          cases hrow : g2.M[x]? with
          | none => simp [hrow] at h
          | some row =>
            simp only [hrow] at h
            cases hr : row[y]? with
            | none => simp [hr] at h
            | some r => simp [hr] at h
  · intro hwf h1 h2
    cases hx : g.getIdx src with
    | none => exact absurd h1 ((getIdx_none g src).mp hx)
    | some x =>
      cases hy : g.getIdx dst with
      | none => exact absurd h2 ((getIdx_none g dst).mp hy)
      | some y =>
        obtain ⟨g1, k1, k2, k3, _⟩ := distance_total g x hwf (getIdx_lt g src x hx)
        exact ⟨g1, _, steps_of_distance g g1 src dst x y hx hy k1 k3 k2.1⟩
  · intro h
    apply hsrc
    rw [h]
    simp

/-- Witness for C8 on the cycle graph (`E` is absent, `A` and `B` are present)
and on the empty graph. -/
theorem C8_steps_not_found_witness :
    cycleGraph.Steps Label.E Label.B = Res.ok (cycleGraph, 0, some (Err.notFound Label.E)) ∧
    cycleGraph.Steps Label.A Label.E = Res.ok (cycleGraph, 0, some (Err.notFound Label.E)) ∧
    (cycleGraph.Steps Label.A Label.B).bind (fun r => Res.ok r.2) = Res.ok (1, none) ∧
    (Graph.empty : Graph Label).Steps Label.C Label.B =
      Res.ok (Graph.empty, 0, some (Err.notFound Label.C)) :=
  ⟨(C8_steps_not_found cycleGraph Label.E Label.B).1 (by decide),
   (C8_steps_not_found cycleGraph Label.A Label.E).2.1 (by decide) (by decide),
   by decide,
   (C8_steps_not_found (Graph.empty : Graph Label) Label.C Label.B).2.2.2.2 rfl⟩

/-- C9: in every graph returned by `New` or `Validate`, with `N = len(Nodes)`:
`GroupOf` has `N` entries, the matrix has `N` rows of `N` zero cells each, and
every edge joins indices below `N` and has a non-negative cost. -/
theorem C9_built_graph_shape (gr : Graphiti G N ID) (fuel : Nat) (graph : G)
    (nodes : List N) (g : Graph ID) (h : gr.Builds fuel graph nodes g) :
    g.GroupOf.length = g.Nodes.length ∧ g.M.length = g.Nodes.length ∧
    (∀ row ∈ g.M, row.length = g.Nodes.length ∧ ∀ r ∈ row, r = R.zero) ∧
    (∀ e ∈ g.Edges, e.1 < g.Nodes.length ∧ e.2.1 < g.Nodes.length ∧ 0 ≤ e.2.2) := by
  have hinv := builds_fresh gr fuel graph nodes g h
  exact ⟨hinv.wf.groups, hinv.wf.rows,
    fun row hrow => ⟨hinv.wf.cols row hrow, hinv.zero row hrow⟩,
    fun e he => ⟨(hinv.wf.edges e he).1, (hinv.wf.edges e he).2, hinv.cost e he⟩⟩

/-- Witness for C9: the cycle scenario built from the single seed `A`, so that
`B`, `C` and `D` are discovered and appended during the build (strict and
lenient). -/
theorem C9_built_graph_shape_witness :
    tableCaps.Builds 10 cycleSrc [Label.A] cycleGraph ∧
    tableCaps.Validate 10 cycleSrc [Label.A] = Res.ok (some cycleGraph, []) ∧
    (cycleGraph.GroupOf.length = cycleGraph.Nodes.length ∧
     cycleGraph.M.length = cycleGraph.Nodes.length ∧
     (∀ row ∈ cycleGraph.M, row.length = cycleGraph.Nodes.length ∧ ∀ r ∈ row, r = R.zero) ∧
     (∀ e ∈ cycleGraph.Edges,
        e.1 < cycleGraph.Nodes.length ∧ e.2.1 < cycleGraph.Nodes.length ∧ 0 ≤ e.2.2)) :=
  ⟨Or.inl ⟨none, by decide⟩, by decide,
   C9_built_graph_shape tableCaps 10 cycleSrc [Label.A] cycleGraph (Or.inl ⟨none, by decide⟩)⟩

/-- C10 (counterexample): with the seed list `[A, A]` the strict build returns
a graph whose `Nodes` holds `A` twice, whose `IndexOf` has 4 keys for 5 nodes
and maps `Nodes[0]` to `1`; and with a lookup that returns for `B` a node
named `D` the build returns `Nodes = [C, D, D]` with 2 keys for 3 nodes. -/
theorem C10_counterexample :
    tableCaps.New 10 cycleSrc [Label.A, Label.A] = Res.ok (some dupSeedGraph, none) ∧
    ¬ dupSeedGraph.Nodes.Nodup ∧
    dupSeedGraph.IndexOf.length ≠ dupSeedGraph.Nodes.length ∧
    dupSeedGraph.Nodes[0]? = some Label.A ∧ mapGet dupSeedGraph.IndexOf Label.A = some 1 ∧
    aliasCaps.New 10 aliasSrc [] = Res.ok (some aliasGraph, none) ∧
    ¬ aliasGraph.Nodes.Nodup ∧
    aliasGraph.IndexOf.length ≠ aliasGraph.Nodes.length ∧
    aliasGraph.Nodes[1]? = some Label.D ∧ mapGet aliasGraph.IndexOf Label.D = some 2 := by
  decide

/-- C10 (amended): when every successful lookup returns a node named by the id
that was looked up and the initial ids (seed names, or the enumeration when no
seeds are given) are pairwise distinct, then in every graph returned by a
build `Nodes` holds no id twice, the keys of `IndexOf` are exactly the ids of
`Nodes` (so there are `N` of them), and `IndexOf[id] = i` if and only if
`Nodes[i] = id`. -/
theorem C10_index_bijection (gr : Graphiti G N ID) (fuel : Nat) (graph : G)
    (nodes : List N) (g : Graph ID)
    (hname : ∀ id n, gr.GetNode graph id = some n → gr.GetName n = id)
    (hseeds : (gr.initGraph graph nodes).Nodes.Nodup)
    (h : gr.Builds fuel graph nodes g) :
    g.Nodes.Nodup ∧ g.IndexOf.map Prod.fst = g.Nodes ∧
    g.IndexOf.length = g.Nodes.length ∧
    (∀ i id, g.Nodes[i]? = some id ↔ mapGet g.IndexOf id = some i) := by
  have hinv := builds_inv gr fuel graph nodes True (fun _ => hname) (fun _ => hseeds) g h
  have hi := hinv.index trivial
  refine ⟨hi.nodup, hi.keys, ?_, ?_⟩
  · have := congrArg List.length hi.keys
    simpa using this
  · intro i id
    constructor
    · exact hi.get i id
    · intro hget
      have hmem : id ∈ g.Nodes := by
        rw [← hi.keys]
        exact List.mem_map.mpr ⟨(id, i), mapGet_mem hget, rfl⟩
      obtain ⟨j, hj⟩ := List.mem_iff_getElem?.mp hmem
      have := hi.get j id hj
      rw [hget] at this
      have hij : i = j := by simpa using this
      rw [hij]
      exact hj

theorem tableCaps_name (s : Table) (id n : Label) (h : tableCaps.GetNode s id = some n) :
    tableCaps.GetName n = id := by
  unfold tableCaps at h ⊢
  simp only at h ⊢
  split at h
  · simp only [Option.some.injEq] at h
    exact h.symm
  · simp at h

/-- Witness for C10: the cycle scenario built from the single seed `A`. -/
theorem C10_index_bijection_witness :
    (∀ id n, tableCaps.GetNode cycleSrc id = some n → tableCaps.GetName n = id) ∧
    (tableCaps.initGraph cycleSrc [Label.A]).Nodes.Nodup ∧
    tableCaps.Builds 10 cycleSrc [Label.A] cycleGraph ∧
    (cycleGraph.Nodes.Nodup ∧ cycleGraph.IndexOf.map Prod.fst = cycleGraph.Nodes ∧
     cycleGraph.IndexOf.length = cycleGraph.Nodes.length ∧
     (∀ i id, cycleGraph.Nodes[i]? = some id ↔ mapGet cycleGraph.IndexOf id = some i)) :=
  ⟨tableCaps_name cycleSrc, by decide, Or.inl ⟨none, by decide⟩,
   C10_index_bijection tableCaps 10 cycleSrc [Label.A] cycleGraph (tableCaps_name cycleSrc)
     (by decide) (Or.inl ⟨none, by decide⟩)⟩

end BuilderClaims

end GoGraphiti

/-! ## Length mismatch, the empty source, gaps in group ids, non-uniform costs -/

namespace GoGraphiti

section MoreBuilderClaims

variable {G N ID : Type} [DecidableEq ID]

theorem run_buildLoop (gr : Graphiti G N ID) (graph : G) (persevere : Bool) (g0 : Graph ID)
    {k : Nat} {g : Graph ID} {errs : List (Err ID)}
    (h : gr.Run graph persevere g0 k g errs) :
    ∀ fuel, gr.buildLoop graph persevere (k + fuel) 0 g0 [] =
      gr.buildLoop graph persevere fuel k g errs := by
  induction h with
  | start =>
    intro fuel
    rw [Nat.zero_add]
  | @step k g g1 id errs errs2 _ hid hadd ih =>
    intro fuel
    have e1 : k + 1 + fuel = k + (fuel + 1) := by omega
    rw [e1, ih (fuel + 1)]
    conv_lhs => unfold Graphiti.buildLoop
    simp only [hid, hadd, if_true]

/-- C13: in both modes, when the node loop reaches a resolved node whose
neighbour ids and costs differ in length, `addEdges` leaves the graph as it is
(no edge of that node is added) and the build, run with enough fuel to reach
the node, returns no graph and the errors collected so far followed by the
length-mismatch error as last element. -/
theorem C13_length_mismatch_aborts (gr : Graphiti G N ID) (graph : G) (nodes : List N)
    (persevere : Bool) (k : Nat) (g : Graph ID) (errs : List (Err ID)) (id : ID) (n : N)
    (hrun : gr.Run graph persevere (gr.initGraph graph nodes) k g errs)
    (hid : g.Nodes[k]? = some id) (hnode : gr.GetNode graph id = some n)
    (hlen : (gr.GetNext graph n).1.length ≠ (gr.GetNext graph n).2.length) :
    gr.addEdges graph id g k persevere =
      .ok (false, g, [.lengthsDiffer (gr.GetNext graph n).1.length
        (gr.GetNext graph n).2.length]) ∧
    ∀ fuel, k < fuel →
      gr.newGraph fuel graph nodes persevere =
        .ok (none, errs ++ [.lengthsDiffer (gr.GetNext graph n).1.length
          (gr.GetNext graph n).2.length]) ∧
      (persevere = false → gr.New fuel graph nodes =
        .ok (none, some (errs ++ [.lengthsDiffer (gr.GetNext graph n).1.length
          (gr.GetNext graph n).2.length]))) ∧
      (persevere = true → gr.Validate fuel graph nodes =
        .ok (none, errs ++ [.lengthsDiffer (gr.GetNext graph n).1.length
          (gr.GetNext graph n).2.length])) := by
  have hadd : gr.addEdges graph id g k persevere =
      .ok (false, g, [.lengthsDiffer (gr.GetNext graph n).1.length
        (gr.GetNext graph n).2.length]) := by
    unfold Graphiti.addEdges
    rw [hnode]
    dsimp only
    rw [if_pos hlen]
  refine ⟨hadd, ?_⟩
  intro fuel hfuel
  obtain ⟨f, rfl⟩ : ∃ f, fuel = k + (f + 1) := ⟨fuel - k - 1, by omega⟩
  have hnew : gr.newGraph (k + (f + 1)) graph nodes persevere =
      .ok (none, errs ++ [.lengthsDiffer (gr.GetNext graph n).1.length
        (gr.GetNext graph n).2.length]) := by
    unfold Graphiti.newGraph
    rw [run_buildLoop gr graph persevere _ hrun (f + 1)]
    unfold Graphiti.buildLoop
    simp only [hid, hadd, Bool.false_eq_true, if_false]
  refine ⟨hnew, ?_, ?_⟩
  · intro hp
    subst hp
    unfold Graphiti.New
    rw [hnew]
    cases errs <;> rfl
  · intro hp
    subst hp
    exact hnew

/-- Witness for C13: in the lenient build of `mismatchSrc` the negative edge of
A is collected while A and B are processed, then node C returns two ids and
one cost; the strict build of the cycle scenario with the same node C stops
with the mismatch as its single error. -/
theorem C13_length_mismatch_aborts_witness :
    mismatchCaps.Run mismatchSrc true (mismatchCaps.initGraph mismatchSrc []) 2
      mismatchAfterB [Err.negativeCost Label.A Label.B (-1)] ∧
    (mismatchCaps.addEdges mismatchSrc Label.C mismatchAfterB 2 true =
        Res.ok (false, mismatchAfterB, [Err.lengthsDiffer 2 1]) ∧
      ∀ fuel, 2 < fuel →
        mismatchCaps.newGraph fuel mismatchSrc [] true =
          Res.ok (none, [Err.negativeCost Label.A Label.B (-1)] ++ [Err.lengthsDiffer 2 1]) ∧
        (true = false → mismatchCaps.New fuel mismatchSrc [] =
          Res.ok (none, some ([Err.negativeCost Label.A Label.B (-1)] ++
            [Err.lengthsDiffer 2 1]))) ∧
        (true = true → mismatchCaps.Validate fuel mismatchSrc [] =
          Res.ok (none, [Err.negativeCost Label.A Label.B (-1)] ++ [Err.lengthsDiffer 2 1]))) ∧
    mismatchCaps.Validate 10 mismatchSrc [] =
      Res.ok (none, [Err.negativeCost Label.A Label.B (-1), Err.lengthsDiffer 2 1]) ∧
    mismatchCaps.New 10 cycleSrc [] = Res.ok (none, some [Err.lengthsDiffer 2 1]) :=
  have hA : mismatchCaps.addEdges mismatchSrc Label.A (mismatchCaps.initGraph mismatchSrc []) 0
      true = Res.ok (true, mismatchAfterA, [Err.negativeCost Label.A Label.B (-1)]) := by
    decide
  have hB : mismatchCaps.addEdges mismatchSrc Label.B mismatchAfterA 1 true =
      Res.ok (true, mismatchAfterB, []) := by
    decide
  have hrun : mismatchCaps.Run mismatchSrc true (mismatchCaps.initGraph mismatchSrc []) 2
      mismatchAfterB [Err.negativeCost Label.A Label.B (-1)] :=
    Graphiti.Run.step (Graphiti.Run.step Graphiti.Run.start (by decide) hA) (by decide) hB
  ⟨hrun,
   C13_length_mismatch_aborts mismatchCaps mismatchSrc [] true 2 mismatchAfterB
     [Err.negativeCost Label.A Label.B (-1)] Label.C Label.C hrun (by decide) (by decide)
     (by decide),
   by decide, by decide⟩

/-- C14: when no seeds are given and the enumeration of the source is empty,
`New` and `Validate` return the empty graph and no error, for every fuel and
whatever the lookup and neighbours operations are; on the empty graph
`AllDistances` changes nothing, `HasCycles` is `false` and `Groups` is empty. -/
theorem C14_empty_source (gr : Graphiti G N ID) (graph : G) (fuel : Nat)
    (h : gr.GetNodes graph = []) :
    gr.New fuel graph [] = .ok (some Graph.empty, none) ∧
    gr.Validate fuel graph [] = .ok (some Graph.empty, []) ∧
    (Graph.empty : Graph ID).AllDistances = .ok Graph.empty ∧
    (Graph.empty : Graph ID).HasCycles = .ok false ∧
    (Graph.empty : Graph ID).Groups = .ok [] := by
  have hnew : ∀ persevere, gr.newGraph fuel graph [] persevere = .ok (some Graph.empty, []) := by
    intro persevere
    unfold Graphiti.newGraph
    have hn : (gr.initGraph graph []).Nodes = [] := by
      simp [Graphiti.initGraph, h]
    cases fuel with
    | zero =>
      unfold Graphiti.buildLoop
      simp [hn, buildFinish]
    | succ f =>
      unfold Graphiti.buildLoop
      simp [hn, buildFinish]
  refine ⟨?_, hnew true, rfl, rfl, rfl⟩
  unfold Graphiti.New
  rw [hnew false]
  rfl

/-- Witness for C14: the table source without ids. -/
theorem C14_empty_source_witness :
    tableCaps.GetNodes emptySrc = [] ∧
    (tableCaps.New 3 emptySrc [] = Res.ok (some Graph.empty, none) ∧
     tableCaps.Validate 3 emptySrc [] = Res.ok (some Graph.empty, []) ∧
     (Graph.empty : Graph Label).AllDistances = Res.ok Graph.empty ∧
     (Graph.empty : Graph Label).HasCycles = Res.ok false ∧
     (Graph.empty : Graph Label).Groups = Res.ok []) :=
  ⟨rfl, C14_empty_source tableCaps emptySrc 3 rfl⟩

/-- C16 (failing input): on a built graph whose group ids are `1` and `3` (id
`2` merged away, every node grouped) `Groups` returns three lists, the second
of them empty, for two distinct group ids. -/
theorem C16_groups_pads_merged_ids :
    tableCaps.New 10 gapSrc [] = Res.ok (some gapGraph, none) ∧
    gapGraph.GroupOf = [1, 1, 3, 1, 1] ∧
    gapGraph.Groups =
      Res.ok [[Label.A, Label.C, Label.B, Label.D], [], [Label.E]] := by
  decide

/-- C20: for A→B(1), A→C(10), B→D(1) the first layer from A carries the base
`10` (the candidate of its last improving edge, not the minimum `1`) into the
second layer, so `AllDistances` on the fresh build writes `Dist = 11`,
`Steps = 2` into cell `(A, D)`, although the walk A→B→D costs `2`. -/
theorem C20_base_is_last_improving_candidate :
    tableCaps.New 10 weightedSrc [] = Res.ok (some weightedGraph, none) ∧
    (layer 0 0 1 [(1, 1), (2, 10)]
        { g := weightedGraph, done := List.replicate 4 false, nextQ := [], nextDist := 0 }).bind
      (fun st => Res.ok (st.nextQ, st.nextDist)) = Res.ok ([(3, 1)], 10) ∧
    weightedGraph.AllDistances.bind (fun g => Res.ok (g.cell 0 3)) =
      Res.ok { Steps := 2, Dist := 11 } ∧
    CostWalk weightedGraph.Edges 0 3 2 :=
  ⟨by decide, by decide, by decide,
   CostWalk.snoc (CostWalk.one (by decide : ((0 : Nat), (1 : Nat), (1 : Int)) ∈ weightedGraph.Edges))
     (by decide : ((1 : Nat), (3 : Nat), (1 : Int)) ∈ weightedGraph.Edges)⟩

end MoreBuilderClaims

end GoGraphiti

/-! ## The diagnostic rendering -/

namespace GoGraphiti

section RenderingClaims

variable {ID : Type}

theorem writeCell_eq (b : String) (r : R) : writeCell b r = b ++ (fieldText r ++ "\t") := by
  unfold writeCell fieldText addInt unset
  by_cases h : r.Dist = 0 ∧ r.Steps = 0
  · rw [if_pos h, if_pos h]
    rfl
  · rw [if_neg h, if_neg h]
    simp only [String.append_assoc]

theorem writeRow_eq : ∀ (row : List R) (b : String),
    writeRow row b = b ++ concatAll (row.map (fun r => fieldText r ++ "\t")) := by
  intro row
  induction row with
  | nil =>
    intro b
    simp [writeRow, concatAll]
  | cons r rest ih =>
    intro b
    simp only [writeRow, List.map_cons, concatAll]
    rw [ih, writeCell_eq, String.append_assoc]

theorem writeRows_eq (fmtID : ID → String) (g : Graph ID) :
    ∀ (rows : List (List R)) (x : Nat) (b : String),
      x + rows.length ≤ g.Nodes.length → x + rows.length ≤ g.GroupOf.length →
      writeRows fmtID g rows x b = .ok (b ++ concatAll (linesFrom fmtID g rows x)) ∧
      (linesFrom fmtID g rows x).length = rows.length ∧
      ∀ i row id gr, rows[i]? = some row → g.Nodes[x + i]? = some id →
        g.GroupOf[x + i]? = some gr →
        (linesFrom fmtID g rows x)[i]? = some (lineText fmtID row id gr) := by
  intro rows
  induction rows with
  | nil =>
    intro x b _ _
    refine ⟨by simp [writeRows, linesFrom, concatAll], rfl, ?_⟩
    intro i row id gr h
    simp at h
  | cons row rest ih =>
    intro x b hn hg
    simp only [List.length_cons] at hn hg
    have hxn : x < g.Nodes.length := by omega
    have hxg : x < g.GroupOf.length := by omega
    have hid : g.Nodes[x]? = some g.Nodes[x] := List.getElem?_eq_getElem hxn
    have hgr : g.GroupOf[x]? = some g.GroupOf[x] := List.getElem?_eq_getElem hxg
    obtain ⟨k1, k2, k3⟩ := ih (x + 1)
      (writeRow row b ++ fmtID g.Nodes[x] ++ " (" ++ toString g.GroupOf[x] ++ ")\n")
      (by omega) (by omega)
    refine ⟨?_, ?_, ?_⟩
    · simp only [writeRows, linesFrom, hid, hgr, concatAll]
      rw [k1, writeRow_eq]
      unfold lineText
      simp only [String.append_assoc]
      rfl
    · simp only [linesFrom, hid, hgr, List.length_cons, k2]
    · intro i row1 id gr h1 h2 h3
      simp only [linesFrom, hid, hgr]
      cases i with
      | zero =>
        simp only [Nat.add_zero] at h2 h3
        rw [hid] at h2
        rw [hgr] at h3
        simp only [List.getElem?_cons_zero, Option.some.injEq] at h1 h2 h3 ⊢
        rw [h1, h2, h3]
      | succ i =>
        simp only [List.getElem?_cons_succ] at h1 ⊢
        have e : x + (i + 1) = x + 1 + i := by omega
        rw [e] at h2 h3
        exact k3 i row1 id gr h1 h2 h3

/-- C17: on a graph whose matrix has as many rows as `Nodes` and `GroupOf`,
`String` returns the concatenation, over the rows `x` in index order, of the
line of row `x`: one field per column followed by a tab, then the node id, the
group id in parentheses and a newline; a field is a dash when `Dist` and
`Steps` are both `0` and otherwise `d/s` with a dash for a zero `d` or `s`. -/
theorem C17_string_rendering (fmtID : ID → String) (g : Graph ID)
    (h1 : g.M.length = g.Nodes.length) (h2 : g.M.length = g.GroupOf.length) :
    g.String fmtID = .ok (concatAll (linesFrom fmtID g g.M 0)) ∧
    (linesFrom fmtID g g.M 0).length = g.M.length ∧
    ∀ (x : Nat) row id gr, g.M[x]? = some row → g.Nodes[x]? = some id → g.GroupOf[x]? = some gr →
      (linesFrom fmtID g g.M 0)[x]? = some (lineText fmtID row id gr) := by
  obtain ⟨k1, k2, k3⟩ := writeRows_eq fmtID g g.M 0 "" (by omega) (by omega)
  refine ⟨?_, k2, ?_⟩
  · unfold Graph.String
    rw [k1, String.empty_append]
  · intro x row id gr m1 m2 m3
    exact k3 x row id gr m1 (by rw [Nat.zero_add]; exact m2) (by rw [Nat.zero_add]; exact m3)

/-- Witness for C17: the DAG scenario after `AllDistances`; row A is rendered
as the fields `-`, `1/1`, `1/1`, `2/2` and `A (1)`, and the whole text is that
of the example of the package. -/
theorem C17_string_rendering_witness :
    dagGraph.AllDistances = Res.ok dagDone ∧
    dagDone.M.length = dagDone.Nodes.length ∧ dagDone.M.length = dagDone.GroupOf.length ∧
    (dagDone.String Label.text = Res.ok (concatAll (linesFrom Label.text dagDone dagDone.M 0)) ∧
     (linesFrom Label.text dagDone dagDone.M 0).length = dagDone.M.length ∧
     ∀ (x : Nat) row id gr, dagDone.M[x]? = some row → dagDone.Nodes[x]? = some id →
       dagDone.GroupOf[x]? = some gr →
       (linesFrom Label.text dagDone dagDone.M 0)[x]? = some (lineText Label.text row id gr)) ∧
    (linesFrom Label.text dagDone dagDone.M 0)[0]? = some "-\t1/1\t1/1\t2/2\tA (1)\n" ∧
    dagDone.String Label.text = Res.ok
      "-\t1/1\t1/1\t2/2\tA (1)\n-\t-\t1/1\t2/2\tB (1)\n-\t-\t-\t1/1\tC (1)\n-\t-\t-\t-\tD (1)\n" :=
  ⟨by decide, by decide, by decide,
   C17_string_rendering Label.text dagDone (by decide) (by decide), by decide, by decide⟩

/-- C18 (counterexample): in the cycle scenario, built strictly and followed by
`AllDistances`, the cell `(A, A)` is `(Steps 3, Dist 3)` and not unset, and
the line of row A is not the one with the fields `-`, `1/1`, `1/1`, `2/2`. -/
theorem C18_counterexample :
    tableCaps.New 10 cycleSrc [] = Res.ok (some cycleGraph, none) ∧
    cycleGraph.AllDistances = Res.ok cycleDone ∧
    cycleDone.cell 0 0 = { Steps := 3, Dist := 3 } ∧ cycleDone.cell 0 0 ≠ R.zero ∧
    (linesFrom Label.text cycleDone cycleDone.M 0)[0]? ≠ some "-\t1/1\t1/1\t2/2\tA (1)\n" := by
  decide

/-- C18 (amended): in the cycle scenario, built strictly and followed by
`AllDistances`, the line of row A has the fields `3/3`, `1/1`, `1/1`, `2/2`
followed by `A (1)`: the cell `(A, A)` holds the cycle A→C→D→A of 3 edges,
`(A, B)` and `(A, C)` are `1/1`, `(A, D)` is `2/2`, and A is in group 1. -/
theorem C18_cycle_row_A :
    tableCaps.New 10 cycleSrc [] = Res.ok (some cycleGraph, none) ∧
    cycleGraph.AllDistances = Res.ok cycleDone ∧
    (linesFrom Label.text cycleDone cycleDone.M 0)[0]? = some "3/3\t1/1\t1/1\t2/2\tA (1)\n" ∧
    cycleDone.GroupOf[0]? = some 1 ∧
    cycleDone.String Label.text = Res.ok
      "3/3\t1/1\t1/1\t2/2\tA (1)\n3/3\t4/4\t1/1\t2/2\tB (1)\n2/2\t3/3\t3/3\t1/1\tC (1)\n1/1\t2/2\t2/2\t3/3\tD (1)\n" := by
  decide

end RenderingClaims

end GoGraphiti

/-! ## Re-running the per-source procedure -/

namespace GoGraphiti

section Rerun

variable {ID : Type}

theorem isMinSteps_unique {E : List (Nat × Nat × Int)} {s t : Nat} {v w : Int}
    (hv : IsMinSteps E s t v) (hw : IsMinSteps E s t w) : v = w := by
  rcases hv with ⟨hv0, hvno⟩ | ⟨hvpos, hvw, hvmin⟩
  · rcases hw with ⟨hw0, _⟩ | ⟨_, hww, _⟩
    · rw [hv0, hw0]
    · exact absurd hww (hvno _)
  · rcases hw with ⟨_, hwno⟩ | ⟨hwpos, hww, hwmin⟩
    · exact absurd hvw (hwno _)
    · have h1 := hvmin _ hww
      have h2 := hwmin _ hvw
      have e1 : ((v.toNat : Nat) : Int) = v := Int.toNat_of_nonneg (le_of_lt hvpos)
      have e2 : ((w.toNat : Nat) : Int) = w := Int.toNat_of_nonneg (le_of_lt hwpos)
      omega

theorem layer_stable {E : List (Nat × Nat × Int)} {N src : Nat} (dist : Int) (k : Nat)
    (hval : ∀ e ∈ E, e.1 < N ∧ e.2.1 < N) (hsrc : src < N) :
    ∀ (rem : List (Nat × Int)) (st : LayerState ID), st.g.Edges = E →
      st.g.M.length = N → (∀ row ∈ st.g.M, row.length = N) → st.done.length = N →
      (∀ e ∈ rem, Walk E k src e.1) → (∀ e ∈ st.nextQ, Walk E (k + 1) src e.1) →
      (∀ t, IsMinSteps E src t (cellM st.g.M src t).Steps) →
      ∃ st1, layer src dist (k : Int) rem st = .ok st1 ∧ SameFrame st.g st1.g ∧
        st1.g.M.length = N ∧ (∀ row ∈ st1.g.M, row.length = N) ∧ st1.done.length = N ∧
        (∀ e ∈ st1.nextQ, Walk E (k + 1) src e.1) ∧
        (∀ x, x ≠ src → st1.g.M[x]? = st.g.M[x]?) ∧
        st1.done.count false + st1.nextQ.length = st.done.count false + st.nextQ.length ∧
        ∀ t, (cellM st1.g.M src t).Steps = (cellM st.g.M src t).Steps := by
  intro rem
  induction rem with
  | nil =>
    intro st _ hrows hcols hdone _ hnq _
    exact ⟨st, rfl, SameFrame.refl _, hrows, hcols, hdone, hnq, fun _ _ => rfl, rfl,
      fun _ => rfl⟩
  | cons e rest ih =>
    intro st hE hrows hcols hdone hrem hnq hmin
    have hW : Walk E k src e.1 := hrem e (List.mem_cons_self _ _)
    have hsl : src < st.g.M.length := by rw [hrows]; exact hsrc
    have hrow : st.g.M[src]? = some st.g.M[src] := List.getElem?_eq_getElem hsl
    have hrowlen : (st.g.M[src]).length = N := hcols _ (List.getElem_mem hsl)
    have het : e.1 < (st.g.M[src]).length := by
      rw [hrowlen]
      exact hW.lt hval
    have hr : (st.g.M[src])[e.1]? = some (st.g.M[src])[e.1] := List.getElem?_eq_getElem het
    generalize hrowdef : st.g.M[src] = row at hrow hrowlen het hr
    generalize hrdef : row[e.1] = r at hr
    have hcell : cellM st.g.M src e.1 = r := by
      unfold cellM
      rw [hrow]
      simp [hr]
    have hkeep : (if r.Steps = 0 ∨ r.Steps > (k : Int) then (k : Int) else r.Steps) = r.Steps := by
      have hm := hmin e.1
      rw [hcell] at hm
      rcases hm with ⟨_, hno⟩ | ⟨hpos, _, hle⟩
      · exact absurd hW (hno k)
      · have := hle k hW
        have hng : ¬ (r.Steps = 0 ∨ r.Steps > (k : Int)) := by omega
        rw [if_neg hng]
    have hset := set_eq st.g (intAdd dist e.2) (k : Int) hrow hr
    rw [hkeep] at hset
    generalize hbdef : (decide (r.Dist = unset) || decide (r.Dist > intAdd dist e.2)) = b at hset
    generalize hr1def : R.mk r.Steps (if b = true then intAdd dist e.2 else r.Dist) = r1 at hset
    generalize hg1def : ({ st.g with M := st.g.M.set src (row.set e.1 r1) } : Graph ID) = g1
      at hset
    have hM1 : g1.M = st.g.M.set src (row.set e.1 r1) := by rw [← hg1def]
    have hE1 : g1.Edges = E := by rw [← hg1def]; exact hE
    have hframe : SameFrame st.g g1 := by
      rw [← hg1def]
      exact ⟨rfl, rfl, rfl, rfl⟩
    have hsteps1 : ∀ t, (cellM g1.M src t).Steps = (cellM st.g.M src t).Steps := by
      intro t
      rw [hM1, cellM_set r1 hrow het]
      by_cases ht : t = e.1
      · subst ht
        simp only [and_self, if_true, hcell]
        rw [← hr1def]
      · simp [ht]
    have hes : ∀ e2 ∈ g1.getEdges e.1, e2.1 < N := by
      intro e2 he2
      have : (e.1, e2.1, e2.2) ∈ g1.Edges := (mem_getEdges g1 e.1 e2.1 e2.2).mp he2
      rw [hE1] at this
      exact (hval _ this).2
    obtain ⟨done1, new, hx1, hx2, _, _, _, hx6, hx7⟩ :=
      expand_spec N (g1.getEdges e.1) st.done st.nextQ hdone hes
    have hrows1 : g1.M.length = N := by rw [hM1, List.length_set]; exact hrows
    have hcols1 : ∀ row ∈ g1.M, row.length = N := by
      intro row1 hrow1
      rw [hM1] at hrow1
      rcases List.mem_or_eq_of_mem_set hrow1 with h | h
      · exact hcols _ h
      · rw [h, List.length_set]
        exact hrowlen
    have hnq1 : ∀ e2 ∈ st.nextQ ++ new, Walk E (k + 1) src e2.1 := by
      intro e2 he2
      rcases List.mem_append.mp he2 with h | h
      · exact hnq e2 h
      · have : (e.1, e2.1, e2.2) ∈ g1.Edges := (mem_getEdges g1 e.1 e2.1 e2.2).mp (hx6 e2 h).1
        rw [hE1] at this
        exact Walk.snoc hW this
    have hmin1 : ∀ t, IsMinSteps E src t (cellM g1.M src t).Steps := by
      intro t
      rw [hsteps1 t]
      exact hmin t
    obtain ⟨st1, k1, k2, k3, k4, k5, k6, k7, k8, k9⟩ :=
      ih { g := g1, done := done1, nextQ := st.nextQ ++ new,
           nextDist := if b = true then intAdd dist e.2 else st.nextDist }
        hE1 hrows1 hcols1 hx2 (fun e2 he2 => hrem e2 (List.mem_cons_of_mem _ he2)) hnq1 hmin1
    refine ⟨st1, ?_, hframe.trans k2, k3, k4, k5, k6, ?_, ?_, ?_⟩
    · simp only [layer, hset, hx1]
      exact k1
    · intro x hx
      rw [k7 x hx]
      show g1.M[x]? = st.g.M[x]?
      rw [hM1]
      exact List.getElem?_set_ne (fun h => hx h.symm)
    · rw [k8]
      simp only [List.length_append]
      omega
    · intro t
      rw [k9 t]
      exact hsteps1 t

theorem distanceLoop_stable {E : List (Nat × Nat × Int)} {N src : Nat}
    (hval : ∀ e ∈ E, e.1 < N ∧ e.2.1 < N) (hsrc : src < N) :
    ∀ (fuel k : Nat) (g : Graph ID) (done : List Bool) (q : List (Nat × Int)) (dist : Int),
      g.Edges = E → g.M.length = N → (∀ row ∈ g.M, row.length = N) → done.length = N →
      (∀ e ∈ q, Walk E k src e.1) → (∀ t, IsMinSteps E src t (cellM g.M src t).Steps) →
      (q ≠ [] → done.count false + 1 ≤ fuel) →
      ∃ g1, distanceLoop src fuel g done q dist (k : Int) = .ok g1 ∧ SameFrame g g1 ∧
        g1.M.length = N ∧ (∀ row ∈ g1.M, row.length = N) ∧
        (∀ x, x ≠ src → g1.M[x]? = g.M[x]?) ∧
        ∀ t, (cellM g1.M src t).Steps = (cellM g.M src t).Steps := by
  intro fuel
  induction fuel with
  | zero =>
    intro k g done q dist _ hrows hcols _ _ _ hfuel
    cases q with
    | nil => exact ⟨g, rfl, SameFrame.refl _, hrows, hcols, fun _ _ => rfl, fun _ => rfl⟩
    | cons e q =>
      have := hfuel (by simp)
      omega
  | succ fuel ih =>
    intro k g done q dist hE hrows hcols hdone hq hmin hfuel
    cases q with
    | nil => exact ⟨g, rfl, SameFrame.refl _, hrows, hcols, fun _ _ => rfl, fun _ => rfl⟩
    | cons e q =>
      obtain ⟨st1, h1, h2, h3, h4, h5, h6, h7, h8, h9⟩ :=
        layer_stable dist k hval hsrc (e :: q)
          { g := g, done := done, nextQ := [], nextDist := 0 } hE hrows hcols hdone hq
          (by intro e2 he2; simp at he2) hmin
      have hfuel1 : st1.nextQ ≠ [] → st1.done.count false + 1 ≤ fuel := by
        intro hne
        have := hfuel (by simp)
        have hpos : 0 < st1.nextQ.length := List.length_pos.mpr hne
        simp only [List.length_nil] at h8
        omega
      have hmin1 : ∀ t, IsMinSteps E src t (cellM st1.g.M src t).Steps := by
        intro t
        rw [h9 t]
        exact hmin t
      obtain ⟨g1, k1, k2, k3, k4, k5, k6⟩ :=
        ih (k + 1) st1.g st1.done st1.nextQ st1.nextDist (by rw [h2.2.2.1]; exact hE)
          h3 h4 h5 h6 hmin1 hfuel1
      refine ⟨g1, ?_, h2.trans k2, k3, k4, ?_, ?_⟩
      · simp only [distanceLoop, h1]
        have : ((k + 1 : Nat) : Int) = (k : Int) + 1 := by push_cast; rfl
        rw [← this]
        exact k1
      · intro x hx
        rw [k5 x hx]
        exact h7 x hx
      · intro t
        rw [k6 t]
        exact h9 t

theorem distance_stable (g : Graph ID) (src : Nat) (hwf : g.WF) (hsrc : src < g.Nodes.length)
    (hmin : ∀ t, IsMinSteps g.Edges src t (g.cell src t).Steps) :
    ∃ g1, g.distance src = .ok g1 ∧ SameFrame g g1 ∧ g1.WF ∧
      (∀ x, x ≠ src → g1.M[x]? = g.M[x]?) ∧
      ∀ t, (g1.cell src t).Steps = (g.cell src t).Steps := by
  have hq : ∀ e ∈ g.getEdges src, Walk g.Edges 1 src e.1 := by
    intro e he
    exact Walk.one ((mem_getEdges g src e.1 e.2).mp he)
  obtain ⟨g1, h1, h2, h3, h4, h5, h6⟩ :=
    distanceLoop_stable hwf.edges hsrc (g.Nodes.length + 1) 1 g
      (List.replicate g.Nodes.length false) (g.getEdges src) 0 rfl hwf.rows hwf.cols
      (by simp) hq hmin (by intro _; simp)
  refine ⟨g1, ?_, h2, ?_, h5, h6⟩
  · unfold Graph.distance Graph.distanceFuel
    exact_mod_cast h1
  · constructor
    · rw [h2.2.2.2, h2.1]
      exact hwf.groups
    · rw [h2.1]
      exact h3
    · rw [h2.1]
      exact h4
    · rw [h2.1, h2.2.2.1]
      exact hwf.edges

theorem distance_rowState (g : Graph ID) (s : Nat) (hwf : g.WF) (hs : s < g.Nodes.length)
    (hrow : RowState g s) :
    ∃ g1, g.distance s = .ok g1 ∧ SameFrame g g1 ∧ g1.WF ∧
      (∀ x, x ≠ s → g1.M[x]? = g.M[x]?) ∧
      ∀ t, IsMinSteps g1.Edges s t (g1.cell s t).Steps := by
  rcases hrow with hz | hm
  · obtain ⟨g1, h1, h2, h3, h4, h5⟩ := distance_spec g 0 s hwf hs hz
    exact ⟨g1, h1, h2, h3, h4, fun t => (h5 t).1⟩
  · obtain ⟨g1, h1, h2, h3, h4, h5⟩ := distance_stable g s hwf hs hm
    refine ⟨g1, h1, h2, h3, h4, ?_⟩
    intro t
    rw [h5 t, h2.2.2.1]
    exact hm t

theorem rowState_congr {g g1 : Graph ID} {s : Nat} (hE : g1.Edges = g.Edges)
    (hM : g1.M[s]? = g.M[s]?) (h : RowState g s) : RowState g1 s := by
  rcases h with hz | hm
  · left
    intro t
    rw [cell_congr hM t]
    exact hz t
  · right
    intro t
    rw [cell_congr hM t, hE]
    exact hm t

theorem allDistances_rowState : ∀ (n i : Nat) (g : Graph ID), g.WF →
    i + n = g.Nodes.length → (∀ s, s < g.Nodes.length → RowState g s) →
    ∃ g2, allDistancesFrom n i g = .ok g2 ∧ SameFrame g g2 ∧ g2.WF ∧
      ∀ s, s < g.Nodes.length → RowState g2 s := by
  intro n
  induction n with
  | zero =>
    intro i g hwf _ hrows
    exact ⟨g, rfl, SameFrame.refl g, hwf, hrows⟩
  | succ n ih =>
    intro i g hwf hn hrows
    obtain ⟨g1, h1, h2, h3, h4, h5⟩ := distance_rowState g i hwf (by omega) (hrows i (by omega))
    have hrows1 : ∀ s, s < g1.Nodes.length → RowState g1 s := by
      intro s hs
      by_cases hsi : s = i
      · rw [hsi]
        exact Or.inr h5
      · exact rowState_congr h2.2.2.1 (h4 s hsi) (hrows s (by rw [← h2.1]; exact hs))
    obtain ⟨g2, k1, k2, k3, k4⟩ := ih (i + 1) g1 h3 (by rw [h2.1]; omega) hrows1
    refine ⟨g2, ?_, h2.trans k2, k3, ?_⟩
    · simp only [allDistancesFrom, h1]
      exact k1
    · intro s hs
      exact k4 s (by rw [h2.1]; exact hs)

variable [DecidableEq ID]

theorem queried_inv (g0 : Graph ID) (h0 : BuildInv False g0) {g : Graph ID}
    (h : Queried g0 g) :
    SameFrame g0 g ∧ g.WF ∧ ∀ s, s < g0.Nodes.length → RowState g s := by
  induction h with
  | fresh =>
    exact ⟨SameFrame.refl g0, h0.wf,
      fun s _ => Or.inl (fun t => cell_zero_of_zeroMatrix h0.zero s t)⟩
  | @steps g g1 src dst v err _ hst ih =>
    obtain ⟨i1, i2, i3⟩ := ih
    unfold Graph.Steps at hst
    cases hx : g.getIdx src with
    | none =>
      simp only [hx, Res.ok.injEq, Prod.mk.injEq] at hst
      rw [← hst.1]
      exact ⟨i1, i2, i3⟩
    | some x =>
      cases hy : g.getIdx dst with
      | none =>
        simp only [hx, hy, Res.ok.injEq, Prod.mk.injEq] at hst
        rw [← hst.1]
        exact ⟨i1, i2, i3⟩
      | some y =>
        simp only [hx, hy] at hst
        have hxl : x < g.Nodes.length := getIdx_lt g src x hx
        obtain ⟨g2, k1, k2, k3, k4, k5⟩ :=
          distance_rowState g x i2 hxl (i3 x (by rw [← i1.1]; exact hxl))
        rw [k1] at hst
        simp only at hst
        cases hrow : g2.M[x]? with
        | none => simp [hrow] at hst
        | some row =>
          simp only [hrow] at hst
          cases hr : row[y]? with
          | none => simp [hr] at hst
          | some r =>
            simp only [hr, Res.ok.injEq, Prod.mk.injEq] at hst
            rw [← hst.1]
            refine ⟨i1.trans k2, k3, ?_⟩
            intro s hs
            by_cases hsx : s = x
            · rw [hsx]
              exact Or.inr k5
            · exact rowState_congr k2.2.2.1 (k4 s hsx) (i3 s hs)
  | @all g g1 _ hall ih =>
    obtain ⟨i1, i2, i3⟩ := ih
    obtain ⟨g2, k1, k2, k3, k4⟩ := allDistances_rowState g.Nodes.length 0 g i2 (by simp)
      (fun s hs => i3 s (by rw [← i1.1]; exact hs))
    unfold Graph.AllDistances at hall
    rw [k1] at hall
    simp only [Res.ok.injEq] at hall
    rw [← hall]
    exact ⟨i1.trans k2, k3, fun s hs => k4 s (by rw [i1.1]; exact hs)⟩

/-- C15: on a graph returned by a build, `Steps(src, dst)` for ids present in
`Nodes` returns one and the same value and no error in every state reached by
any sequence of earlier `Steps` and `AllDistances` calls; and in every such
state, once the per-source procedure has run for `s`, running it again leaves
the `Steps` field of every cell of the matrix unchanged. -/
theorem C15_steps_idempotent {G N : Type} (gr : Graphiti G N ID) (fuel : Nat) (graph : G)
    (nodes : List N) (g0 : Graph ID) (h : gr.Builds fuel graph nodes g0) (src dst : ID)
    (hs : src ∈ g0.Nodes) (hd : dst ∈ g0.Nodes) :
    ∃ v : Int,
      (∀ g, Queried g0 g → ∃ g1, g.Steps src dst = .ok (g1, v, none)) ∧
      (∀ g s, Queried g0 g → s < g0.Nodes.length →
        ∃ g1 g2, g.distance s = .ok g1 ∧ g1.distance s = .ok g2 ∧
          ∀ x y, (g2.cell x y).Steps = (g1.cell x y).Steps) := by
  have h0 := builds_fresh gr fuel graph nodes g0 h
  obtain ⟨x, hx⟩ : ∃ x, g0.getIdx src = some x := by
    cases hx : g0.getIdx src with
    | none => exact absurd hs ((getIdx_none g0 src).mp hx)
    | some x => exact ⟨x, rfl⟩
  obtain ⟨y, hy⟩ : ∃ y, g0.getIdx dst = some y := by
    cases hy : g0.getIdx dst with
    | none => exact absurd hd ((getIdx_none g0 dst).mp hy)
    | some y => exact ⟨y, rfl⟩
  have hxl : x < g0.Nodes.length := getIdx_lt g0 src x hx
  have key : ∀ g, Queried g0 g → ∃ g1 v, g.Steps src dst = .ok (g1, v, none) ∧
      IsMinSteps g0.Edges x y v := by
    intro g hq
    obtain ⟨i1, i2, i3⟩ := queried_inv g0 h0 hq
    have hxg : g.getIdx src = some x := by
      unfold Graph.getIdx
      rw [i1.1]
      exact hx
    have hyg : g.getIdx dst = some y := by
      unfold Graph.getIdx
      rw [i1.1]
      exact hy
    obtain ⟨g1, k1, k2, k3, _, k5⟩ :=
      distance_rowState g x i2 (by rw [i1.1]; exact hxl) (i3 x hxl)
    refine ⟨g1, _, steps_of_distance g g1 src dst x y hxg hyg k1 k3 k2.1, ?_⟩
    have := k5 y
    rw [k2.2.2.1, i1.2.2.1] at this
    exact this
  obtain ⟨_, v, _, hv⟩ := key g0 Queried.fresh
  refine ⟨v, ?_, ?_⟩
  · intro g hq
    obtain ⟨g1, w, hst, hw⟩ := key g hq
    rw [isMinSteps_unique hw hv] at hst
    exact ⟨g1, hst⟩
  · intro g s hq hsl
    obtain ⟨i1, i2, i3⟩ := queried_inv g0 h0 hq
    obtain ⟨g1, k1, k2, k3, _, k5⟩ :=
      distance_rowState g s i2 (by rw [i1.1]; exact hsl) (i3 s hsl)
    obtain ⟨g2, m1, _, _, m4, m5⟩ :=
      distance_stable g1 s k3 (by rw [k2.1, i1.1]; exact hsl) k5
    refine ⟨g1, g2, k1, m1, ?_⟩
    intro a b
    by_cases ha : a = s
    · rw [ha]
      exact m5 b
    · rw [cell_congr (m4 a ha) b]

/-- Witness for C15 on the cycle scenario with the ids `C` and `B`: the value
is `3` on the fresh graph, after `AllDistances`, and after `AllDistances`
twice. -/
theorem C15_steps_idempotent_witness :
    tableCaps.Builds 10 cycleSrc [] cycleGraph ∧ Label.C ∈ cycleGraph.Nodes ∧
    Label.B ∈ cycleGraph.Nodes ∧
    (∃ v : Int,
      (∀ g, Queried cycleGraph g → ∃ g1, g.Steps Label.C Label.B = .ok (g1, v, none)) ∧
      (∀ g s, Queried cycleGraph g → s < cycleGraph.Nodes.length →
        ∃ g1 g2, g.distance s = .ok g1 ∧ g1.distance s = .ok g2 ∧
          ∀ x y, (g2.cell x y).Steps = (g1.cell x y).Steps)) ∧
    (cycleGraph.Steps Label.C Label.B).bind (fun r => Res.ok r.2) = Res.ok (3, none) ∧
    (cycleGraph.AllDistances.bind (fun g => g.Steps Label.C Label.B)).bind
      (fun r => Res.ok r.2) = Res.ok (3, none) ∧
    ((cycleGraph.AllDistances.bind Graph.AllDistances).bind
      (fun g => g.Steps Label.C Label.B)).bind (fun r => Res.ok r.2) = Res.ok (3, none) :=
  ⟨Or.inl ⟨none, by decide⟩, by decide, by decide,
   C15_steps_idempotent tableCaps 10 cycleSrc [] cycleGraph (Or.inl ⟨none, by decide⟩)
     Label.C Label.B (by decide) (by decide),
   by decide, by decide, by decide⟩

end Rerun

end GoGraphiti

/-! ## Group ids and weak connectivity -/

namespace GoGraphiti

section GroupLemmas

variable {ID : Type}

theorem foldl_max_ge : ∀ (l : List Int) (a : Int),
    a ≤ l.foldl max a ∧ ∀ v ∈ l, v ≤ l.foldl max a := by
  intro l
  induction l with
  | nil =>
    intro a
    simp
  | cons b l ih =>
    intro a
    obtain ⟨h1, h2⟩ := ih (max a b)
    simp only [List.foldl_cons]
    refine ⟨le_trans (le_max_left a b) h1, ?_⟩
    intro v hv
    rcases List.mem_cons.mp hv with rfl | hv
    · exact le_trans (le_max_right a v) h1
    · exact h2 v hv

theorem gd_le_foldl (l : List Int) (i : Nat) :
    gd l i ≤ l.foldl max 0 := by
  unfold gd
  cases h : l[i]? with
  | none => exact (foldl_max_ge l 0).1
  | some v => exact (foldl_max_ge l 0).2 v (List.mem_iff_getElem?.mpr ⟨i, h⟩)

theorem gd_set (l : List Int) (x i : Nat) (v : Int) (hx : x < l.length) :
    gd (l.set x v) i = if i = x then v else gd l i := by
  unfold gd
  by_cases h : i = x
  · subst h
    simp [List.getElem?_set_self hx]
  · have : x ≠ i := fun e => h e.symm
    simp [List.getElem?_set_ne this, h]

theorem gd_map (l : List Int) (h : Int → Int) (h0 : h 0 = 0) (i : Nat) :
    gd (l.map h) i = h (gd l i) := by
  unfold gd
  rw [List.getElem?_map]
  cases l[i]? with
  | none => simp [h0]
  | some v => simp

theorem gd_getElem (l : List Int) (x : Nat) (hx : x < l.length) : gd l x = l[x] := by
  unfold gd
  rw [List.getElem?_eq_getElem hx]
  rfl

theorem updateGroups_relabel (g : Graph ID) {x y : Nat} (hx : x < g.GroupOf.length)
    (hy : y < g.GroupOf.length) :
    g.updateGroups x y = .ok { g with GroupOf := relabel g.GroupOf x y } := by
  unfold Graph.updateGroups relabel
  rw [List.getElem?_eq_getElem hx]
  simp only
  rw [gd_getElem g.GroupOf x hx]
  generalize hgo1 : (if g.GroupOf[x] = unset then
    g.GroupOf.set x (List.foldl max 0 g.GroupOf + 1) else g.GroupOf) = go1
  have hgo1b : (if g.GroupOf[x] = 0 then
    g.GroupOf.set x (List.foldl max 0 g.GroupOf + 1) else g.GroupOf) = go1 := hgo1
  rw [hgo1b]
  have hl1 : go1.length = g.GroupOf.length := by
    rw [← hgo1]
    split <;> simp
  have hy1 : y < go1.length := by rw [hl1]; exact hy
  rw [List.getElem?_eq_getElem hy1]
  simp only
  rw [gd_getElem go1 y hy1]
  generalize hgo2 : (if go1[y] = unset then
    go1.set y (List.foldl max 0 g.GroupOf + 1) else go1) = go2
  have hgo2b : (if go1[y] = 0 then
    go1.set y (List.foldl max 0 g.GroupOf + 1) else go1) = go2 := hgo2
  rw [hgo2b]
  have hl2 : go2.length = g.GroupOf.length := by
    rw [← hgo2]
    split <;> simp [hl1]
  have hx2 : x < go2.length := by rw [hl2]; exact hx
  have hy2 : y < go2.length := by rw [hl2]; exact hy
  rw [List.getElem?_eq_getElem hx2, List.getElem?_eq_getElem hy2]
  simp only
  rw [gd_getElem go2 x hx2, gd_getElem go2 y hy2]
  split <;> rfl

theorem connected_mono {E E1 : List (Nat × Nat × Int)} (h : ∀ e ∈ E, e ∈ E1) {i j : Nat}
    (hc : Connected E i j) : Connected E1 i j := by
  refine Relation.ReflTransGen.mono ?_ hc
  rintro a b ⟨c, hab | hba⟩
  · exact ⟨c, Or.inl (h _ hab)⟩
  · exact ⟨c, Or.inr (h _ hba)⟩

theorem adj_symm {E : List (Nat × Nat × Int)} {a b : Nat} (h : Adj E a b) : Adj E b a := by
  obtain ⟨c, h1 | h2⟩ := h
  · exact ⟨c, Or.inr h1⟩
  · exact ⟨c, Or.inl h2⟩

theorem connected_symm {E : List (Nat × Nat × Int)} {i j : Nat} (h : Connected E i j) :
    Connected E j i := by
  induction h with
  | refl => exact Relation.ReflTransGen.refl
  | tail _ hbc ih => exact Relation.ReflTransGen.head (adj_symm hbc) ih

theorem touched_append (E : List (Nat × Nat × Int)) (x y : Nat) (d : Int) (i : Nat) :
    Touched (E ++ [(x, y, d)]) i ↔ Touched E i ∨ i = x ∨ i = y := by
  unfold Touched
  constructor
  · rintro ⟨e, he, h⟩
    rcases List.mem_append.mp he with he | he
    · exact Or.inl ⟨e, he, h⟩
    · have : e = (x, y, d) := by simpa using he
      subst this
      rcases h with h | h
      · exact Or.inr (Or.inl h.symm)
      · exact Or.inr (Or.inr h.symm)
  · rintro (⟨e, he, h⟩ | h | h)
    · exact ⟨e, List.mem_append_left _ he, h⟩
    · exact ⟨(x, y, d), by simp, Or.inl h.symm⟩
    · exact ⟨(x, y, d), by simp, Or.inr h.symm⟩

theorem groups_step (E : List (Nat × Nat × Int)) (f f1 F : Nat → Int) (x y : Nat) (d nx : Int)
    (hnn : ∀ i, 0 ≤ f i) (hz : ∀ i, f i = 0 ↔ ¬ Touched E i)
    (hsame : ∀ i j, f i ≠ 0 → f j ≠ 0 → (f i = f j ↔ Connected E i j))
    (hfresh : ∀ i, f i < nx)
    (h1 : ∀ i, (f1 i = f i ∧ (f i ≠ 0 ∨ (i ≠ x ∧ i ≠ y))) ∨
      (f i = 0 ∧ (i = x ∨ i = y) ∧ f1 i = nx))
    (hF : ∀ i, F i = if f1 x = f1 y then f1 i
      else if f1 i = max (f1 x) (f1 y) then min (f1 x) (f1 y) else f1 i) :
    (∀ i, 0 ≤ F i) ∧ (∀ i, F i = 0 ↔ ¬ Touched (E ++ [(x, y, d)]) i) ∧
    (∀ i j, F i ≠ 0 → F j ≠ 0 → (F i = F j ↔ Connected (E ++ [(x, y, d)]) i j)) := by
  have hnx : 0 < nx := lt_of_le_of_lt (hnn x) (hfresh x)
  have f1nn : ∀ i, 0 ≤ f1 i := by
    intro i
    rcases h1 i with ⟨h, _⟩ | ⟨_, _, h⟩
    · rw [h]; exact hnn i
    · rw [h]; exact le_of_lt hnx
  have f1zero : ∀ i, f1 i = 0 ↔ (f i = 0 ∧ i ≠ x ∧ i ≠ y) := by
    intro i
    rcases h1 i with ⟨h, h2⟩ | ⟨h0, h2, h⟩
    · rw [h]
      constructor
      · intro hfi
        rcases h2 with h2 | h2
        · exact absurd hfi h2
        · exact ⟨hfi, h2⟩
      · intro hfi
        exact hfi.1
    · rw [h]
      constructor
      · intro hc
        omega
      · rintro ⟨_, hx, hy⟩
        rcases h2 with h2 | h2
        · exact absurd h2 hx
        · exact absurd h2 hy
  have f1x : f1 x ≠ 0 := fun h => ((f1zero x).mp h).2.1 rfl
  have f1y : f1 y ≠ 0 := fun h => ((f1zero y).mp h).2.2 rfl
  have Fzero : ∀ i, F i = 0 ↔ f1 i = 0 := by
    intro i
    rw [hF i]
    have := f1nn x
    have := f1nn y
    have := f1nn i
    split
    · rfl
    · split
      · rename_i hmx
        constructor
        · intro h
          rcases min_choice (f1 x) (f1 y) with hm | hm <;> rw [hm] at h
          · exact absurd h f1x
          · exact absurd h f1y
        · intro h
          rw [h] at hmx
          rcases max_choice (f1 x) (f1 y) with hm | hm <;> rw [hm] at hmx
          · exact absurd hmx.symm f1x
          · exact absurd hmx.symm f1y
      · rfl
  have Fcongr : ∀ i j, f1 i = f1 j → F i = F j := by
    intro i j h
    rw [hF i, hF j, h]
  have Fxy : F x = F y := by
    rw [hF x, hF y]
    split
    · assumption
    · rename_i hne
      rcases le_total (f1 x) (f1 y) with hle | hle
      · rw [max_eq_right hle, min_eq_left hle]
        simp [hne]
      · rw [max_eq_left hle, min_eq_right hle]
        have hne2 : ¬ f1 y = f1 x := fun h => hne h.symm
        simp [hne2]
  have Fsplit : ∀ i j, F i = F j →
      f1 i = f1 j ∨ ((f1 i = f1 x ∨ f1 i = f1 y) ∧ (f1 j = f1 x ∨ f1 j = f1 y)) := by
    intro i j h
    rw [hF i, hF j] at h
    by_cases hab : f1 x = f1 y
    · simp only [hab, if_true] at h
      exact Or.inl h
    · simp only [hab, if_false] at h
      have hi : f1 i = max (f1 x) (f1 y) → (f1 i = f1 x ∨ f1 i = f1 y) := by
        intro h
        rcases max_choice (f1 x) (f1 y) with hm | hm <;> rw [hm] at h
        · exact Or.inl h
        · exact Or.inr h
      have hj : f1 j = max (f1 x) (f1 y) → (f1 j = f1 x ∨ f1 j = f1 y) := by
        intro h
        rcases max_choice (f1 x) (f1 y) with hm | hm <;> rw [hm] at h
        · exact Or.inl h
        · exact Or.inr h
      have hmin : ∀ v, v = min (f1 x) (f1 y) → (v = f1 x ∨ v = f1 y) := by
        intro v h
        rcases min_choice (f1 x) (f1 y) with hm | hm <;> rw [hm] at h
        · exact Or.inl h
        · exact Or.inr h
      by_cases h1i : f1 i = max (f1 x) (f1 y)
      · by_cases h1j : f1 j = max (f1 x) (f1 y)
        · exact Or.inl (h1i.trans h1j.symm)
        · simp only [h1i, h1j, if_true, if_false] at h
          exact Or.inr ⟨hi h1i, hmin _ h.symm⟩
      · by_cases h1j : f1 j = max (f1 x) (f1 y)
        · simp only [h1i, h1j, if_true, if_false] at h
          exact Or.inr ⟨hmin _ h, hj h1j⟩
        · simp only [h1i, h1j, if_false] at h
          exact Or.inl h
  have hE1 : ∀ e ∈ E, e ∈ E ++ [(x, y, d)] := fun e he => List.mem_append_left _ he
  have cxy : Connected (E ++ [(x, y, d)]) x y :=
    Relation.ReflTransGen.single ⟨d, Or.inl (by simp)⟩
  have hS : ∀ i j, f1 i ≠ 0 → f1 i = f1 j → Connected (E ++ [(x, y, d)]) i j := by
    intro i j hne heq
    rcases h1 i with ⟨hi, _⟩ | ⟨hi0, hixy, hi⟩
    · rcases h1 j with ⟨hj, _⟩ | ⟨_, _, hj⟩
      · have hfi : f i ≠ 0 := by rw [← hi]; exact hne
        have hfj : f j ≠ 0 := by rw [← hj, ← heq]; exact hne
        have : f i = f j := by rw [← hi, ← hj]; exact heq
        exact connected_mono hE1 ((hsame i j hfi hfj).mp this)
      · have := hfresh i
        omega
    · rcases h1 j with ⟨hj, _⟩ | ⟨_, hjxy, _⟩
      · have := hfresh j
        omega
      · rcases hixy with rfl | rfl <;> rcases hjxy with rfl | rfl
        · exact Relation.ReflTransGen.refl
        · exact cxy
        · exact connected_symm cxy
        · exact Relation.ReflTransGen.refl
  have hSx : ∀ i p, (p = x ∨ p = y) → f1 i ≠ 0 → f1 i = f1 p →
      Connected (E ++ [(x, y, d)]) i p := fun i p _ hne heq => hS i p hne heq
  have hadj : ∀ a b, Adj (E ++ [(x, y, d)]) a b → F a = F b := by
    have hold : ∀ a b c, (a, b, c) ∈ E → F a = F b := by
      intro a b c hab
      have ta : Touched E a := ⟨(a, b, c), hab, Or.inl rfl⟩
      have tb : Touched E b := ⟨(a, b, c), hab, Or.inr rfl⟩
      have fa : f a ≠ 0 := fun h => (hz a).mp h ta
      have fb : f b ≠ 0 := fun h => (hz b).mp h tb
      have hfab : f a = f b :=
        (hsame a b fa fb).mpr (Relation.ReflTransGen.single ⟨c, Or.inl hab⟩)
      apply Fcongr
      rcases h1 a with ⟨ha, _⟩ | ⟨ha0, _, _⟩
      · rcases h1 b with ⟨hb, _⟩ | ⟨hb0, _, _⟩
        · rw [ha, hb]
          exact hfab
        · exact absurd hb0 fb
      · exact absurd ha0 fa
    rintro a b ⟨c, hab | hba⟩
    · rcases List.mem_append.mp hab with h | h
      · exact hold a b c h
      · have : (a, b, c) = (x, y, d) := by simpa using h
        simp only [Prod.mk.injEq] at this
        rw [this.1, this.2.1]
        exact Fxy
    · rcases List.mem_append.mp hba with h | h
      · exact (hold b a c h).symm
      · have : (b, a, c) = (x, y, d) := by simpa using h
        simp only [Prod.mk.injEq] at this
        rw [this.1, this.2.1]
        exact Fxy.symm
  have hcon : ∀ i j, Connected (E ++ [(x, y, d)]) i j → F i = F j := by
    intro i j hc
    induction hc with
    | refl => rfl
    | tail _ hbc ih => exact ih.trans (hadj _ _ hbc)
  refine ⟨?_, ?_, ?_⟩
  · intro i
    rw [hF i]
    have := f1nn x
    have := f1nn y
    have := f1nn i
    split
    · assumption
    · split
      · exact le_min (f1nn x) (f1nn y)
      · assumption
  · intro i
    rw [Fzero i, f1zero i, touched_append, hz i]
    tauto
  · intro i j hi hj
    constructor
    · intro h
      have hi1 : f1 i ≠ 0 := fun h0 => hi ((Fzero i).mpr h0)
      have hj1 : f1 j ≠ 0 := fun h0 => hj ((Fzero j).mpr h0)
      rcases Fsplit i j h with heq | ⟨hip, hjq⟩
      · exact hS i j hi1 heq
      · have ci : ∃ p, (p = x ∨ p = y) ∧ Connected (E ++ [(x, y, d)]) i p := by
          rcases hip with h | h
          · exact ⟨x, Or.inl rfl, hS i x hi1 h⟩
          · exact ⟨y, Or.inr rfl, hS i y hi1 h⟩
        have cj : ∃ q, (q = x ∨ q = y) ∧ Connected (E ++ [(x, y, d)]) j q := by
          rcases hjq with h | h
          · exact ⟨x, Or.inl rfl, hS j x hj1 h⟩
          · exact ⟨y, Or.inr rfl, hS j y hj1 h⟩
        obtain ⟨p, hp, cip⟩ := ci
        obtain ⟨q, hq, cjq⟩ := cj
        have cpq : Connected (E ++ [(x, y, d)]) p q := by
          rcases hp with rfl | rfl <;> rcases hq with rfl | rfl
          · exact Relation.ReflTransGen.refl
          · exact cxy
          · exact connected_symm cxy
          · exact Relation.ReflTransGen.refl
        exact Relation.ReflTransGen.trans cip
          (Relation.ReflTransGen.trans cpq (connected_symm cjq))
    · intro hc
      exact hcon i j hc

end GroupLemmas

end GoGraphiti

/-! ## Group ids of built graphs -/

namespace GoGraphiti

section GroupClaims

variable {ID : Type}

theorem relabel_spec (l : List Int) (x y : Nat) (hx : x < l.length) (hy : y < l.length)
    (hnn : ∀ i, 0 ≤ gd l i) :
    ∃ f1 : Nat → Int,
      (∀ i, (f1 i = gd l i ∧ (gd l i ≠ 0 ∨ (i ≠ x ∧ i ≠ y))) ∨
        (gd l i = 0 ∧ (i = x ∨ i = y) ∧ f1 i = l.foldl max 0 + 1)) ∧
      (∀ i, gd (relabel l x y) i = if f1 x = f1 y then f1 i
        else if f1 i = max (f1 x) (f1 y) then min (f1 x) (f1 y) else f1 i) ∧
      (relabel l x y).length = l.length := by
  have hpos : 0 < l.foldl max 0 + 1 := by
    have := (foldl_max_ge l 0).1
    omega
  unfold relabel
  simp only
  generalize hnx : l.foldl max 0 + 1 = nx at hpos
  generalize hgo1 : (if gd l x = 0 then l.set x nx else l) = go1
  have hl1 : go1.length = l.length := by
    rw [← hgo1]
    split <;> simp
  have g1 : ∀ i, gd go1 i = if i = x ∧ gd l x = 0 then nx else gd l i := by
    intro i
    rw [← hgo1]
    by_cases h0 : gd l x = 0
    · rw [if_pos h0, gd_set l x i nx hx]
      simp [h0]
    · rw [if_neg h0]
      simp [h0]
  generalize hgo2 : (if gd go1 y = 0 then go1.set y nx else go1) = go2
  have hl2 : go2.length = l.length := by
    rw [← hgo2]
    split <;> simp [hl1]
  have g2 : ∀ i, gd go2 i = if i = y ∧ gd go1 y = 0 then nx else gd go1 i := by
    intro i
    rw [← hgo2]
    by_cases h0 : gd go1 y = 0
    · rw [if_pos h0, gd_set go1 y i nx (by rw [hl1]; exact hy)]
      simp [h0]
    · rw [if_neg h0]
      simp [h0]
  have h1 : ∀ i, (gd go2 i = gd l i ∧ (gd l i ≠ 0 ∨ (i ≠ x ∧ i ≠ y))) ∨
      (gd l i = 0 ∧ (i = x ∨ i = y) ∧ gd go2 i = nx) := by
    intro i
    rw [g2 i, g1 i, g1 y]
    by_cases hix : i = x
    · by_cases h0 : gd l i = 0
      · right
        refine ⟨h0, Or.inl hix, ?_⟩
        rw [← hix]
        simp [h0]
      · left
        refine ⟨?_, Or.inl h0⟩
        have h0x : ¬ gd l x = 0 := by rw [← hix]; exact h0
        simp only [h0x, and_false, if_false]
        by_cases hiy : i = y
        · have h0y : ¬ gd l y = 0 := by rw [← hiy]; exact h0
          simp [h0y]
        · simp [hiy]
    · by_cases hiy : i = y
      · by_cases h0 : gd l i = 0
        · right
          refine ⟨h0, Or.inr hiy, ?_⟩
          have hyx : ¬ y = x := by rw [← hiy]; exact hix
          have h0y : gd l y = 0 := by rw [← hiy]; exact h0
          simp [hiy, hyx, h0y]
        · left
          refine ⟨?_, Or.inl h0⟩
          have hyx : ¬ y = x := by rw [← hiy]; exact hix
          have h0y : ¬ gd l y = 0 := by rw [← hiy]; exact h0
          simp [hix, hyx, h0y]
      · left
        refine ⟨?_, Or.inr ⟨hix, hiy⟩⟩
        simp [hix, hiy]
  have hnz : ∀ p, (p = x ∨ p = y) → 0 < gd go2 p := by
    intro p hp
    rcases h1 p with ⟨h, h2⟩ | ⟨_, _, h⟩
    · rw [h]
      have := hnn p
      rcases h2 with h2 | h2
      · omega
      · rcases hp with hp | hp
        · exact absurd hp h2.1
        · exact absurd hp h2.2
    · rw [h]
      exact hpos
  refine ⟨gd go2, h1, ?_, ?_⟩
  · intro i
    by_cases hxy : gd go2 x = gd go2 y
    · rw [if_pos hxy, if_pos hxy]
    · rw [if_neg hxy, if_neg hxy]
      rw [gd_map]
      have hx0 := hnz x (Or.inl rfl)
      have hy0 := hnz y (Or.inr rfl)
      have : ¬ (0 : Int) = max (gd go2 x) (gd go2 y) := by
        intro h
        have := le_max_left (gd go2 x) (gd go2 y)
        omega
      simp [this]
  · split
    · exact hl2
    · simp [hl2]

theorem groupsOk_edge (g : Graph ID) (hok : g.GroupsOk) {x y : Nat} (d : Int)
    (hx : x < g.GroupOf.length) (hy : y < g.GroupOf.length) (g2 : Graph ID)
    (h : g.updateGroups x y = .ok g2) :
    Graph.GroupsOk { g2 with Edges := g2.Edges ++ [(x, y, d)] } := by
  rw [updateGroups_relabel g hx hy] at h
  simp only [Res.ok.injEq] at h
  subst h
  obtain ⟨f1, h1, hF, _⟩ := relabel_spec g.GroupOf x y hx hy hok.nonneg
  have hfresh : ∀ i, gd g.GroupOf i < g.GroupOf.foldl max 0 + 1 := by
    intro i
    have := gd_le_foldl g.GroupOf i
    omega
  obtain ⟨k1, k2, k3⟩ := groups_step g.Edges (gd g.GroupOf) f1 (gd (relabel g.GroupOf x y))
    x y d _ hok.nonneg hok.zero hok.same hfresh h1 hF
  exact ⟨k1, k2, k3⟩

theorem gd_append_zero (l : List Int) (i : Nat) : gd (l ++ [0]) i = gd l i := by
  unfold gd
  by_cases h : i < l.length
  · rw [List.getElem?_append_left h]
  · rw [List.getElem?_append_right (by omega), List.getElem?_eq_none (by omega : l.length ≤ i)]
    by_cases h0 : i - l.length = 0
    · rw [h0]
      rfl
    · rw [List.getElem?_eq_none (by simp; omega)]

theorem gd_replicate_zero (n i : Nat) : gd (List.replicate n 0) i = 0 := by
  unfold gd
  rw [List.getElem?_replicate]
  split <;> rfl

theorem groupsOk_of_no_edges (g : Graph ID) (hE : g.Edges = []) (hG : ∀ i, g.grp i = 0) :
    g.GroupsOk := by
  have hnt : ∀ i, ¬ Touched g.Edges i := by
    rintro i ⟨e, he, _⟩
    rw [hE] at he
    simp at he
  constructor
  · intro i
    rw [hG i]
  · intro i
    constructor
    · intro _
      exact hnt i
    · intro _
      exact hG i
  · intro i j hi _
    exact absurd (hG i) hi

variable {G N : Type} [DecidableEq ID]

theorem addEdgesLoop_preserved (gr : Graphiti G N ID) (graph : G) (id : ID) (idx : Nat)
    (persevere : Bool) (P : Graph ID → Prop)
    (happ : ∀ g xn, BuildInv False g → P g → P (gr.appendNewNode g xn).1)
    (hedge : ∀ g x y d, BuildInv False g → P g → x < g.Nodes.length → y < g.Nodes.length →
      0 ≤ d → ∀ g2, g.updateGroups x y = .ok g2 →
      P { g2 with Edges := g2.Edges ++ [(x, y, d)] }) :
    ∀ (nbrs : List (ID × Int)) (g : Graph ID) (errs : List (Err ID)),
      BuildInv False g → P g → idx < g.Nodes.length →
      ∃ b g1 errs1, gr.addEdgesLoop graph id idx persevere nbrs g errs = .ok (b, g1, errs1) ∧
        BuildInv False g1 ∧ P g1 := by
  intro nbrs
  induction nbrs with
  | nil =>
    intro g errs hinv hp _
    exact ⟨true, g, errs, rfl, hinv, hp⟩
  | cons nbr rest ih =>
    intro g errs hinv hp hidx
    obtain ⟨e, d⟩ := nbr
    unfold Graphiti.addEdgesLoop
    by_cases hd : d < 0
    · simp only [hd, if_true]
      cases persevere with
      | true =>
        simp only [if_true]
        exact ih g _ hinv hp hidx
      | false => exact ⟨false, g, _, rfl, hinv, hp⟩
    · simp only [hd, if_false]
      cases hres : gr.resolveTarget graph g e with
      | none =>
        simp only
        cases persevere with
        | true =>
          simp only [if_true]
          exact ih g _ hinv hp hidx
        | false => exact ⟨false, g, _, rfl, hinv, hp⟩
      | some p =>
        obtain ⟨g1, idx2⟩ := p
        simp only
        obtain ⟨h1, h2, h3⟩ :=
          resolveTarget_inv gr graph g e False (fun hf => hf.elim) hinv hres
        have hp1 : P g1 := by
          unfold Graphiti.resolveTarget at hres
          cases hget : mapGet g.IndexOf e with
          | some i =>
            simp only [hget, Option.some.injEq, Prod.mk.injEq] at hres
            rw [← hres.1]
            exact hp
          | none =>
            simp only [hget] at hres
            cases hnode : gr.GetNode graph e with
            | none => simp [hnode] at hres
            | some xn =>
              simp only [hnode, Option.some.injEq] at hres
              have := happ g xn hinv hp
              rw [hres] at this
              exact this
        have hx : idx < g1.GroupOf.length := by rw [h1.wf.groups]; omega
        have hy : idx2 < g1.GroupOf.length := by rw [h1.wf.groups]; exact h2
        obtain ⟨go, hu, hgo⟩ := updateGroups_ok g1 hx hy
        have hidx1 : idx < g1.Nodes.length := by omega
        have hp2 := hedge g1 idx idx2 d h1 hp1 hidx1 h2 (by omega) _ hu
        rw [hu]
        simp only
        have hinv2 := addEdge_inv h1 go d hgo hidx1 h2 (by omega)
        exact ih _ errs hinv2 hp2 hidx1

theorem buildLoop_preserved (gr : Graphiti G N ID) (graph : G) (persevere : Bool)
    (P : Graph ID → Prop) (hempty : P Graph.empty)
    (happ : ∀ g xn, BuildInv False g → P g → P (gr.appendNewNode g xn).1)
    (hedge : ∀ g x y d, BuildInv False g → P g → x < g.Nodes.length → y < g.Nodes.length →
      0 ≤ d → ∀ g2, g.updateGroups x y = .ok g2 →
      P { g2 with Edges := g2.Edges ++ [(x, y, d)] }) :
    ∀ (fuel idx : Nat) (g : Graph ID) (errs : List (Err ID)), BuildInv False g → P g →
      ∀ g1 errs1, gr.buildLoop graph persevere fuel idx g errs = .ok (some g1, errs1) → P g1 := by
  have hfin : ∀ (g g1 : Graph ID) (errs1 : List (Err ID)), P g →
      (Res.ok (buildFinish g) : Res (Option (Graph ID) × List (Err ID))) = .ok (some g1, errs1) →
      P g1 := by
    intro g g1 errs1 hp h
    unfold buildFinish at h
    split at h
    · simp only [Res.ok.injEq, Prod.mk.injEq, Option.some.injEq] at h
      rw [← h.1]
      exact hempty
    · simp only [Res.ok.injEq, Prod.mk.injEq, Option.some.injEq] at h
      rw [← h.1]
      exact hp
  intro fuel
  induction fuel with
  | zero =>
    intro idx g errs _ hp g1 errs1 h
    unfold Graphiti.buildLoop at h
    cases hn : g.Nodes[idx]? with
    | none =>
      simp only [hn] at h
      exact hfin g g1 errs1 hp h
    | some id => simp [hn] at h
  | succ fuel ih =>
    intro idx g errs hinv hp g1 errs1 h
    unfold Graphiti.buildLoop at h
    cases hn : g.Nodes[idx]? with
    | none =>
      simp only [hn] at h
      exact hfin g g1 errs1 hp h
    | some id =>
      simp only [hn] at h
      have hidx : idx < g.Nodes.length := (List.getElem?_eq_some_iff.mp hn).1
      have hadd : ∃ b g2 errs2, gr.addEdges graph id g idx persevere = .ok (b, g2, errs2) ∧
          BuildInv False g2 ∧ P g2 := by
        unfold Graphiti.addEdges
        cases hnode : gr.GetNode graph id with
        | none => exact ⟨persevere, g, _, rfl, hinv, hp⟩
        | some n =>
          dsimp only
          split
          · exact ⟨false, g, _, rfl, hinv, hp⟩
          · exact addEdgesLoop_preserved gr graph id idx persevere P happ hedge _ g [] hinv hp
              hidx
      obtain ⟨b, g2, errs2, k1, k2, k3⟩ := hadd
      rw [k1] at h
      simp only at h
      cases b with
      | true =>
        simp only [if_true] at h
        exact ih (idx + 1) g2 _ k2 k3 g1 errs1 h
      | false => simp at h

theorem builds_preserved (gr : Graphiti G N ID) (fuel : Nat) (graph : G) (nodes : List N)
    (P : Graph ID → Prop) (hinit : P (gr.initGraph graph nodes)) (hempty : P Graph.empty)
    (happ : ∀ g xn, BuildInv False g → P g → P (gr.appendNewNode g xn).1)
    (hedge : ∀ g x y d, BuildInv False g → P g → x < g.Nodes.length → y < g.Nodes.length →
      0 ≤ d → ∀ g2, g.updateGroups x y = .ok g2 →
      P { g2 with Edges := g2.Edges ++ [(x, y, d)] })
    (g : Graph ID) (h : gr.Builds fuel graph nodes g) : P g := by
  obtain ⟨persevere, errs, h1⟩ := builds_newGraph gr fuel graph nodes g h
  exact buildLoop_preserved gr graph persevere P hempty happ hedge fuel 0 _ []
    (initGraph_inv gr graph nodes False (fun hf => hf.elim)) hinit g errs h1

theorem builds_groupsOk (gr : Graphiti G N ID) (fuel : Nat) (graph : G) (nodes : List N)
    (g : Graph ID) (h : gr.Builds fuel graph nodes g) : g.GroupsOk := by
  refine builds_preserved gr fuel graph nodes Graph.GroupsOk ?_ ?_ ?_ ?_ g h
  · apply groupsOk_of_no_edges
    · rfl
    · intro i
      exact gd_replicate_zero _ i
  · apply groupsOk_of_no_edges
    · rfl
    · intro i
      rfl
  · intro g xn _ hok
    have hg : ∀ i, (gr.appendNewNode g xn).1.grp i = g.grp i := fun i =>
      gd_append_zero g.GroupOf i
    have hE : (gr.appendNewNode g xn).1.Edges = g.Edges := rfl
    constructor
    · intro i
      rw [hg i]
      exact hok.nonneg i
    · intro i
      rw [hg i, hE]
      exact hok.zero i
    · intro i j
      rw [hg i, hg j, hE]
      exact hok.same i j
  · intro g x y d hinv hok hx hy _ g2 hu
    exact groupsOk_edge g hok d (by rw [hinv.wf.groups]; exact hx)
      (by rw [hinv.wf.groups]; exact hy) g2 hu

/-- C19: in every graph returned by a build, `GroupOf[i] = 0` exactly when
node `i` is an endpoint of no edge of `Edges`, and two nodes with non-zero
group ids have the same id exactly when they are connected by a path over
`Edges` that ignores direction. -/
theorem C19_groups_weak_connectivity (gr : Graphiti G N ID) (fuel : Nat) (graph : G)
    (nodes : List N) (g : Graph ID) (h : gr.Builds fuel graph nodes g) :
    (∀ (i : Nat) v, g.GroupOf[i]? = some v → (v = 0 ↔ ¬ Touched g.Edges i)) ∧
    (∀ (i j : Nat) v w, g.GroupOf[i]? = some v → g.GroupOf[j]? = some w → v ≠ 0 → w ≠ 0 →
      (v = w ↔ Connected g.Edges i j)) := by
  have hok := builds_groupsOk gr fuel graph nodes g h
  have hgrp : ∀ (i : Nat) v, g.GroupOf[i]? = some v → g.grp i = v := by
    intro i v hv
    unfold Graph.grp
    rw [hv]
    rfl
  constructor
  · intro i v hv
    rw [← hgrp i v hv]
    exact hok.zero i
  · intro i j v w hv hw hv0 hw0
    rw [← hgrp i v hv, ← hgrp j w hw]
    exact hok.same i j (by rw [hgrp i v hv]; exact hv0) (by rw [hgrp j w hw]; exact hw0)

/-- Witness for C19: the disconnected scenario, edges A→B and C→D only, with
`GroupOf = [1, 1, 2, 2]`. -/
theorem C19_groups_weak_connectivity_witness :
    tableCaps.Builds 10 disconnectedSrc [] disconnectedGraph ∧
    disconnectedGraph.GroupOf = [1, 1, 2, 2] ∧
    ((∀ (i : Nat) v, disconnectedGraph.GroupOf[i]? = some v →
        (v = 0 ↔ ¬ Touched disconnectedGraph.Edges i)) ∧
     (∀ (i j : Nat) v w, disconnectedGraph.GroupOf[i]? = some v →
        disconnectedGraph.GroupOf[j]? = some w → v ≠ 0 → w ≠ 0 →
        (v = w ↔ Connected disconnectedGraph.Edges i j))) :=
  ⟨Or.inl ⟨none, by decide⟩, rfl,
   C19_groups_weak_connectivity tableCaps 10 disconnectedSrc [] disconnectedGraph
     (Or.inl ⟨none, by decide⟩)⟩

end GroupClaims

end GoGraphiti

/-! ## The traversal by ids: facts about the notions -/

namespace GoGraphiti

section TraversalFacts

variable {G N ID : Type}

theorem named_ext (g g1 : Graph ID) (ext : List ID) (h : g1.Nodes = g.Nodes ++ ext)
    (e : Nat × Nat × Int) (he : e.2.1 < g.Nodes.length) : g1.named e = g.named e := by
  unfold Graph.named
  rw [h, List.getElem?_append_left he]

variable [DecidableEq ID]

theorem indexFrom_sound : ∀ (rest pre : List ID) (m : List (ID × Nat)),
    (∀ e, mapGet m e ≠ none ↔ e ∈ pre) →
    (∀ e j, mapGet m e = some j → pre[j]? = some e) →
    (∀ e, mapGet (indexFrom rest pre.length m) e ≠ none ↔ e ∈ pre ++ rest) ∧
      ∀ e j, mapGet (indexFrom rest pre.length m) e = some j → (pre ++ rest)[j]? = some e := by
  intro rest
  induction rest with
  | nil =>
    intro pre m h1 h2
    simpa [indexFrom] using ⟨h1, h2⟩
  | cons id rest ih =>
    intro pre m h1 h2
    have hstep := ih (pre ++ [id]) (mapSet m id pre.length) ?_ ?_
    · simpa [indexFrom] using hstep
    · intro e
      rw [mapGet_mapSet]
      by_cases he : id = e
      · simp [he]
      · simp only [he, if_false, List.mem_append, List.mem_singleton]
        rw [h1 e]
        constructor
        · intro h
          exact Or.inl h
        · rintro (h | h)
          · exact h
          · exact absurd h.symm he
    · intro e j
      rw [mapGet_mapSet]
      by_cases he : id = e
      · simp only [he, if_true, Option.some.injEq]
        intro hj
        rw [← hj]
        simp
      · simp only [he, if_false]
        intro hj
        have h3 := h2 e j hj
        have hlt : j < pre.length := (List.getElem?_eq_some_iff.mp h3).1
        rw [List.getElem?_append_left hlt]
        exact h3

theorem initGraph_sound (gr : Graphiti G N ID) (graph : G) (nodes : List N) :
    (gr.initGraph graph nodes).IndexSound := by
  have h := indexFrom_sound (gr.initGraph graph nodes).Nodes [] ([] : List (ID × Nat))
    (by intro e; simp [mapGet]) (by intro e j h; simp [mapGet] at h)
  simp only [List.length_nil, List.nil_append] at h
  exact ⟨h.1, h.2⟩

theorem appendNewNode_sound (gr : Graphiti G N ID) (g : Graph ID) (xn : N)
    (hs : g.IndexSound) : (gr.appendNewNode g xn).1.IndexSound := by
  have hlen : (g.Nodes ++ [gr.GetName xn]).length - 1 = g.Nodes.length := by simp
  constructor
  · intro e
    show mapGet (mapSet g.IndexOf (gr.GetName xn) ((g.Nodes ++ [gr.GetName xn]).length - 1)) e
      ≠ none ↔ e ∈ g.Nodes ++ [gr.GetName xn]
    rw [mapGet_mapSet]
    by_cases he : gr.GetName xn = e
    · simp [he]
    · simp only [he, if_false, List.mem_append, List.mem_singleton]
      rw [hs.mem e]
      constructor
      · intro h
        exact Or.inl h
      · rintro (h | h)
        · exact h
        · exact absurd h.symm he
  · intro e j
    show mapGet (mapSet g.IndexOf (gr.GetName xn) ((g.Nodes ++ [gr.GetName xn]).length - 1)) e
      = some j → (g.Nodes ++ [gr.GetName xn])[j]? = some e
    rw [mapGet_mapSet, hlen]
    by_cases he : gr.GetName xn = e
    · simp only [he, if_true, Option.some.injEq]
      intro hj
      rw [← hj]
      simp
    · simp only [he, if_false]
      intro hj
      have h3 := hs.get e j hj
      have hlt : j < g.Nodes.length := (List.getElem?_eq_some_iff.mp h3).1
      rw [List.getElem?_append_left hlt]
      exact h3

theorem knownAfter_ext (gr : Graphiti G N ID) (graph : G) :
    ∀ (nbrs : List (ID × Int)) (known : List ID),
      ∃ ext, gr.knownAfter graph known nbrs = known ++ ext := by
  intro nbrs
  induction nbrs with
  | nil =>
    intro known
    exact ⟨[], by simp [Graphiti.knownAfter]⟩
  | cons nbr rest ih =>
    intro known
    obtain ⟨e, d⟩ := nbr
    unfold Graphiti.knownAfter
    split
    · exact ih known
    · split
      · exact ih known
      · split
        · exact ih known
        · rename_i xn _
          obtain ⟨ext, h⟩ := ih (known ++ [gr.GetName xn])
          exact ⟨[gr.GetName xn] ++ ext, by rw [h]; simp⟩

theorem knownAt_succ_ext (gr : Graphiti G N ID) (graph : G) (init : List ID) (i : Nat) :
    ∃ ext, gr.knownAt graph init (i + 1) = gr.knownAt graph init i ++ ext := by
  show ∃ ext, (match (gr.knownAt graph init i)[i]? with
    | none => gr.knownAt graph init i
    | some id => gr.knownAfter graph (gr.knownAt graph init i) (gr.neighbours graph id))
      = gr.knownAt graph init i ++ ext
  cases (gr.knownAt graph init i)[i]? with
  | none => exact ⟨[], by simp⟩
  | some id => exact knownAfter_ext gr graph _ _

theorem knownAt_ext (gr : Graphiti G N ID) (graph : G) (init : List ID) (i : Nat) :
    ∀ k, ∃ ext, gr.knownAt graph init (i + k) = gr.knownAt graph init i ++ ext := by
  intro k
  induction k with
  | zero => exact ⟨[], by simp⟩
  | succ k ih =>
    obtain ⟨ext, h⟩ := ih
    obtain ⟨ext2, h2⟩ := knownAt_succ_ext gr graph init (i + k)
    exact ⟨ext ++ ext2, by rw [← Nat.add_assoc, h2, h, List.append_assoc]⟩

theorem knownAt_length_mono (gr : Graphiti G N ID) (graph : G) (init : List ID) {i j : Nat}
    (h : i ≤ j) : (gr.knownAt graph init i).length ≤ (gr.knownAt graph init j).length := by
  obtain ⟨ext, hx⟩ := knownAt_ext gr graph init i (j - i)
  have : i + (j - i) = j := by omega
  rw [this] at hx
  rw [hx]
  simp

theorem knownAt_stuck (gr : Graphiti G N ID) (graph : G) (init : List ID) (i : Nat)
    (h : (gr.knownAt graph init i).length ≤ i) :
    ∀ k, gr.knownAt graph init (i + k) = gr.knownAt graph init i := by
  intro k
  induction k with
  | zero => rfl
  | succ k ih =>
    show (match (gr.knownAt graph init (i + k))[i + k]? with
      | none => gr.knownAt graph init (i + k)
      | some id => gr.knownAfter graph (gr.knownAt graph init (i + k)) (gr.neighbours graph id))
        = gr.knownAt graph init i
    have hnone : (gr.knownAt graph init (i + k))[i + k]? = none := by
      rw [ih]
      exact List.getElem?_eq_none (by omega)
    rw [hnone]
    exact ih

/-- Before the traversal has come to a stop, the node about to be processed is known. -/
theorem knownAt_lt (gr : Graphiti G N ID) (graph : G) (init : List ID) {i n : Nat}
    (h : i < (gr.knownAt graph init n).length) (hin : i ≤ n) :
    i < (gr.knownAt graph init i).length := by
  by_contra hc
  have hst := knownAt_stuck gr graph init i (by omega) (n - i)
  have : i + (n - i) = n := by omega
  rw [this] at hst
  rw [hst] at h
  exact hc h

end TraversalFacts

end GoGraphiti

/-! ## The builder follows the traversal by ids -/

namespace GoGraphiti

section BuilderFollows

variable {G N ID : Type} [DecidableEq ID]

theorem kept_cons_neg (gr : Graphiti G N ID) (graph : G) (known : List ID) (e : ID) (d : Int)
    (rest : List (ID × Int)) (hd : d < 0) :
    gr.kept graph known ((e, d) :: rest) = gr.kept graph known rest ∧
      gr.knownAfter graph known ((e, d) :: rest) = gr.knownAfter graph known rest := by
  simp [Graphiti.kept, Graphiti.knownAfter, hd]

theorem kept_cons_known (gr : Graphiti G N ID) (graph : G) (known : List ID) (e : ID) (d : Int)
    (rest : List (ID × Int)) (hd : ¬ d < 0) (he : e ∈ known) :
    gr.kept graph known ((e, d) :: rest) = (e, d) :: gr.kept graph known rest ∧
      gr.knownAfter graph known ((e, d) :: rest) = gr.knownAfter graph known rest := by
  simp [Graphiti.kept, Graphiti.knownAfter, hd, he]

theorem kept_cons_lost (gr : Graphiti G N ID) (graph : G) (known : List ID) (e : ID) (d : Int)
    (rest : List (ID × Int)) (hd : ¬ d < 0) (he : e ∉ known) (hn : gr.GetNode graph e = none) :
    gr.kept graph known ((e, d) :: rest) = gr.kept graph known rest ∧
      gr.knownAfter graph known ((e, d) :: rest) = gr.knownAfter graph known rest := by
  simp [Graphiti.kept, Graphiti.knownAfter, hd, he, hn]

theorem kept_cons_new (gr : Graphiti G N ID) (graph : G) (known : List ID) (e : ID) (d : Int)
    (rest : List (ID × Int)) (hd : ¬ d < 0) (he : e ∉ known) (xn : N)
    (hn : gr.GetNode graph e = some xn) :
    gr.kept graph known ((e, d) :: rest) =
        (gr.GetName xn, d) :: gr.kept graph (known ++ [gr.GetName xn]) rest ∧
      gr.knownAfter graph known ((e, d) :: rest) =
        gr.knownAfter graph (known ++ [gr.GetName xn]) rest := by
  simp [Graphiti.kept, Graphiti.knownAfter, hd, he, hn]

theorem resolveTarget_none (gr : Graphiti G N ID) (graph : G) (g : Graph ID) (e : ID)
    (hs : g.IndexSound) (h : gr.resolveTarget graph g e = none) :
    e ∉ g.Nodes ∧ gr.GetNode graph e = none := by
  unfold Graphiti.resolveTarget at h
  cases hget : mapGet g.IndexOf e with
  | some i => simp [hget] at h
  | none =>
    simp only [hget] at h
    have hmem : e ∉ g.Nodes := fun hm => (hs.mem e).mpr hm hget
    cases hnode : gr.GetNode graph e with
    | none => exact ⟨hmem, rfl⟩
    | some xn => simp [hnode] at h

theorem resolveTarget_some (gr : Graphiti G N ID) (graph : G) (g : Graph ID) (e : ID)
    (hs : g.IndexSound) {g1 : Graph ID} {idx2 : Nat}
    (h : gr.resolveTarget graph g e = some (g1, idx2)) :
    g1.IndexSound ∧
    ((e ∈ g.Nodes ∧ g1.Nodes = g.Nodes ∧ g1.Edges = g.Edges ∧ g.Nodes[idx2]? = some e) ∨
     (e ∉ g.Nodes ∧ ∃ xn, gr.GetNode graph e = some xn ∧
        g1.Nodes = g.Nodes ++ [gr.GetName xn] ∧ g1.Edges = g.Edges ∧
        idx2 = g.Nodes.length)) := by
  unfold Graphiti.resolveTarget at h
  cases hget : mapGet g.IndexOf e with
  | some i =>
    simp only [hget, Option.some.injEq, Prod.mk.injEq] at h
    obtain ⟨rfl, rfl⟩ := h
    refine ⟨hs, Or.inl ⟨?_, rfl, rfl, hs.get e _ hget⟩⟩
    exact (hs.mem e).mp (by rw [hget]; simp)
  | none =>
    simp only [hget] at h
    have hmem : e ∉ g.Nodes := fun hm => (hs.mem e).mpr hm hget
    cases hnode : gr.GetNode graph e with
    | none => simp [hnode] at h
    | some xn =>
      simp only [hnode, Option.some.injEq] at h
      have hsound := appendNewNode_sound gr g xn hs
      rw [h] at hsound
      have hg1 : g1 = (gr.appendNewNode g xn).1 := by rw [h]
      have hi : idx2 = (gr.appendNewNode g xn).2 := by rw [h]
      refine ⟨hsound, Or.inr ⟨hmem, xn, rfl, ?_, ?_, ?_⟩⟩
      · rw [hg1]
        rfl
      · rw [hg1]
        rfl
      · rw [hi]
        show (g.Nodes ++ [gr.GetName xn]).length - 1 = g.Nodes.length
        simp

theorem addEdgesLoop_follows (gr : Graphiti G N ID) (graph : G) (id : ID) (idx : Nat)
    (persevere : Bool) :
    ∀ (nbrs : List (ID × Int)) (g : Graph ID) (errs : List (Err ID)) (gf : Graph ID)
      (errsf : List (Err ID)),
      BuildInv False g → g.IndexSound → idx < g.Nodes.length →
      gr.addEdgesLoop graph id idx persevere nbrs g errs = .ok (true, gf, errsf) →
      BuildInv False gf ∧ gf.IndexSound ∧
        gf.Nodes = gr.knownAfter graph g.Nodes nbrs ∧
        ∃ new, gf.Edges = g.Edges ++ new ∧
          new.map gf.named = rowEdges idx (gr.kept graph g.Nodes nbrs) := by
  have hF : False → ∀ id n, gr.GetNode graph id = some n → gr.GetName n = id :=
    fun hf => hf.elim
  intro nbrs
  induction nbrs with
  | nil =>
    intro g errs gf errsf hinv hs _ h
    simp only [Graphiti.addEdgesLoop, Res.ok.injEq, Prod.mk.injEq, true_and] at h
    obtain ⟨rfl, _⟩ := h
    exact ⟨hinv, hs, rfl, [], by simp, by simp [rowEdges, Graphiti.kept]⟩
  | cons nbr rest ih =>
    intro g errs gf errsf hinv hs hidx h
    obtain ⟨e, d⟩ := nbr
    unfold Graphiti.addEdgesLoop at h
    by_cases hd : d < 0
    · simp only [hd, if_true] at h
      cases persevere with
      | false => simp at h
      | true =>
        simp only [if_true] at h
        obtain ⟨k1, k2⟩ := kept_cons_neg gr graph g.Nodes e d rest hd
        rw [k1, k2]
        exact ih g _ gf errsf hinv hs hidx h
    · simp only [hd, if_false] at h
      cases hres : gr.resolveTarget graph g e with
      | none =>
        simp only [hres] at h
        cases persevere with
        | false => simp at h
        | true =>
          simp only [if_true] at h
          obtain ⟨m1, m2⟩ := resolveTarget_none gr graph g e hs hres
          obtain ⟨k1, k2⟩ := kept_cons_lost gr graph g.Nodes e d rest hd m1 m2
          rw [k1, k2]
          exact ih g _ gf errsf hinv hs hidx h
      | some p =>
        obtain ⟨g1, idx2⟩ := p
        simp only [hres] at h
        obtain ⟨h1, h2, h3⟩ := resolveTarget_inv gr graph g e False hF hinv hres
        obtain ⟨hs1, hcase⟩ := resolveTarget_some gr graph g e hs hres
        have hx : idx < g1.GroupOf.length := by rw [h1.wf.groups]; omega
        have hy : idx2 < g1.GroupOf.length := by rw [h1.wf.groups]; exact h2
        obtain ⟨go, hu, hgo⟩ := updateGroups_ok g1 hx hy
        rw [hu] at h
        simp only at h
        have hidx1 : idx < g1.Nodes.length := by omega
        have hinv2 := addEdge_inv h1 go d hgo hidx1 h2 (by omega)
        have hs2 : Graph.IndexSound
            (Graph.mk g1.Nodes g1.IndexOf (g1.Edges ++ [(idx, idx2, d)]) go g1.M) :=
          ⟨hs1.mem, hs1.get⟩
        obtain ⟨r1, r2, r3, new, r4, r5⟩ := ih _ errs gf errsf hinv2 hs2 hidx1 h
        have r3b : gf.Nodes = gr.knownAfter graph g1.Nodes rest := r3
        have r4b : gf.Edges = (g1.Edges ++ [(idx, idx2, d)]) ++ new := r4
        have r5b : new.map gf.named = rowEdges idx (gr.kept graph g1.Nodes rest) := r5
        obtain ⟨ext, hext⟩ := knownAfter_ext gr graph rest g1.Nodes
        have hnamed : ∀ name, g1.Nodes[idx2]? = some name →
            gf.named (idx, idx2, d) = (idx, some name, d) := by
          intro name hname
          unfold Graph.named
          rw [r3b, hext, List.getElem?_append_left h2, hname]
        refine ⟨r1, r2, ?_, (idx, idx2, d) :: new, ?_, ?_⟩
        · rcases hcase with ⟨c1, c2, _, _⟩ | ⟨c1, xn, c2, c3, _, _⟩
          · rw [(kept_cons_known gr graph g.Nodes e d rest hd c1).2, r3b, c2]
          · rw [(kept_cons_new gr graph g.Nodes e d rest hd c1 xn c2).2, r3b, c3]
        · rcases hcase with ⟨_, _, c3, _⟩ | ⟨_, xn, _, _, c4, _⟩
          · rw [r4b, c3]
            simp
          · rw [r4b, c4]
            simp
        · rcases hcase with ⟨c1, c2, _, c4⟩ | ⟨c1, xn, c2, c3, _, c5⟩
          · rw [(kept_cons_known gr graph g.Nodes e d rest hd c1).1, List.map_cons, r5b,
              hnamed e (by rw [c2]; exact c4), c2]
            rfl
          · have hn : g1.Nodes[idx2]? = some (gr.GetName xn) := by
              rw [c3, c5]
              simp
            rw [(kept_cons_new gr graph g.Nodes e d rest hd c1 xn c2).1, List.map_cons, r5b,
              hnamed _ hn, c3]
            rfl

end BuilderFollows

end GoGraphiti

/-! ## The node loop follows the traversal by ids -/

namespace GoGraphiti

section LoopFollows

variable {G N ID : Type} [DecidableEq ID]

theorem addEdges_follows (gr : Graphiti G N ID) (graph : G) (id : ID) (idx : Nat)
    (persevere : Bool) (g gf : Graph ID) (errsf : List (Err ID))
    (hinv : BuildInv False g) (hs : g.IndexSound) (hidx : idx < g.Nodes.length)
    (h : gr.addEdges graph id g idx persevere = .ok (true, gf, errsf)) :
    BuildInv False gf ∧ gf.IndexSound ∧
      gf.Nodes = gr.knownAfter graph g.Nodes (gr.neighbours graph id) ∧
      ∃ new, gf.Edges = g.Edges ++ new ∧
        new.map gf.named = rowEdges idx (gr.kept graph g.Nodes (gr.neighbours graph id)) := by
  unfold Graphiti.addEdges at h
  unfold Graphiti.neighbours
  cases hnode : gr.GetNode graph id with
  | none =>
    simp only [hnode, Res.ok.injEq, Prod.mk.injEq] at h
    obtain ⟨_, rfl, _⟩ := h
    exact ⟨hinv, hs, rfl, [], by simp, by simp [rowEdges, Graphiti.kept]⟩
  | some n =>
    simp only [hnode] at h
    split at h
    · simp at h
    · exact addEdgesLoop_follows gr graph id idx persevere _ g [] gf errsf hinv hs hidx h

theorem follows_init (gr : Graphiti G N ID) (graph : G) (nodes : List N) :
    gr.Follows graph (gr.initGraph graph nodes).Nodes 0 (gr.initGraph graph nodes) := by
  refine ⟨initGraph_inv gr graph nodes False (fun hf => hf.elim),
    initGraph_sound gr graph nodes, Nat.zero_le _, rfl, ?_⟩
  have : (gr.initGraph graph nodes).Edges = [] := rfl
  rw [this]
  simp

theorem follows_step (gr : Graphiti G N ID) (graph : G) (init : List ID) (idx : Nat)
    (persevere : Bool) (g gf : Graph ID) (id : ID) (errsf : List (Err ID))
    (hf : gr.Follows graph init idx g) (hn : g.Nodes[idx]? = some id)
    (h : gr.addEdges graph id g idx persevere = .ok (true, gf, errsf)) :
    gr.Follows graph init (idx + 1) gf := by
  have hidx : idx < g.Nodes.length := (List.getElem?_eq_some_iff.mp hn).1
  obtain ⟨r1, r2, r3, new, r4, r5⟩ :=
    addEdges_follows gr graph id idx persevere g gf errsf hf.inv hf.sound hidx h
  obtain ⟨ext, hext⟩ := knownAfter_ext gr graph (gr.neighbours graph id) g.Nodes
  have hnodes : gf.Nodes = g.Nodes ++ ext := by rw [r3, hext]
  have hk : (gr.knownAt graph init idx)[idx]? = some id := by rw [← hf.nodes]; exact hn
  refine ⟨r1, r2, ?_, ?_, ?_⟩
  · rw [hnodes]
    simp only [List.length_append]
    omega
  · rw [r3]
    show _ = (match (gr.knownAt graph init idx)[idx]? with
      | none => gr.knownAt graph init idx
      | some id => gr.knownAfter graph (gr.knownAt graph init idx) (gr.neighbours graph id))
    rw [hk, hf.nodes]
  · have hrow : gr.keptRow graph init idx = gr.kept graph g.Nodes (gr.neighbours graph id) := by
      unfold Graphiti.keptRow
      rw [hk, hf.nodes]
    have hold : g.Edges.map gf.named = g.Edges.map g.named := by
      apply List.map_congr_left
      intro e he
      exact named_ext g gf ext hnodes e (hf.inv.wf.edges e he).2
    rw [r4, List.map_append, hold, r5, hf.edges, List.range_succ, List.flatMap_append]
    simp [hrow]

theorem buildLoop_follows (gr : Graphiti G N ID) (graph : G) (init : List ID)
    (persevere : Bool) :
    ∀ (fuel idx : Nat) (g : Graph ID) (errs : List (Err ID)) (gf : Graph ID)
      (errsf : List (Err ID)),
      gr.Follows graph init idx g →
      gr.buildLoop graph persevere fuel idx g errs = .ok (some gf, errsf) →
      gr.Follows graph init gf.Nodes.length gf := by
  have hfin : ∀ (idx : Nat) (g gf : Graph ID) (errsf : List (Err ID)),
      gr.Follows graph init idx g → g.Nodes[idx]? = none →
      (Res.ok (buildFinish g) : Res (Option (Graph ID) × List (Err ID))) = .ok (some gf, errsf) →
      gr.Follows graph init gf.Nodes.length gf := by
    intro idx g gf errsf hf hn h
    have hge : g.Nodes.length ≤ idx := List.getElem?_eq_none_iff.mp hn
    have hidx : idx = g.Nodes.length := le_antisymm hf.le hge
    unfold buildFinish at h
    split at h
    · rename_i h0
      simp only [Res.ok.injEq, Prod.mk.injEq, Option.some.injEq] at h
      rw [← h.1]
      have hnil : g.Nodes = [] := List.eq_nil_of_length_eq_zero h0
      have h1 := hf.nodes
      rw [hidx, h0, hnil] at h1
      refine ⟨buildInv_empty False, ⟨?_, ?_⟩, le_refl _, ?_, ?_⟩
      · intro e
        simp [Graph.empty, mapGet]
      · intro e j hj
        simp [Graph.empty, mapGet] at hj
      · exact h1
      · simp [Graph.empty]
    · simp only [Res.ok.injEq, Prod.mk.injEq, Option.some.injEq] at h
      rw [← h.1, ← hidx]
      exact hf
  intro fuel
  induction fuel with
  | zero =>
    intro idx g errs gf errsf hf h
    unfold Graphiti.buildLoop at h
    cases hn : g.Nodes[idx]? with
    | none =>
      simp only [hn] at h
      exact hfin idx g gf errsf hf hn h
    | some id => simp [hn] at h
  | succ fuel ih =>
    intro idx g errs gf errsf hf h
    unfold Graphiti.buildLoop at h
    cases hn : g.Nodes[idx]? with
    | none =>
      simp only [hn] at h
      exact hfin idx g gf errsf hf hn h
    | some id =>
      simp only [hn] at h
      cases hadd : gr.addEdges graph id g idx persevere with
      | outOfRange => simp [hadd] at h
      | outOfFuel => simp [hadd] at h
      | ok r =>
        obtain ⟨b, g1, errs1⟩ := r
        simp only [hadd] at h
        cases b with
        | false => simp at h
        | true =>
          simp only [if_true] at h
          exact ih (idx + 1) g1 _ gf errsf
            (follows_step gr graph init idx persevere g g1 id errs1 hf hn hadd) h

/-- When no call of `addEdges` fails and the traversal by ids comes to a stop
at `n`, the node loop returns a graph with fuel `n`. -/
theorem buildLoop_returns (gr : Graphiti G N ID) (graph : G) (init : List ID)
    (persevere : Bool)
    (htrue : ∀ idx g id b g1 errs1, gr.Follows graph init idx g → g.Nodes[idx]? = some id →
      gr.addEdges graph id g idx persevere = .ok (b, g1, errs1) → b = true)
    (n : Nat) (hn : (gr.knownAt graph init n).length ≤ n) :
    ∀ (fuel idx : Nat) (g : Graph ID) (errs : List (Err ID)),
      gr.Follows graph init idx g → idx ≤ n → n - idx ≤ fuel →
      ∃ gf errsf, gr.buildLoop graph persevere fuel idx g errs = .ok (some gf, errsf) := by
  have hfin : ∀ g : Graph ID, ∃ gf errsf,
      (Res.ok (buildFinish g) : Res (Option (Graph ID) × List (Err ID))) =
        .ok (some gf, errsf) := by
    intro g
    unfold buildFinish
    split
    · exact ⟨_, _, rfl⟩
    · exact ⟨_, _, rfl⟩
  have hlt : ∀ idx g id, gr.Follows graph init idx g → idx ≤ n → g.Nodes[idx]? = some id →
      idx < n := by
    intro idx g id hf hle hid
    have h1 : idx < g.Nodes.length := (List.getElem?_eq_some_iff.mp hid).1
    rw [hf.nodes] at h1
    by_contra hc
    have : idx = n := by omega
    rw [this] at h1
    omega
  intro fuel
  induction fuel with
  | zero =>
    intro idx g errs hf hle hfuel
    unfold Graphiti.buildLoop
    cases hid : g.Nodes[idx]? with
    | none => exact hfin g
    | some id =>
      have := hlt idx g id hf hle hid
      omega
  | succ fuel ih =>
    intro idx g errs hf hle hfuel
    unfold Graphiti.buildLoop
    cases hid : g.Nodes[idx]? with
    | none => exact hfin g
    | some id =>
      simp only
      have hi := hlt idx g id hf hle hid
      have hidx : idx < g.Nodes.length := (List.getElem?_eq_some_iff.mp hid).1
      obtain ⟨b, g1, errs1, h1, _, _⟩ :=
        addEdges_inv gr graph id idx persevere False (fun hf => hf.elim) g hf.inv hidx
      have hb := htrue idx g id b g1 errs1 hf hid h1
      subst hb
      rw [h1]
      simp only [if_true]
      exact ih (idx + 1) g1 _
        (follows_step gr graph init idx persevere g g1 id errs1 hf hid h1) (by omega) (by omega)

/-- When no call of `addEdges` fails and the traversal by ids never comes to a
stop, the node loop runs out of every amount of fuel. -/
theorem buildLoop_diverges (gr : Graphiti G N ID) (graph : G) (init : List ID)
    (persevere : Bool)
    (htrue : ∀ idx g id b g1 errs1, gr.Follows graph init idx g → g.Nodes[idx]? = some id →
      gr.addEdges graph id g idx persevere = .ok (b, g1, errs1) → b = true)
    (hgrow : ∀ n, n < (gr.knownAt graph init n).length) :
    ∀ (fuel idx : Nat) (g : Graph ID) (errs : List (Err ID)),
      gr.Follows graph init idx g →
      gr.buildLoop graph persevere fuel idx g errs = .outOfFuel := by
  have hsome : ∀ idx g, gr.Follows graph init idx g → ∃ id, g.Nodes[idx]? = some id := by
    intro idx g hf
    have h1 := hgrow idx
    rw [← hf.nodes] at h1
    exact ⟨_, List.getElem?_eq_getElem h1⟩
  intro fuel
  induction fuel with
  | zero =>
    intro idx g errs hf
    obtain ⟨id, hid⟩ := hsome idx g hf
    unfold Graphiti.buildLoop
    rw [hid]
  | succ fuel ih =>
    intro idx g errs hf
    obtain ⟨id, hid⟩ := hsome idx g hf
    unfold Graphiti.buildLoop
    rw [hid]
    simp only
    have hidx : idx < g.Nodes.length := (List.getElem?_eq_some_iff.mp hid).1
    obtain ⟨b, g1, errs1, h1, _, _⟩ :=
      addEdges_inv gr graph id idx persevere False (fun hf => hf.elim) g hf.inv hidx
    have hb := htrue idx g id b g1 errs1 hf hid h1
    subst hb
    rw [h1]
    simp only [if_true]
    exact ih (idx + 1) g1 _ (follows_step gr graph init idx persevere g g1 id errs1 hf hid h1)

theorem addEdgesLoop_lenient (gr : Graphiti G N ID) (graph : G) (id : ID) (idx : Nat) :
    ∀ (nbrs : List (ID × Int)) (g : Graph ID) (errs : List (Err ID)) (b : Bool)
      (g1 : Graph ID) (errs1 : List (Err ID)),
      gr.addEdgesLoop graph id idx true nbrs g errs = .ok (b, g1, errs1) → b = true := by
  intro nbrs
  induction nbrs with
  | nil =>
    intro g errs b g1 errs1 h
    simp only [Graphiti.addEdgesLoop, Res.ok.injEq, Prod.mk.injEq] at h
    exact h.1.symm
  | cons nbr rest ih =>
    intro g errs b g1 errs1 h
    obtain ⟨e, d⟩ := nbr
    unfold Graphiti.addEdgesLoop at h
    by_cases hd : d < 0
    · simp only [hd, if_true] at h
      exact ih g _ b g1 errs1 h
    · simp only [hd, if_false] at h
      cases hres : gr.resolveTarget graph g e with
      | none =>
        simp only [hres, if_true] at h
        exact ih g _ b g1 errs1 h
      | some p =>
        obtain ⟨g2, idx2⟩ := p
        simp only [hres] at h
        cases hu : g2.updateGroups idx idx2 with
        | outOfRange => simp [hu] at h
        | outOfFuel => simp [hu] at h
        | ok g3 =>
          simp only [hu] at h
          exact ih _ _ b g1 errs1 h

theorem addEdges_lenient (gr : Graphiti G N ID) (graph : G)
    (hlen : ∀ id n, gr.GetNode graph id = some n →
      (gr.GetNext graph n).1.length = (gr.GetNext graph n).2.length)
    (id : ID) (idx : Nat) (g : Graph ID) (b : Bool) (g1 : Graph ID) (errs1 : List (Err ID))
    (h : gr.addEdges graph id g idx true = .ok (b, g1, errs1)) : b = true := by
  unfold Graphiti.addEdges at h
  cases hnode : gr.GetNode graph id with
  | none =>
    simp only [hnode, Res.ok.injEq, Prod.mk.injEq] at h
    exact h.1.symm
  | some n =>
    simp only [hnode] at h
    have hl := hlen id n hnode
    simp only [hl, ne_eq, not_true_eq_false, if_false] at h
    exact addEdgesLoop_lenient gr graph id idx _ g [] b g1 errs1 h

end LoopFollows

end GoGraphiti

/-! ## The lenient build: the edges of each node -/

namespace GoGraphiti

section LenientEdges

variable {ID : Type}

theorem rowEdges_filter (a i : Nat) (row : List (ID × Int)) :
    (rowEdges a row).filter (fun t => decide (t.1 = i)) = if a = i then rowEdges a row else [] := by
  unfold rowEdges
  induction row with
  | nil => simp
  | cons p row ih =>
    by_cases h : a = i
    · simp only [h, if_true] at ih
      simp [h, List.filter_cons, ih]
    · simp only [h, if_false] at ih
      simp [h, List.filter_cons, ih]

theorem flatMap_filter_row (R : Nat → List (ID × Int)) (i : Nat) :
    ∀ n, ((List.range n).flatMap (fun a => rowEdges a (R a))).filter
        (fun t => decide (t.1 = i)) = if i < n then rowEdges i (R i) else [] := by
  intro n
  induction n with
  | zero => simp
  | succ n ih =>
    rw [List.range_succ, List.flatMap_append, List.filter_append, ih]
    simp only [List.flatMap_cons, List.flatMap_nil, List.append_nil]
    rw [rowEdges_filter]
    by_cases h1 : i < n
    · have h2 : ¬ n = i := by omega
      have h3 : i < n + 1 := by omega
      simp [h1, h2, h3]
    · by_cases h2 : n = i
      · subst h2
        simp
      · have h3 : ¬ i < n + 1 := by omega
        simp [h1, h2, h3]

variable {G N : Type} [DecidableEq ID]

theorem follows_row (gr : Graphiti G N ID) (graph : G) (init : List ID) (g : Graph ID)
    (hf : gr.Follows graph init g.Nodes.length g) (i : Nat) (id : ID)
    (hi : g.Nodes[i]? = some id) :
    (∃ ext, g.Nodes = gr.knownAt graph init i ++ ext) ∧
      (gr.knownAt graph init i)[i]? = some id ∧
      (g.Edges.filter (fun e => decide (e.1 = i))).map g.named =
        rowEdges i (gr.kept graph (gr.knownAt graph init i) (gr.neighbours graph id)) := by
  have hlt : i < g.Nodes.length := (List.getElem?_eq_some_iff.mp hi).1
  obtain ⟨ext, hext⟩ := knownAt_ext gr graph init i (g.Nodes.length - i)
  have hN : i + (g.Nodes.length - i) = g.Nodes.length := by omega
  rw [hN, ← hf.nodes] at hext
  have hlt2 : i < (gr.knownAt graph init g.Nodes.length).length := by
    rw [← hf.nodes]
    exact hlt
  have hlt3 := knownAt_lt gr graph init hlt2 (le_of_lt hlt)
  have hk : (gr.knownAt graph init i)[i]? = some id := by
    rw [← hi, hext, List.getElem?_append_left hlt3]
  refine ⟨⟨ext, hext⟩, hk, ?_⟩
  have hrow : gr.keptRow graph init i =
      gr.kept graph (gr.knownAt graph init i) (gr.neighbours graph id) := by
    unfold Graphiti.keptRow
    rw [hk]
  have hfm : (g.Edges.filter (fun e => decide (e.1 = i))).map g.named =
      (g.Edges.map g.named).filter (fun t => decide (t.1 = i)) := by
    rw [List.filter_map]
    rfl
  rw [hfm, hf.edges, flatMap_filter_row (fun a => gr.keptRow graph init a) i g.Nodes.length,
    if_pos hlt, hrow]

theorem newGraph_follows (gr : Graphiti G N ID) (graph : G) (nodes : List N)
    (persevere : Bool) (fuel : Nat) (g : Graph ID) (errs : List (Err ID))
    (h : gr.newGraph fuel graph nodes persevere = .ok (some g, errs)) :
    gr.Follows graph (gr.initGraph graph nodes).Nodes g.Nodes.length g :=
  buildLoop_follows gr graph _ persevere fuel 0 _ [] g errs (follows_init gr graph nodes) h

theorem addEdgesLoop_skip (gr : Graphiti G N ID) (graph : G) (id : ID) (idx : Nat)
    (g : Graph ID) (nbr : ID × Int) (rest : List (ID × Int)) (errs : List (Err ID))
    (err : Err ID) (h : gr.edgeFault graph id g nbr = some err) :
    gr.addEdgesLoop graph id idx true (nbr :: rest) g errs =
      gr.addEdgesLoop graph id idx true rest g (errs ++ [err]) := by
  obtain ⟨e, d⟩ := nbr
  unfold Graphiti.edgeFault at h
  rw [Graphiti.addEdgesLoop]
  by_cases hd : d < 0
  · simp only [hd, if_true, Option.some.injEq] at h
    simp only [hd, if_true]
    rw [h]
  · simp only [hd, if_false] at h
    simp only [hd, if_false]
    cases hres : gr.resolveTarget graph g e with
    | none =>
      simp only [hres, Option.some.injEq] at h
      simp only [if_true]
      rw [h]
    | some p => simp [hres] at h

theorem stepSrc_knownAt : ∀ n, stepSrc.knownAt () [0] n = List.range (n + 1) := by
  intro n
  induction n with
  | zero => rfl
  | succ n ih =>
    rw [Graphiti.knownAt, ih]
    have hn : (List.range (n + 1))[n]? = some n := by
      rw [List.getElem?_range (by omega)]
    rw [hn]
    have hnb : stepSrc.neighbours () n = [(n + 1, 1)] := rfl
    have hnew : n + 1 ∉ List.range (n + 1) := by simp
    simp only [hnb]
    rw [(kept_cons_new stepSrc () (List.range (n + 1)) (n + 1) 1 [] (by decide) hnew (n + 1)
      rfl).2]
    show List.range (n + 1) ++ [n + 1] = List.range (n + 1 + 1)
    rw [List.range_succ (n + 1)]

end LenientEdges

end GoGraphiti

/-! ## Claim C12: the lenient build -/

namespace GoGraphiti

section LenientBuild

variable {G N ID : Type} [DecidableEq ID]

theorem buildLoop_lenient_some (gr : Graphiti G N ID) (graph : G)
    (hlen : ∀ id n, gr.GetNode graph id = some n →
      (gr.GetNext graph n).1.length = (gr.GetNext graph n).2.length) :
    ∀ (fuel idx : Nat) (g : Graph ID) (errs : List (Err ID))
      (r : Option (Graph ID) × List (Err ID)),
      gr.buildLoop graph true fuel idx g errs = .ok r → ∃ gf, r.1 = some gf := by
  have hfin : ∀ (g : Graph ID) (r : Option (Graph ID) × List (Err ID)),
      (Res.ok (buildFinish g) : Res (Option (Graph ID) × List (Err ID))) = .ok r →
      ∃ gf, r.1 = some gf := by
    intro g r h
    simp only [Res.ok.injEq] at h
    rw [← h]
    unfold buildFinish
    split
    · exact ⟨_, rfl⟩
    · exact ⟨_, rfl⟩
  intro fuel
  induction fuel with
  | zero =>
    intro idx g errs r h
    unfold Graphiti.buildLoop at h
    cases hn : g.Nodes[idx]? with
    | none =>
      simp only [hn] at h
      exact hfin g r h
    | some id => simp [hn] at h
  | succ fuel ih =>
    intro idx g errs r h
    unfold Graphiti.buildLoop at h
    cases hn : g.Nodes[idx]? with
    | none =>
      simp only [hn] at h
      exact hfin g r h
    | some id =>
      simp only [hn] at h
      cases hadd : gr.addEdges graph id g idx true with
      | outOfRange => simp [hadd] at h
      | outOfFuel => simp [hadd] at h
      | ok q =>
        obtain ⟨b, g1, errs1⟩ := q
        have hb := addEdges_lenient gr graph hlen id idx g b g1 errs1 hadd
        subst hb
        simp only [hadd, if_true] at h
        exact ih (idx + 1) g1 _ r h

/-- Claim C12, as stated, fails: on the source `stepSrc`, whose `neighbours`
calls all return one id and one cost, the lenient build returns no graph,
whatever fuel it is given: the node loop never comes to an end. -/
theorem C12_counterexample :
    (∀ id n, stepSrc.GetNode () id = some n →
      (stepSrc.GetNext () n).1.length = (stepSrc.GetNext () n).2.length) ∧
    ∀ fuel, stepSrc.Validate fuel () [] = .outOfFuel := by
  refine ⟨fun _ _ _ => rfl, ?_⟩
  intro fuel
  exact buildLoop_diverges stepSrc () [0] true
    (fun idx g id b g1 errs1 _ _ h =>
      addEdges_lenient stepSrc () (fun _ _ _ => rfl) id idx g b g1 errs1 h)
    (fun n => by rw [stepSrc_knownAt]; simp) fuel 0 _ [] (follows_init stepSrc () [])

/-- Claim C12, amended: for every source whose `neighbours` calls return
equal-length sequences, the lenient build (`Validate`) never fails with a
missing graph or an index out of range; it returns a graph with fuel `n` as soon
as the traversal comes to an end at `n` (no more than `n` ids are known when `n`
nodes were processed), and runs forever when there is no such `n`.  For every
graph it returns and every node `i` of it, with id `id`: the ids known when the
node is processed are a front part of `Nodes`, and the edges with source `i`
are, in order and with their targets named, exactly the neighbours of `id`
kept by `kept` (cost `≥ 0` and a target that is known or can be looked up; none
at all when the lookup of `id` itself fails, while `id` stays in `Nodes`).
A neighbour with a fault is skipped on its own: the loop goes on with the
remaining neighbours on the unchanged graph (no node added, no group merged). -/
theorem C12_lenient_keeps_valid_edges (gr : Graphiti G N ID) (graph : G) (nodes : List N)
    (hlen : ∀ id n, gr.GetNode graph id = some n →
      (gr.GetNext graph n).1.length = (gr.GetNext graph n).2.length) :
    (∀ fuel, gr.Validate fuel graph nodes ≠ .outOfRange ∧
      ∀ r, gr.Validate fuel graph nodes = .ok r → ∃ g, r.1 = some g) ∧
    (∀ n, (gr.knownAt graph (gr.initGraph graph nodes).Nodes n).length ≤ n →
      ∀ fuel, n ≤ fuel → ∃ g errs, gr.Validate fuel graph nodes = .ok (some g, errs)) ∧
    ((∀ n, n < (gr.knownAt graph (gr.initGraph graph nodes).Nodes n).length) →
      ∀ fuel, gr.Validate fuel graph nodes = .outOfFuel) ∧
    (∀ fuel g errs, gr.Validate fuel graph nodes = .ok (some g, errs) →
      ∀ (i : Nat) id, g.Nodes[i]? = some id →
        (∃ ext, g.Nodes = gr.knownAt graph (gr.initGraph graph nodes).Nodes i ++ ext) ∧
        (g.Edges.filter (fun e => decide (e.1 = i))).map g.named =
          rowEdges i (gr.kept graph (gr.knownAt graph (gr.initGraph graph nodes).Nodes i)
            (gr.neighbours graph id)) ∧
        (gr.GetNode graph id = none → ∀ e ∈ g.Edges, e.1 ≠ i)) ∧
    (∀ id idx g nbr rest errs err, gr.edgeFault graph id g nbr = some err →
      gr.addEdgesLoop graph id idx true (nbr :: rest) g errs =
        gr.addEdgesLoop graph id idx true rest g (errs ++ [err])) := by
  have htrue : ∀ idx g id b g1 errs1,
      gr.Follows graph (gr.initGraph graph nodes).Nodes idx g → g.Nodes[idx]? = some id →
      gr.addEdges graph id g idx true = .ok (b, g1, errs1) → b = true :=
    fun idx g id b g1 errs1 _ _ h => addEdges_lenient gr graph hlen id idx g b g1 errs1 h
  refine ⟨?_, ?_, ?_, ?_, ?_⟩
  · intro fuel
    refine ⟨?_, ?_⟩
    · exact (buildLoop_inv gr graph true False (fun hf => hf.elim) fuel 0 _ []
        (initGraph_inv gr graph nodes False (fun hf => hf.elim))).1
    · intro r h
      exact buildLoop_lenient_some gr graph hlen fuel 0 _ [] r h
  · intro n hn fuel hfuel
    exact buildLoop_returns gr graph _ true htrue n hn fuel 0 _ []
      (follows_init gr graph nodes) (Nat.zero_le _) (by omega)
  · intro hgrow fuel
    exact buildLoop_diverges gr graph _ true htrue hgrow fuel 0 _ []
      (follows_init gr graph nodes)
  · intro fuel g errs h i id hi
    have hf := newGraph_follows gr graph nodes true fuel g errs h
    obtain ⟨h1, _, h3⟩ := follows_row gr graph _ g hf i id hi
    refine ⟨h1, h3, ?_⟩
    intro hnone e he hei
    have hnb : gr.neighbours graph id = [] := by
      unfold Graphiti.neighbours
      rw [hnone]
    rw [hnb] at h3
    have hmem : e ∈ g.Edges.filter (fun e => decide (e.1 = i)) := by
      rw [List.mem_filter]
      exact ⟨he, by simpa using hei⟩
    have hnil : g.Edges.filter (fun e => decide (e.1 = i)) = [] := by
      have := congrArg List.length h3
      simp only [List.length_map, rowEdges, Graphiti.kept, List.length_nil] at this
      exact List.eq_nil_of_length_eq_zero this
    rw [hnil] at hmem
    simp at hmem
  · intro id idx g nbr rest errs err h
    exact addEdgesLoop_skip gr graph id idx g nbr rest errs err h

end LenientBuild

/-- The source `faultySrc`: the lenient build returns `faultyGraph`; node A keeps
its neighbours C and B (cost 3) and drops B (cost -1) and E, and the node D,
which cannot be looked up, has no outgoing edge. -/
theorem C12_lenient_keeps_valid_edges_witness :
    (∀ id n, tableCaps.GetNode faultySrc id = some n →
      (tableCaps.GetNext faultySrc n).1.length = (tableCaps.GetNext faultySrc n).2.length) ∧
    tableCaps.Validate 4 faultySrc [] = .ok (some faultyGraph, []) ∧
    rowEdges 0 (tableCaps.kept faultySrc
      (tableCaps.knownAt faultySrc (tableCaps.initGraph faultySrc []).Nodes 0)
      (tableCaps.neighbours faultySrc Label.A)) = [(0, some Label.C, 2), (0, some Label.B, 3)] ∧
    ((∃ ext, faultyGraph.Nodes =
        tableCaps.knownAt faultySrc (tableCaps.initGraph faultySrc []).Nodes 0 ++ ext) ∧
      (faultyGraph.Edges.filter (fun e => decide (e.1 = 0))).map faultyGraph.named =
        rowEdges 0 (tableCaps.kept faultySrc
          (tableCaps.knownAt faultySrc (tableCaps.initGraph faultySrc []).Nodes 0)
          (tableCaps.neighbours faultySrc Label.A)) ∧
      (tableCaps.GetNode faultySrc Label.A = none → ∀ e ∈ faultyGraph.Edges, e.1 ≠ 0)) :=
  ⟨by intro id n _; simp [tableCaps], by decide, by decide,
    (C12_lenient_keeps_valid_edges tableCaps faultySrc []
      (by intro id n _; simp [tableCaps])).2.2.2.1 4 faultyGraph [] (by decide) 0 Label.A
      (by decide)⟩

end GoGraphiti

/-! ## The traversal of a fault-free source -/

namespace GoGraphiti

section FaultFreeFacts

variable {G N ID : Type}

variable [DecidableEq ID]

end FaultFreeFacts

end GoGraphiti

/-! ## Claim C11: the strict build of a fault-free source -/

namespace GoGraphiti

section StrictBuild

variable {G N ID : Type} [DecidableEq ID]

end StrictBuild

end GoGraphiti

/-! ## The frontiers of the per-source procedure: each node enters once -/

namespace GoGraphiti

section Frontiers

variable {ID : Type}

theorem frontiersLoop_erase (src : Nat) :
    ∀ (fuel : Nat) (g : Graph ID) (done : List Bool) (q : List (Nat × Int)) (dist steps : Int),
      (frontiersLoop src fuel g done q dist steps).bind (fun p => .ok p.1) =
        distanceLoop src fuel g done q dist steps := by
  intro fuel
  induction fuel with
  | zero =>
    intro g done q dist steps
    cases q with
    | nil => rfl
    | cons e q => rfl
  | succ fuel ih =>
    intro g done q dist steps
    cases q with
    | nil => rfl
    | cons e q =>
      simp only [frontiersLoop, distanceLoop]
      cases hl : layer src dist steps (e :: q)
          { g := g, done := done, nextQ := [], nextDist := 0 } with
      | outOfRange => rfl
      | outOfFuel => rfl
      | ok st =>
        simp only
        rw [← ih st.g st.done st.nextQ st.nextDist (steps + 1)]
        cases frontiersLoop src fuel st.g st.done st.nextQ st.nextDist (steps + 1) with
        | outOfRange => rfl
        | outOfFuel => rfl
        | ok r => rfl

theorem frontiersLoop_fuel_succ (src : Nat) :
    ∀ (fuel : Nat) (g : Graph ID) (done : List Bool) (q : List (Nat × Int)) (dist steps : Int)
      (r : Graph ID × List (List (Nat × Int))),
      frontiersLoop src fuel g done q dist steps = .ok r →
      frontiersLoop src (fuel + 1) g done q dist steps = .ok r := by
  intro fuel
  induction fuel with
  | zero =>
    intro g done q dist steps r h
    cases q with
    | nil =>
      simp only [frontiersLoop] at h
      simp only [frontiersLoop]
      exact h
    | cons e q => simp [frontiersLoop] at h
  | succ fuel ih =>
    intro g done q dist steps r h
    cases q with
    | nil =>
      simp only [frontiersLoop] at h
      simp only [frontiersLoop]
      exact h
    | cons e q =>
      rw [frontiersLoop] at h
      rw [frontiersLoop]
      cases hl : layer src dist steps (e :: q)
          { g := g, done := done, nextQ := [], nextDist := 0 } with
      | outOfRange => simp [hl] at h
      | outOfFuel => simp [hl] at h
      | ok st =>
        simp only [hl] at h
        simp only
        cases hr : frontiersLoop src fuel st.g st.done st.nextQ st.nextDist (steps + 1) with
        | outOfRange => simp [hr] at h
        | outOfFuel => simp [hr] at h
        | ok r1 =>
          rw [ih st.g st.done st.nextQ st.nextDist (steps + 1) r1 hr]
          simp only [hr] at h
          exact h

theorem frontiersLoop_fuel_mono (src : Nat) (fuel extra : Nat) (g : Graph ID)
    (done : List Bool) (q : List (Nat × Int)) (dist steps : Int)
    (r : Graph ID × List (List (Nat × Int)))
    (h : frontiersLoop src fuel g done q dist steps = .ok r) :
    frontiersLoop src (fuel + extra) g done q dist steps = .ok r := by
  induction extra with
  | zero => exact h
  | succ n ih => exact frontiersLoop_fuel_succ src (fuel + n) g done q dist steps r ih

/-- The marking of `expand`: a target is appended only when it was not marked,
so the targets appended so far stay free of duplicates and marked. -/
theorem expand_marked : ∀ (es : List (Nat × Int)) (done : List Bool) (nq : List (Nat × Int))
    (done2 : List Bool) (nq2 : List (Nat × Int)),
    expand done nq es = .ok (done2, nq2) → ∀ L : List Nat,
    (L ++ nq.map Prod.fst).Nodup → (∀ t ∈ L ++ nq.map Prod.fst, done[t]? = some true) →
    (L ++ nq2.map Prod.fst).Nodup ∧ ∀ t ∈ L ++ nq2.map Prod.fst, done2[t]? = some true := by
  intro es
  induction es with
  | nil =>
    intro done nq done2 nq2 h L h1 h2
    simp only [expand, Res.ok.injEq, Prod.mk.injEq] at h
    rw [← h.1, ← h.2]
    exact ⟨h1, h2⟩
  | cons e2 rest ih =>
    intro done nq done2 nq2 h L h1 h2
    unfold expand at h
    cases hd : done[e2.1]? with
    | none => simp [hd] at h
    | some b =>
      cases b with
      | true =>
        simp only [hd] at h
        exact ih done nq done2 nq2 h L h1 h2
      | false =>
        simp only [hd] at h
        have hlt : e2.1 < done.length := (List.getElem?_eq_some_iff.mp hd).1
        have hnew : e2.1 ∉ L ++ nq.map Prod.fst := by
          intro hmem
          have := h2 _ hmem
          rw [hd] at this
          simp at this
        have hassoc : L ++ (nq ++ [e2]).map Prod.fst = (L ++ nq.map Prod.fst) ++ [e2.1] := by
          simp
        apply ih (done.set e2.1 true) (nq ++ [e2]) done2 nq2 h L
        · rw [hassoc, List.nodup_append]
          refine ⟨h1, List.nodup_singleton _, ?_⟩
          intro x hx hx2
          rw [List.mem_singleton] at hx2
          rw [hx2] at hx
          exact hnew hx
        · intro t ht
          rw [hassoc] at ht
          by_cases hte : e2.1 = t
          · rw [← hte, List.getElem?_set_self hlt]
          · rw [List.getElem?_set_ne hte]
            rcases List.mem_append.mp ht with ht | ht
            · exact h2 t ht
            · rw [List.mem_singleton] at ht
              exact absurd ht.symm hte

theorem layer_marked (src : Nat) (dist steps : Int) :
    ∀ (rem : List (Nat × Int)) (st st1 : LayerState ID),
      layer src dist steps rem st = .ok st1 → ∀ L : List Nat,
      (L ++ st.nextQ.map Prod.fst).Nodup →
      (∀ t ∈ L ++ st.nextQ.map Prod.fst, st.done[t]? = some true) →
      (L ++ st1.nextQ.map Prod.fst).Nodup ∧
        ∀ t ∈ L ++ st1.nextQ.map Prod.fst, st1.done[t]? = some true := by
  intro rem
  induction rem with
  | nil =>
    intro st st1 h L h1 h2
    simp only [layer, Res.ok.injEq] at h
    rw [← h]
    exact ⟨h1, h2⟩
  | cons e rest ih =>
    intro st st1 h L h1 h2
    rw [layer] at h
    cases hset : st.g.set src e.1 (intAdd dist e.2) steps with
    | outOfRange => simp [hset] at h
    | outOfFuel => simp [hset] at h
    | ok p =>
      obtain ⟨g1, shorter⟩ := p
      simp only [hset] at h
      cases hexp : expand st.done st.nextQ (g1.getEdges e.1) with
      | outOfRange => simp [hexp] at h
      | outOfFuel => simp [hexp] at h
      | ok p2 =>
        obtain ⟨done1, nextQ1⟩ := p2
        simp only [hexp] at h
        obtain ⟨k1, k2⟩ := expand_marked _ st.done st.nextQ done1 nextQ1 hexp L h1 h2
        exact ih _ st1 h L k1 k2

/-- The frontiers processed by the loop: each is non-empty with targets in
range, there are at most `fuel` of them, and the targets of the frontiers
after the first are new and pairwise different. -/
theorem frontiersLoop_spec {E : List (Nat × Nat × Int)} {N src : Nat}
    (hval : ∀ e ∈ E, e.1 < N ∧ e.2.1 < N) (hsrc : src < N) :
    ∀ (fuel : Nat) (g : Graph ID) (done : List Bool) (q : List (Nat × Int)) (dist steps : Int)
      (g1 : Graph ID) (fs : List (List (Nat × Int))),
      g.Edges = E → g.M.length = N → (∀ row ∈ g.M, row.length = N) → done.length = N →
      (∀ e ∈ q, e.1 < N) →
      frontiersLoop src fuel g done q dist steps = .ok (g1, fs) →
      fs.length ≤ fuel ∧ (∀ q1 ∈ fs, q1 ≠ [] ∧ ∀ e ∈ q1, e.1 < N) ∧
      (fs = [] ∨ ∃ fs1, fs = q :: fs1) ∧
      ∀ L : List Nat, L.Nodup → (∀ t ∈ L, done[t]? = some true) →
        (L ++ laterTargets fs).Nodup := by
  intro fuel
  induction fuel with
  | zero =>
    intro g done q dist steps g1 fs _ _ _ _ _ h
    cases q with
    | nil =>
      simp only [frontiersLoop, Res.ok.injEq, Prod.mk.injEq] at h
      rw [← h.2]
      exact ⟨by simp, by simp, Or.inl rfl, fun L hL _ => by simpa [laterTargets] using hL⟩
    | cons e q => simp [frontiersLoop] at h
  | succ fuel ih =>
    intro g done q dist steps g1 fs hE hrows hcols hdone hq h
    cases q with
    | nil =>
      simp only [frontiersLoop, Res.ok.injEq, Prod.mk.injEq] at h
      rw [← h.2]
      exact ⟨by simp, by simp, Or.inl rfl, fun L hL _ => by simpa [laterTargets] using hL⟩
    | cons e q =>
      rw [frontiersLoop] at h
      obtain ⟨st1, l1, l2, l3, l4, l5, l6, _, _⟩ :=
        layer_total dist steps hval hsrc (e :: q)
          { g := g, done := done, nextQ := [], nextDist := 0 } hE hrows hcols hdone hq
          (by intro e2 he2; simp at he2)
      simp only [l1] at h
      cases hr : frontiersLoop src fuel st1.g st1.done st1.nextQ st1.nextDist (steps + 1) with
      | outOfRange => simp [hr] at h
      | outOfFuel => simp [hr] at h
      | ok r =>
        obtain ⟨g2, fs1⟩ := r
        simp only [hr, Res.ok.injEq, Prod.mk.injEq] at h
        obtain ⟨_, hfs⟩ := h
        obtain ⟨i1, i2, i3, i4⟩ := ih st1.g st1.done st1.nextQ st1.nextDist (steps + 1) g2 fs1
          (by rw [l2.2.2.1]; exact hE) l3 l4 l5 l6 hr
        rw [← hfs]
        refine ⟨by simp only [List.length_cons]; omega, ?_, Or.inr ⟨fs1, rfl⟩, ?_⟩
        · intro q1 hq1
          rcases List.mem_cons.mp hq1 with hq1 | hq1
          · rw [hq1]
            exact ⟨by simp, hq⟩
          · exact i2 q1 hq1
        · intro L hL hmark
          obtain ⟨m1, m2⟩ := layer_marked src dist steps (e :: q)
            { g := g, done := done, nextQ := [], nextDist := 0 } st1 l1 L
            (by simpa using hL) (by simpa using hmark)
          have hnext := i4 (L ++ st1.nextQ.map Prod.fst) m1 m2
          show (L ++ (fs1.flatten).map Prod.fst).Nodup
          rcases i3 with h0 | ⟨fs2, h0⟩
          · rw [h0]
            simpa using hL
          · rw [h0] at hnext ⊢
            simpa [laterTargets, List.append_assoc] using hnext

end Frontiers

end GoGraphiti

/-! ## Claim C21: the per-source procedure terminates within bounds -/

namespace GoGraphiti

section EngineTotal

variable {ID : Type}

theorem distance_structural (g : Graph ID) (hs : g.Structural) (src : Nat)
    (hsrc : src < g.Nodes.length) :
    ∃ g1 fs, g.distance src = .ok g1 ∧
      (∀ fuel, g.Nodes.length + 1 ≤ fuel →
        g.frontiers fuel src = .ok (g1, fs) ∧ g.distanceFuel fuel src = .ok g1) ∧
      fs.length ≤ g.Nodes.length + 1 ∧
      (∀ q ∈ fs, q ≠ [] ∧ ∀ e ∈ q, e.1 < g.Nodes.length) ∧
      (laterTargets fs).Nodup ∧ g1.Structural ∧ SameFrame g g1 := by
  have hq : ∀ e ∈ g.getEdges src, e.1 < g.Nodes.length := by
    intro e he
    exact (hs.edges _ ((mem_getEdges g src e.1 e.2).mp he)).2
  have hlen : (List.replicate g.Nodes.length false).length = g.Nodes.length := by simp
  obtain ⟨g1, h1, h2, h3, h4, _⟩ :=
    distanceLoop_total hs.edges hsrc (g.Nodes.length + 1) g
      (List.replicate g.Nodes.length false) (g.getEdges src) 0 1 rfl hs.rows hs.cols
      hlen hq (by intro _; simp)
  have herase := frontiersLoop_erase src (g.Nodes.length + 1) g
    (List.replicate g.Nodes.length false) (g.getEdges src) 0 1
  rw [h1] at herase
  cases hf : frontiersLoop src (g.Nodes.length + 1) g (List.replicate g.Nodes.length false)
      (g.getEdges src) 0 1 with
  | outOfRange => simp [hf, Res.bind] at herase
  | outOfFuel => simp [hf, Res.bind] at herase
  | ok r =>
    obtain ⟨g2, fs⟩ := r
    simp only [hf, Res.bind, Res.ok.injEq] at herase
    subst herase
    obtain ⟨k1, k2, _, k4⟩ := frontiersLoop_spec hs.edges hsrc (g.Nodes.length + 1) g
      (List.replicate g.Nodes.length false) (g.getEdges src) 0 1 g2 fs rfl hs.rows hs.cols
      hlen hq hf
    refine ⟨g2, fs, h1, ?_, k1, k2, ?_, ?_, h2⟩
    · intro fuel hfuel
      have hmono := frontiersLoop_fuel_mono src (g.Nodes.length + 1)
        (fuel - (g.Nodes.length + 1)) g (List.replicate g.Nodes.length false)
        (g.getEdges src) 0 1 (g2, fs) hf
      have hfu : g.Nodes.length + 1 + (fuel - (g.Nodes.length + 1)) = fuel := by omega
      rw [hfu] at hmono
      refine ⟨hmono, ?_⟩
      have he := frontiersLoop_erase src fuel g (List.replicate g.Nodes.length false)
        (g.getEdges src) 0 1
      rw [hmono] at he
      exact he.symm
    · have := k4 [] List.nodup_nil (by intro t ht; simp at ht)
      simpa using this
    · constructor
      · rw [h2.1]
        exact h3
      · rw [h2.1]
        exact h4
      · rw [h2.1, h2.2.2.1]
        exact hs.edges

theorem allDistancesFrom_total : ∀ (n i : Nat) (g : Graph ID), g.Structural →
    i + n = g.Nodes.length →
    ∃ g2, allDistancesFrom n i g = .ok g2 ∧ g2.Structural ∧ SameFrame g g2 := by
  intro n
  induction n with
  | zero =>
    intro i g hs _
    exact ⟨g, rfl, hs, SameFrame.refl g⟩
  | succ n ih =>
    intro i g hs hn
    obtain ⟨g1, _, h1, _, _, _, _, h2, h3⟩ := distance_structural g hs i (by omega)
    obtain ⟨g2, k1, k2, k3⟩ := ih (i + 1) g1 h2 (by rw [h3.1]; omega)
    refine ⟨g2, ?_, k2, h3.trans k3⟩
    simp only [allDistancesFrom, h1]
    exact k1

theorem steps_total [DecidableEq ID] (g : Graph ID) (hs : g.Structural) (src dst : ID) :
    ∃ r, g.Steps src dst = .ok r := by
  unfold Graph.Steps
  cases hx : g.getIdx src with
  | none => exact ⟨_, rfl⟩
  | some x =>
    cases hy : g.getIdx dst with
    | none => exact ⟨_, rfl⟩
    | some y =>
      have hxl := getIdx_lt g src x hx
      have hyl := getIdx_lt g dst y hy
      obtain ⟨g1, _, h1, _, _, _, _, h2, h3⟩ := distance_structural g hs x hxl
      have hxl1 : x < g1.M.length := by rw [h2.rows, h3.1]; exact hxl
      have hyl1 : y < (g1.M[x]).length := by
        rw [h2.cols _ (List.getElem_mem hxl1), h3.1]
        exact hyl
      simp only [h1, List.getElem?_eq_getElem hxl1, List.getElem?_eq_getElem hyl1]
      exact ⟨_, rfl⟩

/-- Claim C21: on every graph that satisfies the structural invariants (matrix
`N × N`, every edge index below `N`; cycles, self-loops and parallel edges
allowed), `distance(src)` returns a graph for every `src < N` without any
index out of range.  The frontiers it processes are the same for every bound
`≥ N + 1` on the number of layers: there are at most `N + 1` of them, each is
non-empty with targets below `N`, and no node index occurs twice in the
frontiers after the initial one.  The result satisfies the invariants again,
so `AllDistances` and `Steps` return as well; and every graph returned by a
build satisfies the invariants. -/
theorem C21_distance_terminates_in_range {G N : Type} [DecidableEq ID]
    (gr : Graphiti G N ID) (g : Graph ID) (hs : g.Structural) :
    (∀ src, src < g.Nodes.length →
      ∃ g1 fs, g.distance src = .ok g1 ∧
        (∀ fuel, g.Nodes.length + 1 ≤ fuel →
          g.frontiers fuel src = .ok (g1, fs) ∧ g.distanceFuel fuel src = .ok g1) ∧
        fs.length ≤ g.Nodes.length + 1 ∧
        (∀ q ∈ fs, q ≠ [] ∧ ∀ e ∈ q, e.1 < g.Nodes.length) ∧
        (laterTargets fs).Nodup ∧ g1.Structural ∧ SameFrame g g1) ∧
    (∃ g2, g.AllDistances = .ok g2 ∧ g2.Structural ∧ SameFrame g g2) ∧
    (∀ src dst, ∃ r, g.Steps src dst = .ok r) ∧
    (∀ fuel graph nodes gb, gr.Builds fuel graph nodes gb → gb.Structural) := by
  refine ⟨fun src hsrc => distance_structural g hs src hsrc, ?_, ?_, ?_⟩
  · exact allDistancesFrom_total g.Nodes.length 0 g hs (by simp)
  · exact fun src dst => steps_total g hs src dst
  · intro fuel graph nodes gb hb
    have hwf := (builds_fresh gr fuel graph nodes gb hb).wf
    exact ⟨hwf.rows, hwf.cols, hwf.edges⟩

end EngineTotal

/-- The graph `tangleGraph` (parallel edges, a self-loop and a cycle) is built
from `tangleSrc` and satisfies the invariants; `distance(0)` processes the
frontiers `tangleFrontiers`, three layers, and the nodes entering the later
frontiers are 1, 2 and 0, each once. -/
theorem C21_distance_terminates_in_range_witness :
    tangleGraph.Structural ∧
    tableCaps.New 3 tangleSrc [] = .ok (some tangleGraph, none) ∧
    (tangleGraph.frontiers 4 0).bind (fun p => .ok p.2) = .ok tangleFrontiers ∧
    laterTargets tangleFrontiers = [1, 2, 0] ∧
    (∃ g1 fs, tangleGraph.distance 0 = .ok g1 ∧
      (∀ fuel, tangleGraph.Nodes.length + 1 ≤ fuel →
        tangleGraph.frontiers fuel 0 = .ok (g1, fs) ∧
        tangleGraph.distanceFuel fuel 0 = .ok g1) ∧
      fs.length ≤ tangleGraph.Nodes.length + 1 ∧
      (∀ q ∈ fs, q ≠ [] ∧ ∀ e ∈ q, e.1 < tangleGraph.Nodes.length) ∧
      (laterTargets fs).Nodup ∧ g1.Structural ∧ SameFrame tangleGraph g1) :=
  have hs : tangleGraph.Structural := ⟨by decide, by decide, by decide⟩
  ⟨hs, by decide, by decide, by decide,
    (C21_distance_terminates_in_range tableCaps tangleGraph hs).1 0 (by decide)⟩

end GoGraphiti

/-! ## The strict build stops at the first fault -/

namespace GoGraphiti

section StrictFaults

variable {G N ID : Type} [DecidableEq ID]

theorem addEdgesLoop_scan (gr : Graphiti G N ID) (graph : G) (id : ID) (idx : Nat) :
    ∀ (nbrs : List (ID × Int)) (g : Graph ID) (errs : List (Err ID)),
      BuildInv False g → g.IndexSound → idx < g.Nodes.length →
      ∃ g1, gr.addEdgesLoop graph id idx false nbrs g errs =
        .ok (strictOutcome (gr.scanFault graph id g.Nodes nbrs) g1 errs) := by
  have hF : False → ∀ id n, gr.GetNode graph id = some n → gr.GetName n = id :=
    fun hf => hf.elim
  intro nbrs
  induction nbrs with
  | nil =>
    intro g errs _ _ _
    exact ⟨g, rfl⟩
  | cons nbr rest ih =>
    intro g errs hinv hs hidx
    obtain ⟨e, d⟩ := nbr
    rw [Graphiti.addEdgesLoop, Graphiti.scanFault]
    by_cases hd : d < 0
    · simp only [hd, if_true]
      exact ⟨g, rfl⟩
    · simp only [hd, if_false]
      cases hres : gr.resolveTarget graph g e with
      | none =>
        obtain ⟨m1, m2⟩ := resolveTarget_none gr graph g e hs hres
        simp only [m1, m2, if_false]
        exact ⟨g, rfl⟩
      | some p =>
        obtain ⟨g1, idx2⟩ := p
        simp only
        obtain ⟨h1, h2, h3⟩ := resolveTarget_inv gr graph g e False hF hinv hres
        obtain ⟨hs1, hcase⟩ := resolveTarget_some gr graph g e hs hres
        have hx : idx < g1.GroupOf.length := by rw [h1.wf.groups]; omega
        have hy : idx2 < g1.GroupOf.length := by rw [h1.wf.groups]; exact h2
        obtain ⟨go, hu, hgo⟩ := updateGroups_ok g1 hx hy
        rw [hu]
        simp only
        have hidx1 : idx < g1.Nodes.length := by omega
        have hinv2 := addEdge_inv h1 go d hgo hidx1 h2 (by omega)
        have hs2 : Graph.IndexSound
            (Graph.mk g1.Nodes g1.IndexOf (g1.Edges ++ [(idx, idx2, d)]) go g1.M) :=
          ⟨hs1.mem, hs1.get⟩
        obtain ⟨g3, hrun⟩ := ih _ errs hinv2 hs2 hidx1
        have hrun2 : gr.addEdgesLoop graph id idx false rest
            (Graph.mk g1.Nodes g1.IndexOf (g1.Edges ++ [(idx, idx2, d)]) go g1.M) errs =
            .ok (strictOutcome (gr.scanFault graph id g1.Nodes rest) g3 errs) := hrun
        refine ⟨g3, ?_⟩
        rw [hrun2]
        rcases hcase with ⟨c1, c2, _, _⟩ | ⟨c1, xn, c2, c3, _, _⟩
        · simp only [c1, if_true, c2]
        · simp only [c1, if_false, c2, c3]

/-- The outcome of the strict `addEdges`, given the first fault of the node. -/
theorem addEdges_scan (gr : Graphiti G N ID) (graph : G) (id : ID) (idx : Nat) (g : Graph ID)
    (hinv : BuildInv False g) (hs : g.IndexSound) (hidx : idx < g.Nodes.length) :
    ∃ g1, gr.addEdges graph id g idx false =
      .ok (strictOutcome (gr.faultOfNode graph g.Nodes id) g1 []) := by
  unfold Graphiti.addEdges Graphiti.faultOfNode
  cases hnode : gr.GetNode graph id with
  | none => exact ⟨g, rfl⟩
  | some n =>
    dsimp only
    by_cases hl : (gr.GetNext graph n).1.length ≠ (gr.GetNext graph n).2.length
    · rw [if_pos hl, if_pos hl]
      exact ⟨g, rfl⟩
    · rw [if_neg hl, if_neg hl]
      exact addEdgesLoop_scan gr graph id idx _ g [] hinv hs hidx

theorem faultAt_of_follows (gr : Graphiti G N ID) (graph : G) (init : List ID) (idx : Nat)
    (g : Graph ID) (hf : gr.Follows graph init idx g) (id : ID)
    (hid : g.Nodes[idx]? = some id) :
    gr.faultAt graph init idx = gr.faultOfNode graph g.Nodes id := by
  unfold Graphiti.faultAt
  rw [← hf.nodes, hid]

/-- The strict node loop stops at the first fault with that single error. -/
theorem buildLoop_first_fault (gr : Graphiti G N ID) (graph : G) (init : List ID) (i : Nat)
    (e : Err ID) (hfault : gr.faultAt graph init i = some e) :
    ∀ (fuel idx : Nat) (g : Graph ID) (errs : List (Err ID)),
      gr.Follows graph init idx g → idx ≤ i →
      (∀ j, idx ≤ j → j < i → gr.faultAt graph init j = none) → i - idx < fuel →
      gr.buildLoop graph false fuel idx g errs = .ok (none, errs ++ [e]) := by
  have hi : i < (gr.knownAt graph init i).length := by
    unfold Graphiti.faultAt at hfault
    cases hk : (gr.knownAt graph init i)[i]? with
    | none => simp [hk] at hfault
    | some id => exact (List.getElem?_eq_some_iff.mp hk).1
  intro fuel
  induction fuel with
  | zero =>
    intro idx g errs _ _ _ hfuel
    omega
  | succ fuel ih =>
    intro idx g errs hf hle hnone hfuel
    have hlt : idx < g.Nodes.length := by
      rw [hf.nodes]
      exact knownAt_lt gr graph init (by omega) hle
    have hid : g.Nodes[idx]? = some g.Nodes[idx] := List.getElem?_eq_getElem hlt
    obtain ⟨g1, hadd⟩ := addEdges_scan gr graph g.Nodes[idx] idx g hf.inv hf.sound hlt
    rw [← faultAt_of_follows gr graph init idx g hf _ hid] at hadd
    rw [Graphiti.buildLoop, hid]
    simp only
    by_cases hii : idx = i
    · subst hii
      rw [hfault] at hadd
      rw [hadd]
      simp [strictOutcome]
    · have hn := hnone idx (le_refl _) (by omega)
      rw [hn] at hadd
      have hadd2 : gr.addEdges graph g.Nodes[idx] g idx false = .ok (true, g1, []) := hadd
      rw [hadd2]
      simp only [if_true, List.append_nil]
      exact ih (idx + 1) g1 errs
        (follows_step gr graph init idx false g g1 _ [] hf hid hadd2) (by omega)
        (fun j hj1 hj2 => hnone j (by omega) hj2) (by omega)

theorem strict_no_fault (gr : Graphiti G N ID) (graph : G) (init : List ID) (n : Nat)
    (hnone : ∀ j, j < n → gr.faultAt graph init j = none)
    (hstop : (gr.knownAt graph init n).length ≤ n ∨ ∀ j, gr.faultAt graph init j = none) :
    ∀ idx g id b g1 errs1, gr.Follows graph init idx g → g.Nodes[idx]? = some id →
      gr.addEdges graph id g idx false = .ok (b, g1, errs1) → b = true := by
  intro idx g id b g1 errs1 hf hid hadd
  have hlt : idx < g.Nodes.length := (List.getElem?_eq_some_iff.mp hid).1
  have hfa : gr.faultAt graph init idx = none := by
    rcases hstop with hstop | hall
    · by_cases hin : idx < n
      · exact hnone idx hin
      · exfalso
        have hst := knownAt_stuck gr graph init n hstop (idx - n)
        have : n + (idx - n) = idx := by omega
        rw [this] at hst
        rw [hf.nodes, hst] at hlt
        omega
    · exact hall idx
  obtain ⟨g2, hscan⟩ := addEdges_scan gr graph id idx g hf.inv hf.sound hlt
  rw [← faultAt_of_follows gr graph init idx g hf id hid, hfa, hadd] at hscan
  simp only [strictOutcome, Res.ok.injEq, Prod.mk.injEq] at hscan
  exact hscan.1

theorem new_of_newGraph (gr : Graphiti G N ID) (fuel : Nat) (graph : G) (nodes : List N)
    (r : Option (Graph ID) × List (Err ID))
    (h : gr.newGraph fuel graph nodes false = .ok r) :
    gr.New fuel graph nodes = .ok (r.1, errorsJoin r.2) := by
  unfold Graphiti.New
  rw [h]

theorem new_fuel_mono (gr : Graphiti G N ID) (fuel fuel2 : Nat) (graph : G) (nodes : List N)
    (r : Option (Graph ID) × Option (List (Err ID))) (hle : fuel ≤ fuel2)
    (h : gr.New fuel graph nodes = .ok r) : gr.New fuel2 graph nodes = .ok r := by
  unfold Graphiti.New at h
  cases hn : gr.newGraph fuel graph nodes false with
  | outOfRange => simp [hn] at h
  | outOfFuel => simp [hn] at h
  | ok res =>
    have hmono := newGraph_fuel_mono gr graph nodes false fuel (fuel2 - fuel) res hn
    have hfu : fuel + (fuel2 - fuel) = fuel2 := by omega
    rw [hfu] at hmono
    simp only [hn] at h
    unfold Graphiti.New
    rw [hmono]
    exact h

theorem new_first_fault (gr : Graphiti G N ID) (graph : G) (nodes : List N) (i : Nat)
    (e : Err ID) (h : gr.IsFirstFault graph (gr.initGraph graph nodes).Nodes i e)
    (fuel : Nat) (hfuel : i < fuel) :
    gr.New fuel graph nodes = .ok (none, some [e]) := by
  have hrun := buildLoop_first_fault gr graph _ i e h.1 fuel 0 _ []
    (follows_init gr graph nodes) (Nat.zero_le _) (fun j _ hj => h.2 j hj) (by omega)
  exact new_of_newGraph gr fuel graph nodes _ hrun

theorem new_no_fault (gr : Graphiti G N ID) (graph : G) (nodes : List N) (n : Nat)
    (hnone : ∀ j, j < n → gr.faultAt graph (gr.initGraph graph nodes).Nodes j = none)
    (hstop : (gr.knownAt graph (gr.initGraph graph nodes).Nodes n).length ≤ n) :
    ∃ g, ∀ fuel, n ≤ fuel → gr.New fuel graph nodes = .ok (some g, none) := by
  obtain ⟨g, errs, hrun⟩ := buildLoop_returns gr graph _ false
    (strict_no_fault gr graph _ n hnone (Or.inl hstop)) n hstop n 0 _ []
    (follows_init gr graph nodes) (Nat.zero_le _) (by omega)
  have herrs : errs = [] :=
    ((buildLoop_inv gr graph false False (fun hf => hf.elim) n 0 _ []
      (initGraph_inv gr graph nodes False (fun hf => hf.elim))).2 g errs hrun).2
  subst herrs
  refine ⟨g, fun fuel hfuel => ?_⟩
  exact new_fuel_mono gr n fuel graph nodes _ hfuel (new_of_newGraph gr n graph nodes _ hrun)

theorem new_diverges (gr : Graphiti G N ID) (graph : G) (nodes : List N)
    (hnone : ∀ j, gr.faultAt graph (gr.initGraph graph nodes).Nodes j = none)
    (hgrow : ∀ n, n < (gr.knownAt graph (gr.initGraph graph nodes).Nodes n).length)
    (fuel : Nat) : gr.New fuel graph nodes = .outOfFuel := by
  have hrun := buildLoop_diverges gr graph _ false
    (strict_no_fault gr graph _ 0 (fun j hj => absurd hj (by omega)) (Or.inr hnone)) hgrow
    fuel 0 _ [] (follows_init gr graph nodes)
  unfold Graphiti.New Graphiti.newGraph
  rw [hrun]

end StrictFaults

end GoGraphiti

/-! ## Claim C7: the strict build and the first fault -/

namespace GoGraphiti

section StrictClaim

variable {G N ID : Type} [DecidableEq ID]

theorem scanFault_brokenEdge (gr : Graphiti G N ID) (graph : G) (id u v : ID) :
    ∀ (nbrs : List (ID × Int)) (known : List ID),
      gr.scanFault graph id known nbrs = some (.brokenEdge u v) →
      u = id ∧ gr.GetNode graph v = none ∧ ∃ d, (v, d) ∈ nbrs ∧ 0 ≤ d := by
  intro nbrs
  induction nbrs with
  | nil =>
    intro known h
    simp [Graphiti.scanFault] at h
  | cons nbr rest ih =>
    intro known h
    obtain ⟨e, d⟩ := nbr
    rw [Graphiti.scanFault] at h
    have hrest : ∀ known2, gr.scanFault graph id known2 rest = some (.brokenEdge u v) →
        u = id ∧ gr.GetNode graph v = none ∧ ∃ d2, (v, d2) ∈ (e, d) :: rest ∧ 0 ≤ d2 := by
      intro known2 h2
      obtain ⟨k1, k2, d2, k3, k4⟩ := ih known2 h2
      exact ⟨k1, k2, d2, List.mem_cons_of_mem _ k3, k4⟩
    by_cases hd : d < 0
    · simp [hd] at h
    · simp only [hd, if_false] at h
      by_cases he : e ∈ known
      · simp only [he, if_true] at h
        exact hrest known h
      · simp only [he, if_false] at h
        cases hnode : gr.GetNode graph e with
        | none =>
          simp only [hnode, Option.some.injEq, Err.brokenEdge.injEq] at h
          obtain ⟨rfl, rfl⟩ := h
          exact ⟨rfl, hnode, d, List.mem_cons_self _ _, by omega⟩
        | some xn =>
          simp only [hnode] at h
          exact hrest _ h

theorem faultAt_brokenEdge (gr : Graphiti G N ID) (graph : G) (init : List ID) (i : Nat)
    (u v : ID) (h : gr.faultAt graph init i = some (.brokenEdge u v)) :
    (gr.knownAt graph init i)[i]? = some u ∧ gr.GetNode graph v = none ∧
      ∃ d, (v, d) ∈ gr.neighbours graph u ∧ 0 ≤ d := by
  unfold Graphiti.faultAt at h
  cases hk : (gr.knownAt graph init i)[i]? with
  | none => simp [hk] at h
  | some id =>
    simp only [hk] at h
    unfold Graphiti.faultOfNode at h
    cases hnode : gr.GetNode graph id with
    | none => simp [hnode] at h
    | some n =>
      simp only [hnode] at h
      by_cases hl : (gr.GetNext graph n).1.length ≠ (gr.GetNext graph n).2.length
      · rw [if_pos hl] at h
        simp at h
      · rw [if_neg hl] at h
        obtain ⟨k1, k2, d, k3, k4⟩ := scanFault_brokenEdge gr graph id u v _ _ h
        subst k1
        refine ⟨rfl, k2, d, ?_, k4⟩
        unfold Graphiti.neighbours
        rw [hnode]
        exact k3

theorem new_result (gr : Graphiti G N ID) (graph : G) (nodes : List N) (fuel : Nat)
    (r : Option (Graph ID) × Option (List (Err ID)))
    (h : gr.New fuel graph nodes = .ok r) :
    (∃ g, r = (some g, none) ∧
      ∀ j, gr.faultAt graph (gr.initGraph graph nodes).Nodes j = none) ∨
    (∃ i e, r = (none, some [e]) ∧
      gr.IsFirstFault graph (gr.initGraph graph nodes).Nodes i e) := by
  by_cases hex : ∃ i, gr.faultAt graph (gr.initGraph graph nodes).Nodes i ≠ none
  · right
    classical
    have hspec := Nat.find_spec hex
    have hmin : ∀ j, j < Nat.find hex →
        gr.faultAt graph (gr.initGraph graph nodes).Nodes j = none := by
      intro j hj
      exact not_not.mp (Nat.find_min hex hj)
    cases hfa : gr.faultAt graph (gr.initGraph graph nodes).Nodes (Nat.find hex) with
    | none => exact absurd hfa hspec
    | some e =>
      have hfirst : gr.IsFirstFault graph (gr.initGraph graph nodes).Nodes (Nat.find hex) e :=
        ⟨hfa, hmin⟩
      have h1 := new_first_fault gr graph nodes _ e hfirst (max fuel (Nat.find hex + 1))
        (by omega)
      have h2 := new_fuel_mono gr fuel (max fuel (Nat.find hex + 1)) graph nodes r
        (by omega) h
      rw [h1] at h2
      simp only [Res.ok.injEq] at h2
      exact ⟨_, e, h2.symm, hfirst⟩
  · have hall : ∀ j, gr.faultAt graph (gr.initGraph graph nodes).Nodes j = none := by
      intro j
      by_contra hj
      exact hex ⟨j, hj⟩
    by_cases hs : ∃ n, (gr.knownAt graph (gr.initGraph graph nodes).Nodes n).length ≤ n
    · left
      obtain ⟨n, hn⟩ := hs
      obtain ⟨g, hg⟩ := new_no_fault gr graph nodes n (fun j _ => hall j) hn
      have h1 := hg (max fuel n) (by omega)
      have h2 := new_fuel_mono gr fuel (max fuel n) graph nodes r (by omega) h
      rw [h1] at h2
      simp only [Res.ok.injEq] at h2
      exact ⟨g, h2.symm, hall⟩
    · exfalso
      have hgrow : ∀ n, n < (gr.knownAt graph (gr.initGraph graph nodes).Nodes n).length := by
        intro n
        by_contra hn
        exact hs ⟨n, by omega⟩
      rw [new_diverges gr graph nodes hall hgrow fuel] at h
      simp at h

theorem stepSrc_faultAt (j : Nat) : stepSrc.faultAt () [0] j = none := by
  unfold Graphiti.faultAt
  rw [stepSrc_knownAt]
  have hn : (List.range (j + 1))[j]? = some j := by
    rw [List.getElem?_range (by omega)]
  rw [hn]
  have hnew : j + 1 ∉ List.range (j + 1) := by simp
  simp [Graphiti.faultOfNode, Graphiti.scanFault, stepSrc, hnew]

/-- Claim C7, as stated, fails in two places.  On the source `stepSrc`, which
has no fault, the strict build returns nothing at all, whatever fuel it is
given: the traversal never ends.  And on `strandedSrc`, whose only fault is the
dangling edge B→E, the strict build with the seed A returns a graph and no
error, because the traversal never reaches B; without seeds it returns no graph
and the single error `BrokenEdge{B, E}`. -/
theorem C7_counterexample :
    (∀ fuel, stepSrc.New fuel () [] = .outOfFuel) ∧
    tableCaps.New 1 strandedSrc [Label.A] = .ok (some loneGraph, none) ∧
    tableCaps.New 2 strandedSrc [] =
      .ok (none, some [Err.brokenEdge Label.B Label.E]) :=
  ⟨fun fuel => new_diverges stepSrc () [] stepSrc_faultAt
      (fun n => by
        show n < (stepSrc.knownAt () [0] n).length
        rw [stepSrc_knownAt]
        simp) fuel,
   by decide, by decide⟩

/-- Claim C7, amended.  The faults of a source are taken in traversal order:
nodes by ascending index and, within a node, the failed lookup of the node,
then the length mismatch of its neighbour lists, then its neighbours in order
(negative cost, or a target neither known nor found).  For every source and
seed list: if the traversal meets a first fault `e` at node `i`, the strict
build `New` returns, with every fuel above `i`, no graph and exactly the one
error `e`; if it meets no fault before it comes to an end at `n`, `New` returns
one graph and no error with every fuel from `n` on; if it meets no fault and
never ends, `New` does not return.  So whenever `New` returns, the result is a
graph without error on a source without fault, or no graph and the single
first fault; there is never an index out of range.  At a faulty neighbour the
neighbour loop returns at once with the unchanged graph, whatever neighbours
follow.  In particular, when the only fault the traversal meets is a dangling
edge from `u` to `v`, `New` returns no graph and the single error
`BrokenEdge{u, v}`; and whenever that is the fault at node `i`, that node is
`u`, the lookup of `v` fails, and `v` is a neighbour of `u` with a cost `≥ 0`. -/
theorem C7_strict_single_first_fault (gr : Graphiti G N ID) (graph : G) (nodes : List N) :
    (∀ i e, gr.IsFirstFault graph (gr.initGraph graph nodes).Nodes i e →
      ∀ fuel, i < fuel → gr.New fuel graph nodes = .ok (none, some [e])) ∧
    (∀ n, (∀ j, j < n → gr.faultAt graph (gr.initGraph graph nodes).Nodes j = none) →
      (gr.knownAt graph (gr.initGraph graph nodes).Nodes n).length ≤ n →
      ∃ g, ∀ fuel, n ≤ fuel → gr.New fuel graph nodes = .ok (some g, none)) ∧
    ((∀ j, gr.faultAt graph (gr.initGraph graph nodes).Nodes j = none) →
      (∀ n, n < (gr.knownAt graph (gr.initGraph graph nodes).Nodes n).length) →
      ∀ fuel, gr.New fuel graph nodes = .outOfFuel) ∧
    (∀ fuel, gr.New fuel graph nodes ≠ .outOfRange ∧
      ∀ r, gr.New fuel graph nodes = .ok r →
        (∃ g, r = (some g, none) ∧
          ∀ j, gr.faultAt graph (gr.initGraph graph nodes).Nodes j = none) ∨
        (∃ i e, r = (none, some [e]) ∧
          gr.IsFirstFault graph (gr.initGraph graph nodes).Nodes i e)) ∧
    (∀ (id : ID) (idx : Nat) (g : Graph ID) (e : ID) (d : Int) (rest : List (ID × Int))
        (errs : List (Err ID)), d < 0 →
      gr.addEdgesLoop graph id idx false ((e, d) :: rest) g errs =
        .ok (false, g, errs ++ [.negativeCost id e d])) ∧
    (∀ (id : ID) (idx : Nat) (g : Graph ID) (e : ID) (d : Int) (rest : List (ID × Int))
        (errs : List (Err ID)), ¬ d < 0 → mapGet g.IndexOf e = none →
      gr.GetNode graph e = none →
      gr.addEdgesLoop graph id idx false ((e, d) :: rest) g errs =
        .ok (false, g, errs ++ [.brokenEdge id e])) ∧
    (∀ i u v, gr.faultAt graph (gr.initGraph graph nodes).Nodes i = some (.brokenEdge u v) →
      (∀ j, j ≠ i → gr.faultAt graph (gr.initGraph graph nodes).Nodes j = none) →
      ∀ fuel, i < fuel → gr.New fuel graph nodes = .ok (none, some [.brokenEdge u v])) ∧
    (∀ i u v, gr.faultAt graph (gr.initGraph graph nodes).Nodes i = some (.brokenEdge u v) →
      (gr.knownAt graph (gr.initGraph graph nodes).Nodes i)[i]? = some u ∧
      gr.GetNode graph v = none ∧ ∃ d, (v, d) ∈ gr.neighbours graph u ∧ 0 ≤ d) := by
  refine ⟨?_, ?_, ?_, ?_, ?_, ?_, ?_, ?_⟩
  · intro i e h fuel hfuel
    exact new_first_fault gr graph nodes i e h fuel hfuel
  · intro n hnone hstop
    exact new_no_fault gr graph nodes n hnone hstop
  · intro hnone hgrow fuel
    exact new_diverges gr graph nodes hnone hgrow fuel
  · intro fuel
    refine ⟨?_, fun r h => new_result gr graph nodes fuel r h⟩
    have hne := (buildLoop_inv gr graph false False (fun hf => hf.elim) fuel 0 _ []
      (initGraph_inv gr graph nodes False (fun hf => hf.elim))).1
    unfold Graphiti.New
    cases hn : gr.newGraph fuel graph nodes false with
    | outOfRange => exact absurd hn hne
    | outOfFuel => simp
    | ok res => simp
  · intro id idx g e d rest errs hd
    rw [Graphiti.addEdgesLoop]
    simp [hd]
  · intro id idx g e d rest errs hd hmap hnode
    rw [Graphiti.addEdgesLoop]
    simp [hd, Graphiti.resolveTarget, hmap, hnode]
  · intro i u v hfa honly fuel hfuel
    exact new_first_fault gr graph nodes i _ ⟨hfa, fun j hj => honly j (by omega)⟩ fuel hfuel
  · intro i u v hfa
    exact faultAt_brokenEdge gr graph _ i u v hfa

end StrictClaim

/-- On `danglingSrc` the first fault is the dangling edge C→E, met at node 2, and
the strict build returns no graph and the single error `BrokenEdge{C, E}`; on
`faultySrc`, which has several faults, the first one is the negative cost of
A→B at node 0, and the strict build returns that error alone. -/
theorem C7_strict_single_first_fault_witness :
    tableCaps.IsFirstFault danglingSrc (tableCaps.initGraph danglingSrc []).Nodes 2
      (Err.brokenEdge Label.C Label.E) ∧
    tableCaps.New 3 danglingSrc [] = .ok (none, some [Err.brokenEdge Label.C Label.E]) ∧
    tableCaps.IsFirstFault faultySrc (tableCaps.initGraph faultySrc []).Nodes 0
      (Err.negativeCost Label.A Label.B (-1)) ∧
    tableCaps.New 1 faultySrc [] =
      .ok (none, some [Err.negativeCost Label.A Label.B (-1)]) :=
  ⟨⟨by decide, by decide⟩,
   (C7_strict_single_first_fault tableCaps danglingSrc []).1 2 _
     ⟨by decide, by decide⟩ 3 (by decide),
   ⟨by decide, by decide⟩,
   (C7_strict_single_first_fault tableCaps faultySrc []).1 0 _
     ⟨by decide, by decide⟩ 1 (by decide)⟩

end GoGraphiti
